import Mathlib

/-!
# Semlocks: a verified shallow embedding

This file embeds the Semlocks in-process named-semaphore coordinator
(`lib/Semlocks.js`) in Lean 4 and proves properties of its acquisition
engine: the priority-ordered wait queues, the grant bookkeeping, cap
management, cancellation, and the deferred completion delivery.

Modelling conventions:

* JavaScript objects used as dictionaries (`_reqs`, `_semQueues`, `_sems`,
  `_semCaps`) are association lists with JS object semantics: setting an
  existing key updates it in place (preserving key insertion order, which is
  the `for .. in` iteration order used by `setDefaultMaxLocks`), setting a
  new key appends it, and `delete` removes it.  A key that is present with
  an empty list value (`some []`) is distinct from an absent key (`none`),
  exactly as in JS, where `cancel` can leave an empty array behind in
  `_semQueues` while `_grantLock` deletes the entry instead.
* Operations that can throw a `TypeError` in JS (reading a property of
  `undefined`, e.g. `this._reqs[handle].remain` when the request record was
  deleted) return `none`; `some s` is a normally-completed call.
* `setImmediate` callbacks are modelled by a FIFO `pending` list of `Job`s;
  the scheduler step `Op.runJob` pops and executes the head.
* `setTimeout`/`clearTimeout` timers are modelled by armed flags on the
  request record (`timeoutArmed` for the `wait` timer, `ttlArmed` for the
  ttl timer); the timer firing is a separate step (`Op.fireWait`,
  `Op.fireTtl`) enabled only while the flag is armed, and firing disarms.
* Each pair of events `emit('acquire', sem, h)` / `emit('acquire:SEM', h)`
  is modelled as the single event `Ev.acq sem h` (likewise for release);
  `emit('killed', h)` is `Ev.killed h`.  Callback invocations are recorded
  in `log`: `(h, Notify.ok)` for `cb(null, release)` and
  `(h, Notify.failed e)` for `cb(err)`; a request submitted without a
  callback (`hasCb = false`) records nothing, matching `if (req.cb)`.
-/

namespace Semlocks

/-- JS-object-style association list lookup (`obj[k]`, `undefined ↦ none`). -/
def alookup {α β : Type} [DecidableEq α] : List (α × β) → α → Option β
  | [], _ => none
  | (k', v) :: rest, k => if k' = k then some v else alookup rest k

/-- JS-object-style key set (`obj[k] = v`): update in place, else append. -/
def aset {α β : Type} [DecidableEq α] : List (α × β) → α → β → List (α × β)
  | [], k, v => [(k, v)]
  | (k', v') :: rest, k, v =>
    if k' = k then (k, v) :: rest else (k', v') :: aset rest k v

/-- JS-object-style key removal (`delete obj[k]`). -/
def adel {α β : Type} [DecidableEq α] : List (α × β) → α → List (α × β)
  | [], _ => []
  | (k', v') :: rest, k =>
    if k' = k then adel rest k else (k', v') :: adel rest k

/-- `Array.prototype.indexOf` (first index of `h`, if any). -/
def idxOf? (h : Nat) : List Nat → Option Nat
  | [] => none
  | x :: rest => if x = h then some 0 else (idxOf? h rest).map (· + 1)

/-- Semaphore names are strings. -/
abbrev Sem := String

/-- The error taxonomy delivered through a request callback:
`instantFail` is `new Error('Could not acquire all locks instantly')`,
`timedOut` is `new Error('Failed to acquire all locks within allotted
time')`, and `user n` is a caller-supplied error passed to `cancel`. -/
inductive Err
  | instantFail
  | timedOut
  | user (n : Nat)
deriving DecidableEq, Repr

/-- One observable callback invocation: `ok` is `cb(null, release)`,
`failed e` is `cb(err)`. -/
inductive Notify
  | ok
  | failed (e : Err)
deriving DecidableEq, Repr

/-- Observable events emitted by the coordinator. -/
inductive Ev
  | acq (sem : Sem) (h : Nat)
  | rel (sem : Sem) (h : Nat)
  | killed (h : Nat)
deriving DecidableEq, Repr

/-- A callback queued with `setImmediate`: `callCBJob h` is
`this._callCB.bind(this, h)` and `cancelJob h` is
`this.cancel.bind(this, h, new Error('Could not acquire all locks
instantly'))`. -/
inductive Job
  | callCBJob (h : Nat)
  | cancelJob (h : Nat)
deriving DecidableEq, Repr

/-- A request record (`this._reqs[handle]`).  The JS timer objects
`timeout` and `ttlTimer` are modelled by their armed flags. -/
structure Req where
  remain : Int
  released : Nat
  sems : List Sem
  ttl : Option Nat
  priority : Int
  hasCb : Bool
  timeoutArmed : Bool
  ttlArmed : Bool
  called : Bool
deriving DecidableEq, Repr

/-- Options for `acquire`.  `wait = none` covers both an absent `wait`
property and `wait: null` (the code tests
`opts.hasOwnProperty('wait') && opts.wait !== null`); likewise for
`priority`, defaulted to 2 via `getD` below. -/
structure Opts where
  wait : Option Nat := none
  ttl : Option Nat := none
  instant : Bool := false
  priority : Option Int := none
deriving DecidableEq, Repr

/-- The coordinator state: the four registries and the id counter of the
`Semlocks` constructor, plus the observable environment (pending
`setImmediate` queue, callback log, event log). -/
structure St where
  reqs : List (Nat × Req)
  semQueues : List (Sem × List Nat)
  sems : List (Sem × List Nat)
  semCaps : List (Sem × Int)
  curId : Nat
  defaultCap : Int
  pending : List Job
  log : List (Nat × Notify)
  events : List Ev
deriving DecidableEq, Repr

/-- A freshly constructed `Semlocks` instance. -/
def initSt : St :=
  { reqs := [], semQueues := [], sems := [], semCaps := [],
    curId := 0, defaultCap := 1, pending := [], log := [], events := [] }

/-- `HANDLE_LIMIT`: the wrap-around ceiling for handle ids. -/
def HANDLE_LIMIT : Nat := 4294967295

/-- `getMaxLocks(sem)`: the explicit cap if the property is present
(`hasOwnProperty`, so an explicit 0 counts), else the default cap. -/
def getMaxLocks (s : St) (sem : Sem) : Int :=
  (alookup s.semCaps sem).getD s.defaultCap

/-- `_getNextHandle()`: reset to 0 at the limit, then post-increment. -/
def getNextHandle (s : St) : Nat × St :=
  let cur := if s.curId ≥ HANDLE_LIMIT then 0 else s.curId
  (cur, { s with curId := cur + 1 })

/-- The guard of `_grantLock`: the JS condition `(!this._sem s[sem] && cap)
|| (this._sems[sem] && this._sems[sem].length < cap)` — an array is always
truthy, and `cap` is truthy iff nonzero. -/
def grantableB (s : St) (sem : Sem) : Bool :=
  match alookup s.sems sem with
  | none => decide (getMaxLocks s sem ≠ 0)
  | some held => decide ((held.length : Int) < getMaxLocks s sem)

/-- `_grantLock(handle, sem)`.  The handle argument is an `Option` because
`_grantEmptySlots` passes `this._semQueues[sem][0]`, which is `undefined`
(`none`) when the queue array is empty.  When the guard passes, an
`undefined` handle or a missing request record makes the JS code throw at
`--this._reqs[handle].remain` (result `none`). -/
def grantLock (s : St) (h? : Option Nat) (sem : Sem) : Option (St × Bool) :=
  let holders? := alookup s.sems sem
  if grantableB s sem then
    match h? with
    | none => none
    | some h =>
      match alookup s.reqs h with
      | none => none
      | some req =>
        -- push to the holder array (created if absent)
        let s1 : St := { s with sems := aset s.sems sem ((holders?.getD []) ++ [h]) }
        -- if this handle is at the head of this sem's queue, shift it out
        let s2 : St :=
          match alookup s1.semQueues sem with
          | none => s1
          | some q =>
            if q.head? = some h then
              if q.length = 1 then { s1 with semQueues := adel s1.semQueues sem }
              else { s1 with semQueues := aset s1.semQueues sem q.tail }
            else s1
        -- `!--this._reqs[handle].remain`: on reaching 0, clear the wait
        -- timer and schedule `_callCB` for the next turn
        let remain1 := req.remain - 1
        let s3 : St :=
          if remain1 = 0 then
            { s2 with
              reqs := aset s2.reqs h { req with remain := remain1, timeoutArmed := false },
              pending := s2.pending ++ [Job.callCBJob h] }
          else
            { s2 with reqs := aset s2.reqs h { req with remain := remain1 } }
        some ({ s3 with events := s3.events ++ [Ev.acq sem h] }, true)
  else
    some (s, false)

/-- `_release(handle, sem)`: remove the handle from the holder array
(deleting the entry if it was the only holder), grant the semaphore to the
head of a nonempty wait queue, then destroy the request record once
`released` reaches `sems.length`. -/
def releaseSem (s : St) (h : Nat) (sem : Sem) : Option (St × Bool) :=
  match alookup s.sems sem with
  | none => some (s, false)
  | some held =>
    match idxOf? h held with
    | none => some (s, false)
    | some idx =>
      let s1 : St :=
        if held.length = 1 then { s with sems := adel s.sems sem }
        else { s with sems := aset s.sems sem (held.eraseIdx idx) }
      let next? : Option (St × Bool) :=
        match alookup s1.semQueues sem with
        | some (w :: _) => grantLock s1 (some w) sem
        | _ => some (s1, false)
      match next? with
      | none => none
      | some (s2, _) =>
        match alookup s2.reqs h with
        | none => none
        | some req =>
          let rel1 := req.released + 1
          let s3 : St :=
            if rel1 = req.sems.length then { s2 with reqs := adel s2.reqs h }
            else { s2 with reqs := aset s2.reqs h { req with released := rel1 } }
          some ({ s3 with events := s3.events ++ [Ev.rel sem h] }, true)

/-- The insertion scan of `_enqueue`: walk the queue from the front and
insert `h` before the first entry whose priority is strictly greater than
`tp`; append if there is none.  Reading the priority of a queued handle
whose request record is missing throws in JS (`none`). -/
def insertByPri (reqs : List (Nat × Req)) (h : Nat) (tp : Int) :
    List Nat → Option (List Nat)
  | [] => some [h]
  | x :: rest =>
    match alookup reqs x with
    | none => none
    | some r =>
      if r.priority > tp then some (h :: x :: rest)
      else (insertByPri reqs h tp rest).map (fun q => x :: q)

/-- `_enqueue(sem, handle)`: create the queue array if absent, then do the
stable priority-ordered insert. -/
def enqueue (s : St) (sem : Sem) (h : Nat) : Option St :=
  let q := (alookup s.semQueues sem).getD []
  match alookup s.reqs h with
  | none => none
  | some req =>
    (insertByPri s.reqs h req.priority q).map
      (fun q2 => { s with semQueues := aset s.semQueues sem q2 })

/-- `_requestLock(handle, sem)`: grant immediately or enqueue. -/
def requestLock (s : St) (h : Nat) (sem : Sem) : Option (St × Bool) :=
  match grantLock s (some h) sem with
  | none => none
  | some (s1, true) => some (s1, true)
  | some (s1, false) => (enqueue s1 sem h).map (fun s2 => (s2, false))

/-- The do/while loop of `_grantEmptySlots`: grant to
`this._semQueues[sem][0]` and repeat while the grant succeeded and the
queue entry is still present.  Each successful grant shifts the queue head,
so `initial queue length + 1` units of fuel always suffice; fuel 0 is
unreachable. -/
def grantSlotsLoop (sem : Sem) : Nat → St → Option St
  | 0, _ => none
  | fuel + 1, s =>
    match alookup s.semQueues sem with
    | none => none
    | some q =>
      match grantLock s q.head? sem with
      | none => none
      | some (s1, success) =>
        if success && (alookup s1.semQueues sem).isSome then
          grantSlotsLoop sem fuel s1
        else
          some s1

/-- `_grantEmptySlots(sem)`: a no-op unless the queue *property* exists —
note an empty leftover queue array is truthy and enters the loop. -/
def grantEmptySlots (s : St) (sem : Sem) : Option St :=
  match alookup s.semQueues sem with
  | none => some s
  | some q => grantSlotsLoop sem (q.length + 1) s

/-- The `sems.forEach(...)` loop of `acquire`: request each semaphore in
order, accumulating `noninstant` (true once some `_requestLock` returned
false). -/
def acquireLoop (handle : Nat) : List Sem → St → Bool → Option (St × Bool)
  | [], s, ni => some (s, ni)
  | sem :: rest, s, ni =>
    match requestLock s handle sem with
    | none => none
    | some (s1, granted) => acquireLoop handle rest s1 (ni || !granted)

/-- `acquire(sems, opts, cb)`: allocate a handle, create the request
record, request every semaphore, then apply the `instant` forcing or arm
the `wait` timer.  Returns the new state and the handle. -/
def acquire (s : St) (semsArg : List Sem) (opts : Opts) (hasCb : Bool) :
    Option (St × Nat) :=
  let hs := getNextHandle s
  let handle := hs.1
  let req : Req :=
    { remain := (semsArg.length : Int), released := 0, sems := semsArg,
      ttl := opts.ttl, priority := opts.priority.getD 2, hasCb := hasCb,
      timeoutArmed := false, ttlArmed := false, called := false }
  let s1 : St := { hs.2 with reqs := aset hs.2.reqs handle req }
  match acquireLoop handle semsArg s1 false with
  | none => none
  | some (s2, noninstant) =>
    if noninstant && opts.instant then
      -- `this._reqs[handle].remain = 0` plus a next-turn cancellation
      match alookup s2.reqs handle with
      | none => none
      | some r =>
        some ({ s2 with
                reqs := aset s2.reqs handle { r with remain := 0 },
                pending := s2.pending ++ [Job.cancelJob handle] }, handle)
    else if opts.wait.isSome then
      -- arm the wait timer (note: this runs even when every semaphore was
      -- granted synchronously, because `noninstant` is false then)
      match alookup s2.reqs handle with
      | none => none
      | some r =>
        some ({ s2 with reqs := aset s2.reqs handle { r with timeoutArmed := true } },
              handle)
    else
      some (s2, handle)

/-- The `req.sems.forEach(...)` loop of `cancel`: release the semaphore,
then filter the handle out of that semaphore's wait queue if the queue
property exists (the filtered array is stored back even when empty). -/
def cancelLoop (h : Nat) : List Sem → St → Option St
  | [], s => some s
  | sem :: rest, s =>
    match releaseSem s h sem with
    | none => none
    | some (s1, _) =>
      let s2 : St :=
        match alookup s1.semQueues sem with
        | none => s1
        | some q =>
          { s1 with semQueues := aset s1.semQueues sem (q.filter (fun i => i != h)) }
      cancelLoop h rest s2

/-- `cancel(handle, err)`: a no-op for an unknown handle; otherwise release
all held semaphores, strip the handle from the wait queues, invoke the
callback with the error iff an error was given and the callback has not
already been called, and destroy the request record.  (The JS code also
sets `req.called = true` on the record just before destroying it, which has
no further observable effect.) -/
def cancel (s : St) (h : Nat) (e? : Option Err) : Option St :=
  match alookup s.reqs h with
  | none => some s
  | some req =>
    match cancelLoop h req.sems s with
    | none => none
    | some s1 =>
      let s2 : St :=
        match e? with
        | some e =>
          if req.called then s1
          else if req.hasCb then { s1 with log := s1.log ++ [(h, Notify.failed e)] }
          else s1
        | none => s1
      some { s2 with reqs := adel s2.reqs h }

/-- Argument shape of the public `release`: omitted, a single name, or an
array of names. -/
inductive RelArg
  | allSems
  | one (sem : Sem)
  | many (l : List Sem)
deriving DecidableEq, Repr

/-- The iteration of `release` over the chosen semaphore list. -/
def releaseLoop (h : Nat) : List Sem → St → Option St
  | [], s => some s
  | sem :: rest, s =>
    match releaseSem s h sem with
    | none => none
    | some (s1, _) => releaseLoop h rest s1

/-- `release(handle, sem)`: silently ignore unknown handles; an omitted
argument — or the falsy empty-string name — means all of the request's
semaphores. -/
def release (s : St) (h : Nat) (arg : RelArg) : Option St :=
  match alookup s.reqs h with
  | none => some s
  | some req =>
    let toRel : List Sem :=
      match arg with
      | .allSems => req.sems
      | .one sem => if sem = "" then req.sems else [sem]
      | .many l => l
    releaseLoop h toRel s

/-- The iteration of `forceRelease` over the snapshot of holders. -/
def forceLoop (sem : Sem) : List Nat → St → Option St
  | [], s => some s
  | h :: rest, s =>
    match release s h (RelArg.one sem) with
    | none => none
    | some s1 => forceLoop sem rest s1

/-- `forceRelease(sem)`: snapshot the holder array, then `release` each
holder for this single semaphore. -/
def forceRelease (s : St) (sem : Sem) : Option St :=
  match alookup s.sems sem with
  | none => some s
  | some held => forceLoop sem held s

/-- `getLocks()`: snapshot of holder counts. -/
def getLocks (s : St) : List (Sem × Nat) :=
  s.sems.map (fun p => (p.1, p.2.length))

/-- The cap-writing part of `setMaxLocks`: a non-null cap is clamped to
≥ 0 and stored; `null` deletes the stored cap — but only when the stored
cap is *truthy* (`if (this._semCaps[sem])`), so an explicit cap of 0 is
not deleted. -/
def setCapOnly (s : St) (sem : Sem) (cap : Option Int) : St :=
  match cap with
  | some c => { s with semCaps := aset s.semCaps sem (max c 0) }
  | none =>
    if (alookup s.semCaps sem).getD 0 ≠ 0 then { s with semCaps := adel s.semCaps sem }
    else s

/-- `setMaxLocks(sem, cap)`: write the cap, then `_grantEmptySlots`. -/
def setMaxLocks (s : St) (sem : Sem) (cap : Option Int) : Option St :=
  grantEmptySlots (setCapOnly s sem cap) sem

/-- The default-cap-writing part of `setDefaultMaxLocks`: `null` reverts
to 1, otherwise clamp to ≥ 0. -/
def setDefaultCapOnly (s : St) (cap : Option Int) : St :=
  match cap with
  | none => { s with defaultCap := 1 }
  | some c => { s with defaultCap := max c 0 }

/-- The `for (var sem in this._semQueues)` loop of `setDefaultMaxLocks`:
fill empty slots of every queued semaphore that has no explicit cap. -/
def defaultLoop : List Sem → St → Option St
  | [], s => some s
  | sem :: rest, s =>
    match (if (alookup s.semQueues sem).isSome ∧ (alookup s.semCaps sem).isNone
           then grantEmptySlots s sem else some s) with
    | none => none
    | some s1 => defaultLoop rest s1

/-- `setDefaultMaxLocks(cap)`: write the default cap; if it was raised,
scan every queued semaphore without an explicit cap. -/
def setDefaultMaxLocks (s : St) (cap : Option Int) : Option St :=
  let prev := s.defaultCap
  let s1 := setDefaultCapOnly s cap
  if s1.defaultCap > prev then defaultLoop (s1.semQueues.map Prod.fst) s1
  else some s1

/-- `_callCB(handle)`: reading `this._reqs[handle]` throws if the record
was destroyed (e.g. by a cancellation between the grant and this deferred
call).  Otherwise arm the ttl timer if a truthy ttl was given, set
`called`, and invoke the callback with `(null, release)`. -/
def callCB (s : St) (h : Nat) : Option St :=
  match alookup s.reqs h with
  | none => none
  | some req =>
    let req1 : Req :=
      if req.ttl.getD 0 ≠ 0 then { req with ttlArmed := true, called := true }
      else { req with called := true }
    let s1 : St := { s with reqs := aset s.reqs h req1 }
    if req.hasCb then some { s1 with log := s1.log ++ [(h, Notify.ok)] }
    else some s1

/-- Run one queued `setImmediate` callback. -/
def runJob (s : St) : Job → Option St
  | .callCBJob h => callCB s h
  | .cancelJob h => cancel s h (some Err.instantFail)

/-- One externally triggered step of the coordinator: a public API call, a
`setImmediate` turn, or a timer firing. -/
inductive Op
  | acquire (sems : List Sem) (opts : Opts) (hasCb : Bool)
  | cancel (h : Nat) (e? : Option Err)
  | release (h : Nat) (arg : RelArg)
  | forceRelease (sem : Sem)
  | setMaxLocks (sem : Sem) (cap : Option Int)
  | setDefaultMaxLocks (cap : Option Int)
  | runJob
  | fireWait (h : Nat)
  | fireTtl (h : Nat)
deriving DecidableEq, Repr

/-- The step function.  `runJob` pops the `setImmediate` queue head;
`fireWait h` is the `wait` timer firing (enabled only while armed), which
runs `cancel(handle, new Error('Failed to acquire all locks within
allotted time'))`; `fireTtl h` is the ttl timer firing (enabled only while
armed), which runs `release(handle)` then emits `killed`. -/
def step (op : Op) (s : St) : Option St :=
  match op with
  | .acquire sems opts b => (acquire s sems opts b).map Prod.fst
  | .cancel h e? => cancel s h e?
  | .release h arg => release s h arg
  | .forceRelease sem => forceRelease s sem
  | .setMaxLocks sem cap => setMaxLocks s sem cap
  | .setDefaultMaxLocks cap => setDefaultMaxLocks s cap
  | .runJob =>
    match s.pending with
    | [] => none
    | j :: rest => runJob { s with pending := rest } j
  | .fireWait h =>
    match alookup s.reqs h with
    | some r => if r.timeoutArmed then cancel s h (some Err.timedOut) else none
    | none => none
  | .fireTtl h =>
    match alookup s.reqs h with
    | some r =>
      if r.ttlArmed then
        match release { s with reqs := aset s.reqs h { r with ttlArmed := false } }
            h RelArg.allSems with
        | none => none
        | some s1 => some { s1 with events := s1.events ++ [Ev.killed h] }
      else none
    | none => none

/-! ## Association list lemmas -/

theorem alookup_aset_self {α β : Type} [DecidableEq α] (l : List (α × β)) (k : α) (v : β) :
    alookup (aset l k v) k = some v := by
  induction l with
  | nil => simp [aset, alookup]
  | cons p rest ih =>
    by_cases h : p.1 = k
    · simp [aset, alookup, h]
    · simp [aset, alookup, h, ih]

theorem alookup_aset_ne {α β : Type} [DecidableEq α] (l : List (α × β)) (k k' : α) (v : β)
    (hne : k ≠ k') : alookup (aset l k v) k' = alookup l k' := by
  induction l with
  | nil => simp [aset, alookup, hne]
  | cons p rest ih =>
    by_cases h : p.1 = k
    · simp [aset, alookup, h, hne]
    · have h2 : k' ≠ k := fun hh => hne hh.symm
      by_cases h' : p.1 = k'
      · simp [aset, alookup, h, h', h2]
      · simp [aset, alookup, h, h', ih]

theorem alookup_adel_self {α β : Type} [DecidableEq α] (l : List (α × β)) (k : α) :
    alookup (adel l k) k = none := by
  induction l with
  | nil => simp [adel, alookup]
  | cons p rest ih =>
    by_cases h : p.1 = k
    · simp [adel, h, ih]
    · simp [adel, alookup, h, ih]

theorem alookup_adel_ne {α β : Type} [DecidableEq α] (l : List (α × β)) (k k' : α)
    (hne : k ≠ k') : alookup (adel l k) k' = alookup l k' := by
  induction l with
  | nil => simp [adel]
  | cons p rest ih =>
    by_cases h : p.1 = k
    · simp [adel, alookup, h, ih, hne]
    · simp [adel, alookup, h, ih]

/-! ## Characterization lemmas for the grant engine -/

/-- Everything `_grantLock` can do, as a case split on its result. -/
theorem grantLock_spec {s : St} {h? : Option Nat} {sem : Sem} {s' : St} {b : Bool}
    (hgl : grantLock s h? sem = some (s', b)) :
    (b = false ∧ s' = s ∧ grantableB s sem = false) ∨
    (b = true ∧ ∃ h r, h? = some h ∧ alookup s.reqs h = some r ∧
      grantableB s sem = true ∧
      s'.log = s.log ∧ s'.curId = s.curId ∧ s'.semCaps = s.semCaps ∧
      s'.defaultCap = s.defaultCap ∧
      s'.events = s.events ++ [Ev.acq sem h] ∧
      s'.sems = aset s.sems sem (((alookup s.sems sem).getD []) ++ [h]) ∧
      (s'.semQueues = s.semQueues ∨
        ∃ q, alookup s.semQueues sem = some q ∧ q.head? = some h ∧
          (s'.semQueues = adel s.semQueues sem ∨
           s'.semQueues = aset s.semQueues sem q.tail)) ∧
      ((r.remain - 1 = 0 ∧ s'.pending = s.pending ++ [Job.callCBJob h] ∧
        s'.reqs = aset s.reqs h { r with remain := r.remain - 1, timeoutArmed := false }) ∨
       (r.remain - 1 ≠ 0 ∧ s'.pending = s.pending ∧
        s'.reqs = aset s.reqs h { r with remain := r.remain - 1 }))) := by
  by_cases hgb : grantableB s sem = true
  · right
    rcases h? with _ | h
    · simp only [grantLock, hgb, if_true] at hgl
      exact Option.noConfusion hgl
    · rcases hr : alookup s.reqs h with _ | req
      · simp only [grantLock, hgb, if_true, hr] at hgl
        exact Option.noConfusion hgl
      · simp only [grantLock, hgb, if_true, hr] at hgl
        rcases hsq : alookup s.semQueues sem with _ | q
        · simp only [hsq] at hgl
          by_cases hrem : req.remain - 1 = 0
          · rw [if_pos hrem] at hgl
            simp only [Option.some_inj, Prod.mk.injEq] at hgl
            obtain ⟨hs', hb⟩ := hgl; subst hs'; subst hb
            exact ⟨rfl, h, req, rfl, hr, hgb, rfl, rfl, rfl, rfl, rfl, rfl,
              Or.inl rfl, Or.inl ⟨hrem, rfl, rfl⟩⟩
          · rw [if_neg hrem] at hgl
            simp only [Option.some_inj, Prod.mk.injEq] at hgl
            obtain ⟨hs', hb⟩ := hgl; subst hs'; subst hb
            exact ⟨rfl, h, req, rfl, hr, hgb, rfl, rfl, rfl, rfl, rfl, rfl,
              Or.inl rfl, Or.inr ⟨hrem, rfl, rfl⟩⟩
        · simp only [hsq] at hgl
          by_cases hhead : q.head? = some h
          · by_cases hlen : q.length = 1
            · rw [if_pos hhead, if_pos hlen] at hgl
              by_cases hrem : req.remain - 1 = 0
              · rw [if_pos hrem] at hgl
                simp only [Option.some_inj, Prod.mk.injEq] at hgl
                obtain ⟨hs', hb⟩ := hgl; subst hs'; subst hb
                exact ⟨rfl, h, req, rfl, hr, hgb, rfl, rfl, rfl, rfl, rfl, rfl,
                  Or.inr ⟨q, rfl, hhead, Or.inl rfl⟩, Or.inl ⟨hrem, rfl, rfl⟩⟩
              · rw [if_neg hrem] at hgl
                simp only [Option.some_inj, Prod.mk.injEq] at hgl
                obtain ⟨hs', hb⟩ := hgl; subst hs'; subst hb
                exact ⟨rfl, h, req, rfl, hr, hgb, rfl, rfl, rfl, rfl, rfl, rfl,
                  Or.inr ⟨q, rfl, hhead, Or.inl rfl⟩, Or.inr ⟨hrem, rfl, rfl⟩⟩
            · rw [if_pos hhead, if_neg hlen] at hgl
              by_cases hrem : req.remain - 1 = 0
              · rw [if_pos hrem] at hgl
                simp only [Option.some_inj, Prod.mk.injEq] at hgl
                obtain ⟨hs', hb⟩ := hgl; subst hs'; subst hb
                exact ⟨rfl, h, req, rfl, hr, hgb, rfl, rfl, rfl, rfl, rfl, rfl,
                  Or.inr ⟨q, rfl, hhead, Or.inr rfl⟩, Or.inl ⟨hrem, rfl, rfl⟩⟩
              · rw [if_neg hrem] at hgl
                simp only [Option.some_inj, Prod.mk.injEq] at hgl
                obtain ⟨hs', hb⟩ := hgl; subst hs'; subst hb
                exact ⟨rfl, h, req, rfl, hr, hgb, rfl, rfl, rfl, rfl, rfl, rfl,
                  Or.inr ⟨q, rfl, hhead, Or.inr rfl⟩, Or.inr ⟨hrem, rfl, rfl⟩⟩
          · rw [if_neg hhead] at hgl
            by_cases hrem : req.remain - 1 = 0
            · rw [if_pos hrem] at hgl
              simp only [Option.some_inj, Prod.mk.injEq] at hgl
              obtain ⟨hs', hb⟩ := hgl; subst hs'; subst hb
              exact ⟨rfl, h, req, rfl, hr, hgb, rfl, rfl, rfl, rfl, rfl, rfl,
                Or.inl rfl, Or.inl ⟨hrem, rfl, rfl⟩⟩
            · rw [if_neg hrem] at hgl
              simp only [Option.some_inj, Prod.mk.injEq] at hgl
              obtain ⟨hs', hb⟩ := hgl; subst hs'; subst hb
              exact ⟨rfl, h, req, rfl, hr, hgb, rfl, rfl, rfl, rfl, rfl, rfl,
                Or.inl rfl, Or.inr ⟨hrem, rfl, rfl⟩⟩
  · left
    have hgb' : grantableB s sem = false := by
      revert hgb; cases grantableB s sem <;> simp
    simp only [grantLock, hgb', Bool.false_eq_true, if_false, Option.some_inj,
      Prod.mk.injEq, reduceIte] at hgl
    exact ⟨hgl.2.symm, hgl.1.symm, hgb'⟩


/-- Everything `_release` can do, as a case split on its result, with the
intermediate states after holder removal (`s1`) and after the grant to the
queue head (`s2`) described componentwise. -/
theorem releaseSem_spec {s : St} {h : Nat} {sem : Sem} {s' : St} {b : Bool}
    (hrel : releaseSem s h sem = some (s', b)) :
    (b = false ∧ s' = s) ∨
    (b = true ∧ ∃ held idx s1 s2 req,
      alookup s.sems sem = some held ∧ idxOf? h held = some idx ∧
      s1.reqs = s.reqs ∧ s1.semQueues = s.semQueues ∧ s1.semCaps = s.semCaps ∧
      s1.curId = s.curId ∧ s1.defaultCap = s.defaultCap ∧ s1.pending = s.pending ∧
      s1.log = s.log ∧ s1.events = s.events ∧
      ((held.length = 1 ∧ s1.sems = adel s.sems sem) ∨
       (held.length ≠ 1 ∧ s1.sems = aset s.sems sem (held.eraseIdx idx))) ∧
      ((∃ w ws gb, alookup s.semQueues sem = some (w :: ws) ∧
          grantLock s1 (some w) sem = some (s2, gb)) ∨
       ((alookup s.semQueues sem = none ∨ alookup s.semQueues sem = some []) ∧ s2 = s1)) ∧
      alookup s2.reqs h = some req ∧
      s'.events = s2.events ++ [Ev.rel sem h] ∧
      s'.log = s2.log ∧ s'.pending = s2.pending ∧ s'.curId = s2.curId ∧
      s'.semCaps = s2.semCaps ∧ s'.defaultCap = s2.defaultCap ∧
      s'.sems = s2.sems ∧ s'.semQueues = s2.semQueues ∧
      ((req.released + 1 = req.sems.length ∧ s'.reqs = adel s2.reqs h) ∨
       (req.released + 1 ≠ req.sems.length ∧
        s'.reqs = aset s2.reqs h { req with released := req.released + 1 }))) := by
  unfold releaseSem at hrel
  rcases hhold : alookup s.sems sem with _ | held
  · simp only [hhold] at hrel
    simp only [Option.some_inj, Prod.mk.injEq] at hrel
    exact Or.inl ⟨hrel.2.symm, hrel.1.symm⟩
  · simp only [hhold] at hrel
    rcases hidx : idxOf? h held with _ | idx
    · simp only [hidx] at hrel
      simp only [Option.some_inj, Prod.mk.injEq] at hrel
      exact Or.inl ⟨hrel.2.symm, hrel.1.symm⟩
    · simp only [hidx] at hrel
      by_cases hlen : held.length = 1
      · rw [if_pos hlen] at hrel
        rcases hq : alookup s.semQueues sem with _ | q
        · simp only [hq] at hrel
          rcases hreq : alookup s.reqs h with _ | req
          · simp only [hreq] at hrel
            exact Option.noConfusion hrel
          · simp only [hreq] at hrel
            by_cases hfin : req.released + 1 = req.sems.length
            · rw [if_pos hfin] at hrel
              simp only [Option.some_inj, Prod.mk.injEq] at hrel
              obtain ⟨hs', hb⟩ := hrel; subst hs'; subst hb
              exact Or.inr ⟨rfl, held, idx,
                { s with sems := adel s.sems sem }, { s with sems := adel s.sems sem }, req,
                rfl, hidx, rfl, rfl, rfl, rfl, rfl, rfl, rfl, rfl,
                Or.inl ⟨hlen, rfl⟩, Or.inr ⟨Or.inl rfl, rfl⟩, hreq,
                rfl, rfl, rfl, rfl, rfl, rfl, rfl, rfl, Or.inl ⟨hfin, rfl⟩⟩
            · rw [if_neg hfin] at hrel
              simp only [Option.some_inj, Prod.mk.injEq] at hrel
              obtain ⟨hs', hb⟩ := hrel; subst hs'; subst hb
              exact Or.inr ⟨rfl, held, idx,
                { s with sems := adel s.sems sem }, { s with sems := adel s.sems sem }, req,
                rfl, hidx, rfl, rfl, rfl, rfl, rfl, rfl, rfl, rfl,
                Or.inl ⟨hlen, rfl⟩, Or.inr ⟨Or.inl rfl, rfl⟩, hreq,
                rfl, rfl, rfl, rfl, rfl, rfl, rfl, rfl, Or.inr ⟨hfin, rfl⟩⟩
        · rcases q with _ | ⟨w, ws⟩
          · simp only [hq] at hrel
            rcases hreq : alookup s.reqs h with _ | req
            · simp only [hreq] at hrel
              exact Option.noConfusion hrel
            · simp only [hreq] at hrel
              by_cases hfin : req.released + 1 = req.sems.length
              · rw [if_pos hfin] at hrel
                simp only [Option.some_inj, Prod.mk.injEq] at hrel
                obtain ⟨hs', hb⟩ := hrel; subst hs'; subst hb
                exact Or.inr ⟨rfl, held, idx,
                  { s with sems := adel s.sems sem }, { s with sems := adel s.sems sem }, req,
                  rfl, hidx, rfl, rfl, rfl, rfl, rfl, rfl, rfl, rfl,
                  Or.inl ⟨hlen, rfl⟩, Or.inr ⟨Or.inr rfl, rfl⟩, hreq,
                  rfl, rfl, rfl, rfl, rfl, rfl, rfl, rfl, Or.inl ⟨hfin, rfl⟩⟩
              · rw [if_neg hfin] at hrel
                simp only [Option.some_inj, Prod.mk.injEq] at hrel
                obtain ⟨hs', hb⟩ := hrel; subst hs'; subst hb
                exact Or.inr ⟨rfl, held, idx,
                  { s with sems := adel s.sems sem }, { s with sems := adel s.sems sem }, req,
                  rfl, hidx, rfl, rfl, rfl, rfl, rfl, rfl, rfl, rfl,
                  Or.inl ⟨hlen, rfl⟩, Or.inr ⟨Or.inr rfl, rfl⟩, hreq,
                  rfl, rfl, rfl, rfl, rfl, rfl, rfl, rfl, Or.inr ⟨hfin, rfl⟩⟩
          · simp only [hq] at hrel
            rcases hgl : grantLock { s with sems := adel s.sems sem } (some w) sem
              with _ | ⟨s2, gb⟩
            · simp only [hgl] at hrel
              exact Option.noConfusion hrel
            · simp only [hgl] at hrel
              rcases hreq : alookup s2.reqs h with _ | req
              · simp only [hreq] at hrel
                exact Option.noConfusion hrel
              · simp only [hreq] at hrel
                by_cases hfin : req.released + 1 = req.sems.length
                · rw [if_pos hfin] at hrel
                  simp only [Option.some_inj, Prod.mk.injEq] at hrel
                  obtain ⟨hs', hb⟩ := hrel; subst hs'; subst hb
                  exact Or.inr ⟨rfl, held, idx,
                    { s with sems := adel s.sems sem }, s2, req,
                    rfl, hidx, rfl, rfl, rfl, rfl, rfl, rfl, rfl, rfl,
                    Or.inl ⟨hlen, rfl⟩, Or.inl ⟨w, ws, gb, rfl, hgl⟩, hreq,
                    rfl, rfl, rfl, rfl, rfl, rfl, rfl, rfl, Or.inl ⟨hfin, rfl⟩⟩
                · rw [if_neg hfin] at hrel
                  simp only [Option.some_inj, Prod.mk.injEq] at hrel
                  obtain ⟨hs', hb⟩ := hrel; subst hs'; subst hb
                  exact Or.inr ⟨rfl, held, idx,
                    { s with sems := adel s.sems sem }, s2, req,
                    rfl, hidx, rfl, rfl, rfl, rfl, rfl, rfl, rfl, rfl,
                    Or.inl ⟨hlen, rfl⟩, Or.inl ⟨w, ws, gb, rfl, hgl⟩, hreq,
                    rfl, rfl, rfl, rfl, rfl, rfl, rfl, rfl, Or.inr ⟨hfin, rfl⟩⟩
      · rw [if_neg hlen] at hrel
        rcases hq : alookup s.semQueues sem with _ | q
        · simp only [hq] at hrel
          rcases hreq : alookup s.reqs h with _ | req
          · simp only [hreq] at hrel
            exact Option.noConfusion hrel
          · simp only [hreq] at hrel
            by_cases hfin : req.released + 1 = req.sems.length
            · rw [if_pos hfin] at hrel
              simp only [Option.some_inj, Prod.mk.injEq] at hrel
              obtain ⟨hs', hb⟩ := hrel; subst hs'; subst hb
              exact Or.inr ⟨rfl, held, idx,
                { s with sems := aset s.sems sem (held.eraseIdx idx) },
                { s with sems := aset s.sems sem (held.eraseIdx idx) }, req,
                rfl, hidx, rfl, rfl, rfl, rfl, rfl, rfl, rfl, rfl,
                Or.inr ⟨hlen, rfl⟩, Or.inr ⟨Or.inl rfl, rfl⟩, hreq,
                rfl, rfl, rfl, rfl, rfl, rfl, rfl, rfl, Or.inl ⟨hfin, rfl⟩⟩
            · rw [if_neg hfin] at hrel
              simp only [Option.some_inj, Prod.mk.injEq] at hrel
              obtain ⟨hs', hb⟩ := hrel; subst hs'; subst hb
              exact Or.inr ⟨rfl, held, idx,
                { s with sems := aset s.sems sem (held.eraseIdx idx) },
                { s with sems := aset s.sems sem (held.eraseIdx idx) }, req,
                rfl, hidx, rfl, rfl, rfl, rfl, rfl, rfl, rfl, rfl,
                Or.inr ⟨hlen, rfl⟩, Or.inr ⟨Or.inl rfl, rfl⟩, hreq,
                rfl, rfl, rfl, rfl, rfl, rfl, rfl, rfl, Or.inr ⟨hfin, rfl⟩⟩
        · rcases q with _ | ⟨w, ws⟩
          · simp only [hq] at hrel
            rcases hreq : alookup s.reqs h with _ | req
            · simp only [hreq] at hrel
              exact Option.noConfusion hrel
            · simp only [hreq] at hrel
              by_cases hfin : req.released + 1 = req.sems.length
              · rw [if_pos hfin] at hrel
                simp only [Option.some_inj, Prod.mk.injEq] at hrel
                obtain ⟨hs', hb⟩ := hrel; subst hs'; subst hb
                exact Or.inr ⟨rfl, held, idx,
                  { s with sems := aset s.sems sem (held.eraseIdx idx) },
                  { s with sems := aset s.sems sem (held.eraseIdx idx) }, req,
                  rfl, hidx, rfl, rfl, rfl, rfl, rfl, rfl, rfl, rfl,
                  Or.inr ⟨hlen, rfl⟩, Or.inr ⟨Or.inr rfl, rfl⟩, hreq,
                  rfl, rfl, rfl, rfl, rfl, rfl, rfl, rfl, Or.inl ⟨hfin, rfl⟩⟩
              · rw [if_neg hfin] at hrel
                simp only [Option.some_inj, Prod.mk.injEq] at hrel
                obtain ⟨hs', hb⟩ := hrel; subst hs'; subst hb
                exact Or.inr ⟨rfl, held, idx,
                  { s with sems := aset s.sems sem (held.eraseIdx idx) },
                  { s with sems := aset s.sems sem (held.eraseIdx idx) }, req,
                  rfl, hidx, rfl, rfl, rfl, rfl, rfl, rfl, rfl, rfl,
                  Or.inr ⟨hlen, rfl⟩, Or.inr ⟨Or.inr rfl, rfl⟩, hreq,
                  rfl, rfl, rfl, rfl, rfl, rfl, rfl, rfl, Or.inr ⟨hfin, rfl⟩⟩
          · simp only [hq] at hrel
            rcases hgl : grantLock { s with sems := aset s.sems sem (held.eraseIdx idx) }
                (some w) sem with _ | ⟨s2, gb⟩
            · simp only [hgl] at hrel
              exact Option.noConfusion hrel
            · simp only [hgl] at hrel
              rcases hreq : alookup s2.reqs h with _ | req
              · simp only [hreq] at hrel
                exact Option.noConfusion hrel
              · simp only [hreq] at hrel
                by_cases hfin : req.released + 1 = req.sems.length
                · rw [if_pos hfin] at hrel
                  simp only [Option.some_inj, Prod.mk.injEq] at hrel
                  obtain ⟨hs', hb⟩ := hrel; subst hs'; subst hb
                  exact Or.inr ⟨rfl, held, idx,
                    { s with sems := aset s.sems sem (held.eraseIdx idx) }, s2, req,
                    rfl, hidx, rfl, rfl, rfl, rfl, rfl, rfl, rfl, rfl,
                    Or.inr ⟨hlen, rfl⟩, Or.inl ⟨w, ws, gb, rfl, hgl⟩, hreq,
                    rfl, rfl, rfl, rfl, rfl, rfl, rfl, rfl, Or.inl ⟨hfin, rfl⟩⟩
                · rw [if_neg hfin] at hrel
                  simp only [Option.some_inj, Prod.mk.injEq] at hrel
                  obtain ⟨hs', hb⟩ := hrel; subst hs'; subst hb
                  exact Or.inr ⟨rfl, held, idx,
                    { s with sems := aset s.sems sem (held.eraseIdx idx) }, s2, req,
                    rfl, hidx, rfl, rfl, rfl, rfl, rfl, rfl, rfl, rfl,
                    Or.inr ⟨hlen, rfl⟩, Or.inl ⟨w, ws, gb, rfl, hgl⟩, hreq,
                    rfl, rfl, rfl, rfl, rfl, rfl, rfl, rfl, Or.inr ⟨hfin, rfl⟩⟩

/-- Everything `_enqueue` can do. -/
theorem enqueue_spec {s : St} {sem : Sem} {h : Nat} {s' : St}
    (he : enqueue s sem h = some s') :
    ∃ req q2, alookup s.reqs h = some req ∧
      insertByPri s.reqs h req.priority ((alookup s.semQueues sem).getD []) = some q2 ∧
      s' = { s with semQueues := aset s.semQueues sem q2 } := by
  unfold enqueue at he
  rcases hreq : alookup s.reqs h with _ | req
  · simp only [hreq] at he
    exact Option.noConfusion he
  · simp only [hreq] at he
    rcases hins : insertByPri s.reqs h req.priority ((alookup s.semQueues sem).getD [])
        with _ | q2
    · rw [hins] at he
      exact Option.noConfusion he
    · rw [hins] at he
      exact ⟨req, q2, rfl, hins, (Option.some.inj he).symm⟩

/-- Everything `_requestLock` can do. -/
theorem requestLock_spec {s : St} {h : Nat} {sem : Sem} {s' : St} {g : Bool}
    (hrq : requestLock s h sem = some (s', g)) :
    (g = true ∧ grantLock s (some h) sem = some (s', true)) ∨
    (g = false ∧ grantLock s (some h) sem = some (s, false) ∧ enqueue s sem h = some s') := by
  unfold requestLock at hrq
  rcases hgl : grantLock s (some h) sem with _ | ⟨s1, _ | _⟩
  · simp only [hgl] at hrq
    exact Option.noConfusion hrq
  · simp only [hgl] at hrq
    rcases he : enqueue s1 sem h with _ | s2
    · rw [he] at hrq
      exact Option.noConfusion hrq
    · rw [he] at hrq
      have h2 := Option.some.inj hrq
      injection h2 with hs' hg
      subst hs'; subst hg
      rcases grantLock_spec hgl with ⟨-, rfl, -⟩ | ⟨hb, -⟩
      · exact Or.inr ⟨rfl, rfl, he⟩
      · exact Bool.noConfusion hb
  · simp only [hgl, Option.some_inj, Prod.mk.injEq] at hrq
    obtain ⟨hs', hg⟩ := hrq; subst hs'; subst hg
    exact Or.inl ⟨rfl, rfl⟩

/-- Everything `_callCB` can do. -/
theorem callCB_spec {s : St} {h : Nat} {s' : St} (hc : callCB s h = some s') :
    ∃ req, alookup s.reqs h = some req ∧
      s'.semQueues = s.semQueues ∧ s'.sems = s.sems ∧ s'.semCaps = s.semCaps ∧
      s'.curId = s.curId ∧ s'.defaultCap = s.defaultCap ∧ s'.pending = s.pending ∧
      s'.events = s.events ∧
      s'.reqs = aset s.reqs h
        (if req.ttl.getD 0 ≠ 0 then { req with ttlArmed := true, called := true }
         else { req with called := true }) ∧
      s'.log = (if req.hasCb then s.log ++ [(h, Notify.ok)] else s.log) := by
  unfold callCB at hc
  rcases hreq : alookup s.reqs h with _ | req
  · simp only [hreq] at hc
    exact Option.noConfusion hc
  · simp only [hreq] at hc
    by_cases httl : req.ttl.getD 0 ≠ 0
    · rw [if_pos httl] at hc
      by_cases hcb : req.hasCb = true
      · rw [if_pos hcb] at hc
        simp only [Option.some_inj] at hc; subst hc
        exact ⟨req, rfl, rfl, rfl, rfl, rfl, rfl, rfl, rfl,
          by rw [if_pos httl], by rw [if_pos hcb]⟩
      · rw [if_neg hcb] at hc
        simp only [Option.some_inj] at hc; subst hc
        exact ⟨req, rfl, rfl, rfl, rfl, rfl, rfl, rfl, rfl,
          by rw [if_pos httl], by rw [if_neg hcb]⟩
    · rw [if_neg httl] at hc
      by_cases hcb : req.hasCb = true
      · rw [if_pos hcb] at hc
        simp only [Option.some_inj] at hc; subst hc
        exact ⟨req, rfl, rfl, rfl, rfl, rfl, rfl, rfl, rfl,
          by rw [if_neg httl], by rw [if_pos hcb]⟩
      · rw [if_neg hcb] at hc
        simp only [Option.some_inj] at hc; subst hc
        exact ⟨req, rfl, rfl, rfl, rfl, rfl, rfl, rfl, rfl,
          by rw [if_neg httl], by rw [if_neg hcb]⟩


/-! ## The capacity invariant (holder count vs. cap) -/

/-- The holder list of a semaphore (`[]` when the entry is absent). -/
def holdersL (s : St) (sem : Sem) : List Nat := (alookup s.sems sem).getD []

/-- The wait queue of a semaphore (`[]` when the entry is absent). -/
def queueL (s : St) (sem : Sem) : List Nat := (alookup s.semQueues sem).getD []

/-- All stored caps, and the default cap, are nonnegative. -/
def CapNonneg (s : St) : Prop :=
  0 ≤ s.defaultCap ∧ ∀ sem c, alookup s.semCaps sem = some c → 0 ≤ c

/-- Every semaphore's holder count is at most its effective capacity. -/
def HoldInv (s : St) : Prop :=
  ∀ sem, ((holdersL s sem).length : Int) ≤ getMaxLocks s sem

/-- The full capacity invariant. -/
def CapInv (s : St) : Prop := CapNonneg s ∧ HoldInv s

theorem getMaxLocks_nonneg {s : St} (hc : CapNonneg s) (sem : Sem) :
    0 ≤ getMaxLocks s sem := by
  unfold getMaxLocks
  rcases hcap : alookup s.semCaps sem with _ | c
  · simpa using hc.1
  · simpa using hc.2 sem c hcap

theorem getMaxLocks_congr {s s' : St} (hcaps : s'.semCaps = s.semCaps)
    (hdef : s'.defaultCap = s.defaultCap) (sem : Sem) :
    getMaxLocks s' sem = getMaxLocks s sem := by
  unfold getMaxLocks
  rw [hcaps, hdef]

theorem capNonneg_congr {s s' : St} (hcaps : s'.semCaps = s.semCaps)
    (hdef : s'.defaultCap = s.defaultCap) (hc : CapNonneg s) : CapNonneg s' := by
  refine ⟨hdef ▸ hc.1, fun sem c hl => hc.2 sem c ?_⟩
  rw [hcaps] at hl
  exact hl

theorem idxOf?_lt_length {h : Nat} :
    ∀ {l : List Nat} {i : Nat}, idxOf? h l = some i → i < l.length := by
  intro l
  induction l with
  | nil => intro i hi; exact Option.noConfusion hi
  | cons x rest ih =>
    intro i hi
    unfold idxOf? at hi
    by_cases hx : x = h
    · rw [if_pos hx] at hi
      cases Option.some.inj hi
      simp
    · rw [if_neg hx] at hi
      rcases hri : idxOf? h rest with _ | j
      · rw [hri] at hi
        exact Option.noConfusion hi
      · rw [hri] at hi
        cases Option.some.inj hi
        have := ih hri
        simp only [List.length_cons]
        omega

/-- A successful grant happens only when the holder count is strictly below
the effective capacity. -/
theorem grantable_lt {s : St} {sem : Sem} (hc : CapNonneg s)
    (hg : grantableB s sem = true) :
    ((holdersL s sem).length : Int) < getMaxLocks s sem := by
  unfold grantableB at hg
  unfold holdersL
  rcases hh : alookup s.sems sem with _ | held
  · rw [hh] at hg
    simp only [decide_eq_true_eq] at hg
    have := getMaxLocks_nonneg hc sem
    simp only [Option.getD_none, List.length_nil, Nat.cast_zero]
    omega
  · rw [hh] at hg
    simp only [decide_eq_true_eq] at hg
    simpa using hg

theorem grantLock_capInv {s : St} {h? : Option Nat} {sem : Sem} {s' : St} {b : Bool}
    (hinv : CapInv s) (hgl : grantLock s h? sem = some (s', b)) : CapInv s' := by
  rcases grantLock_spec hgl with ⟨-, rfl, -⟩ | ⟨-, h, r, -, -, hgb, -, -, hcaps, hdef, -,
    hsems, -, -⟩
  · exact hinv
  · refine ⟨capNonneg_congr hcaps hdef hinv.1, fun sem' => ?_⟩
    rw [getMaxLocks_congr hcaps hdef]
    unfold holdersL
    rw [hsems]
    by_cases hsem : sem = sem'
    · subst hsem
      rw [alookup_aset_self]
      have hlt := grantable_lt hinv.1 hgb
      unfold holdersL at hlt
      simp only [Option.getD_some, List.length_append, List.length_cons,
        List.length_nil]
      push_cast
      omega
    · rw [alookup_aset_ne _ _ _ _ hsem]
      exact hinv.2 sem'

theorem enqueue_capInv {s : St} {sem : Sem} {h : Nat} {s' : St}
    (hinv : CapInv s) (he : enqueue s sem h = some s') : CapInv s' := by
  obtain ⟨req, q2, -, -, rfl⟩ := enqueue_spec he
  exact ⟨capNonneg_congr rfl rfl hinv.1, fun sem' => hinv.2 sem'⟩

theorem requestLock_capInv {s : St} {h : Nat} {sem : Sem} {s' : St} {g : Bool}
    (hinv : CapInv s) (hrq : requestLock s h sem = some (s', g)) : CapInv s' := by
  rcases requestLock_spec hrq with ⟨-, hgl⟩ | ⟨-, hgl, he⟩
  · exact grantLock_capInv hinv hgl
  · exact enqueue_capInv hinv he

theorem releaseSem_capInv {s : St} {h : Nat} {sem : Sem} {s' : St} {b : Bool}
    (hinv : CapInv s) (hrel : releaseSem s h sem = some (s', b)) : CapInv s' := by
  rcases releaseSem_spec hrel with ⟨-, rfl⟩ | ⟨-, held, idx, s1, s2, req, hheld, hidx,
    -, -, hcaps1, -, hdef1, -, -, -, hsems1, hgrant, -, -, -, -, -, hcaps', hdef',
    hsems', -, -⟩
  · exact hinv
  · have hinv1 : CapInv s1 := by
      refine ⟨capNonneg_congr hcaps1 hdef1 hinv.1, fun sem' => ?_⟩
      rw [getMaxLocks_congr hcaps1 hdef1]
      unfold holdersL
      rcases hsems1 with ⟨-, hs1⟩ | ⟨-, hs1⟩
      · rw [hs1]
        by_cases hsem : sem = sem'
        · subst hsem
          rw [alookup_adel_self]
          have := getMaxLocks_nonneg hinv.1 sem
          simpa using this
        · rw [alookup_adel_ne _ _ _ hsem]
          exact hinv.2 sem'
      · rw [hs1]
        by_cases hsem : sem = sem'
        · subst hsem
          rw [alookup_aset_self]
          have hle := hinv.2 sem
          unfold holdersL at hle
          rw [hheld] at hle
          have hlt := idxOf?_lt_length hidx
          have herase : (held.eraseIdx idx).length = held.length - 1 :=
            List.length_eraseIdx_of_lt hlt
          simp only [Option.getD_some] at hle ⊢
          rw [herase]
          have : ((held.length - 1 : Nat) : Int) ≤ (held.length : Int) := by
            omega
          omega
        · rw [alookup_aset_ne _ _ _ _ hsem]
          exact hinv.2 sem'
    have hinv2 : CapInv s2 := by
      rcases hgrant with ⟨w, ws, gb, -, hgl⟩ | ⟨-, rfl⟩
      · exact grantLock_capInv hinv1 hgl
      · exact hinv1
    refine ⟨capNonneg_congr hcaps' hdef' hinv2.1, fun sem' => ?_⟩
    rw [getMaxLocks_congr hcaps' hdef']
    unfold holdersL
    rw [hsems']
    exact hinv2.2 sem'


/-- Transport of the capacity invariant along field equalities. -/
theorem capInv_of_eq {s s' : St} (hsems : s'.sems = s.sems)
    (hcaps : s'.semCaps = s.semCaps) (hdef : s'.defaultCap = s.defaultCap)
    (hinv : CapInv s) : CapInv s' := by
  refine ⟨capNonneg_congr hcaps hdef hinv.1, fun sem => ?_⟩
  rw [getMaxLocks_congr hcaps hdef]
  unfold holdersL
  rw [hsems]
  exact hinv.2 sem

theorem grantSlotsLoop_capInv {sem : Sem} {fuel : Nat} :
    ∀ {s s' : St}, CapInv s → grantSlotsLoop sem fuel s = some s' → CapInv s' := by
  induction fuel with
  | zero => intro s s' _ h; exact Option.noConfusion h
  | succ n ih =>
    intro s s' hinv h
    unfold grantSlotsLoop at h
    rcases hq : alookup s.semQueues sem with _ | q
    · simp only [hq] at h
      exact Option.noConfusion h
    · simp only [hq] at h
      rcases hgl : grantLock s q.head? sem with _ | ⟨s1, success⟩
      · simp only [hgl] at h
        exact Option.noConfusion h
      · simp only [hgl] at h
        by_cases hcond : (success && (alookup s1.semQueues sem).isSome) = true
        · rw [if_pos hcond] at h
          exact ih (grantLock_capInv hinv hgl) h
        · rw [if_neg hcond] at h
          exact (Option.some.inj h) ▸ grantLock_capInv hinv hgl

theorem grantEmptySlots_capInv {s : St} {sem : Sem} {s' : St}
    (hinv : CapInv s) (h : grantEmptySlots s sem = some s') : CapInv s' := by
  unfold grantEmptySlots at h
  rcases hq : alookup s.semQueues sem with _ | q
  · simp only [hq] at h
    exact (Option.some.inj h) ▸ hinv
  · simp only [hq] at h
    exact grantSlotsLoop_capInv hinv h

theorem acquireLoop_capInv {handle : Nat} :
    ∀ {l : List Sem} {s : St} {ni : Bool} {s' : St} {ni' : Bool}, CapInv s →
      acquireLoop handle l s ni = some (s', ni') → CapInv s' := by
  intro l
  induction l with
  | nil =>
    intro s ni s' ni' hinv h
    unfold acquireLoop at h
    injection (Option.some.inj h) with h1 h2
    exact h1 ▸ hinv
  | cons sem rest ih =>
    intro s ni s' ni' hinv h
    unfold acquireLoop at h
    rcases hrq : requestLock s handle sem with _ | ⟨s1, granted⟩
    · simp only [hrq] at h
      exact Option.noConfusion h
    · simp only [hrq] at h
      exact ih (requestLock_capInv hinv hrq) h

theorem cancelLoop_capInv {h : Nat} :
    ∀ {l : List Sem} {s s' : St}, CapInv s → cancelLoop h l s = some s' → CapInv s' := by
  intro l
  induction l with
  | nil =>
    intro s s' hinv hcl
    unfold cancelLoop at hcl
    exact (Option.some.inj hcl) ▸ hinv
  | cons sem rest ih =>
    intro s s' hinv hcl
    unfold cancelLoop at hcl
    rcases hrel : releaseSem s h sem with _ | ⟨s1, b⟩
    · simp only [hrel] at hcl
      exact Option.noConfusion hcl
    · simp only [hrel] at hcl
      have hinv1 := releaseSem_capInv hinv hrel
      rcases hq : alookup s1.semQueues sem with _ | q
      · simp only [hq] at hcl
        exact ih hinv1 hcl
      · simp only [hq] at hcl
        refine ih ?_ hcl
        exact capInv_of_eq rfl rfl rfl hinv1

theorem releaseLoop_capInv {h : Nat} :
    ∀ {l : List Sem} {s s' : St}, CapInv s → releaseLoop h l s = some s' → CapInv s' := by
  intro l
  induction l with
  | nil =>
    intro s s' hinv hrl
    unfold releaseLoop at hrl
    exact (Option.some.inj hrl) ▸ hinv
  | cons sem rest ih =>
    intro s s' hinv hrl
    unfold releaseLoop at hrl
    rcases hrel : releaseSem s h sem with _ | ⟨s1, b⟩
    · simp only [hrel] at hrl
      exact Option.noConfusion hrl
    · simp only [hrel] at hrl
      exact ih (releaseSem_capInv hinv hrel) hrl

theorem release_capInv {s : St} {h : Nat} {arg : RelArg} {s' : St}
    (hinv : CapInv s) (hr : release s h arg = some s') : CapInv s' := by
  unfold release at hr
  rcases hreq : alookup s.reqs h with _ | req
  · simp only [hreq] at hr
    exact (Option.some.inj hr) ▸ hinv
  · simp only [hreq] at hr
    exact releaseLoop_capInv hinv hr

theorem forceLoop_capInv {sem : Sem} :
    ∀ {l : List Nat} {s s' : St}, CapInv s → forceLoop sem l s = some s' → CapInv s' := by
  intro l
  induction l with
  | nil =>
    intro s s' hinv hfl
    unfold forceLoop at hfl
    exact (Option.some.inj hfl) ▸ hinv
  | cons h rest ih =>
    intro s s' hinv hfl
    unfold forceLoop at hfl
    rcases hr : release s h (RelArg.one sem) with _ | s1
    · simp only [hr] at hfl
      exact Option.noConfusion hfl
    · simp only [hr] at hfl
      exact ih (release_capInv hinv hr) hfl

theorem forceRelease_capInv {s : St} {sem : Sem} {s' : St}
    (hinv : CapInv s) (hf : forceRelease s sem = some s') : CapInv s' := by
  unfold forceRelease at hf
  rcases hh : alookup s.sems sem with _ | held
  · simp only [hh] at hf
    exact (Option.some.inj hf) ▸ hinv
  · simp only [hh] at hf
    exact forceLoop_capInv hinv hf

theorem acquire_capInv {s : St} {semsArg : List Sem} {opts : Opts} {hasCb : Bool}
    {s' : St} {handle : Nat}
    (hinv : CapInv s) (ha : acquire s semsArg opts hasCb = some (s', handle)) :
    CapInv s' := by
  unfold acquire at ha
  simp only [] at ha
  rcases hal : acquireLoop (getNextHandle s).1 semsArg
      { (getNextHandle s).2 with
        reqs := aset (getNextHandle s).2.reqs (getNextHandle s).1
          { remain := (semsArg.length : Int), released := 0, sems := semsArg,
            ttl := opts.ttl, priority := opts.priority.getD 2, hasCb := hasCb,
            timeoutArmed := false, ttlArmed := false, called := false } } false
      with _ | ⟨s2, noninstant⟩
  · simp only [hal] at ha
    exact Option.noConfusion ha
  · have hinv2 : CapInv s2 := by
      refine acquireLoop_capInv ?_ hal
      refine capInv_of_eq ?_ ?_ ?_ hinv
      · show (getNextHandle s).2.sems = s.sems
        unfold getNextHandle
        rfl
      · show (getNextHandle s).2.semCaps = s.semCaps
        unfold getNextHandle
        rfl
      · show (getNextHandle s).2.defaultCap = s.defaultCap
        unfold getNextHandle
        rfl
    simp only [hal] at ha
    by_cases hni : (noninstant && opts.instant) = true
    · rw [if_pos hni] at ha
      rcases hreq : alookup s2.reqs (getNextHandle s).1 with _ | r
      · simp only [hreq] at ha
        exact Option.noConfusion ha
      · simp only [hreq, Option.some_inj, Prod.mk.injEq] at ha
        exact ha.1 ▸ capInv_of_eq rfl rfl rfl hinv2
    · rw [if_neg hni] at ha
      by_cases hw : opts.wait.isSome = true
      · rw [if_pos hw] at ha
        rcases hreq : alookup s2.reqs (getNextHandle s).1 with _ | r
        · simp only [hreq] at ha
          exact Option.noConfusion ha
        · simp only [hreq, Option.some_inj, Prod.mk.injEq] at ha
          exact ha.1 ▸ capInv_of_eq rfl rfl rfl hinv2
      · rw [if_neg hw] at ha
        simp only [Option.some_inj, Prod.mk.injEq] at ha
        exact ha.1 ▸ hinv2

theorem cancel_capInv {s : St} {h : Nat} {e? : Option Err} {s' : St}
    (hinv : CapInv s) (hc : cancel s h e? = some s') : CapInv s' := by
  unfold cancel at hc
  rcases hreq : alookup s.reqs h with _ | req
  · simp only [hreq] at hc
    exact (Option.some.inj hc) ▸ hinv
  · simp only [hreq] at hc
    rcases hcl : cancelLoop h req.sems s with _ | s1
    · simp only [hcl] at hc
      exact Option.noConfusion hc
    · simp only [hcl] at hc
      have hinv1 := cancelLoop_capInv hinv hcl
      rcases e? with _ | e
      · simp only [Option.some_inj] at hc
        exact hc ▸ capInv_of_eq rfl rfl rfl hinv1
      · simp only [] at hc
        by_cases hcalled : req.called = true
        · rw [if_pos hcalled] at hc
          simp only [Option.some_inj] at hc
          exact hc ▸ capInv_of_eq rfl rfl rfl hinv1
        · rw [if_neg hcalled] at hc
          by_cases hcb : req.hasCb = true
          · rw [if_pos hcb] at hc
            simp only [Option.some_inj] at hc
            exact hc ▸ capInv_of_eq rfl rfl rfl hinv1
          · rw [if_neg hcb] at hc
            simp only [Option.some_inj] at hc
            exact hc ▸ capInv_of_eq rfl rfl rfl hinv1

theorem callCB_capInv {s : St} {h : Nat} {s' : St}
    (hinv : CapInv s) (hc : callCB s h = some s') : CapInv s' := by
  obtain ⟨req, -, -, hsems, hcaps, -, hdef, -, -, -, -⟩ := callCB_spec hc
  exact capInv_of_eq hsems hcaps hdef hinv


theorem setCapOnly_fields (s : St) (sem : Sem) (cap : Option Int) :
    (setCapOnly s sem cap).sems = s.sems ∧
    (setCapOnly s sem cap).defaultCap = s.defaultCap ∧
    (setCapOnly s sem cap).semQueues = s.semQueues ∧
    (setCapOnly s sem cap).reqs = s.reqs ∧
    (setCapOnly s sem cap).pending = s.pending ∧
    (setCapOnly s sem cap).log = s.log ∧
    (setCapOnly s sem cap).curId = s.curId ∧
    (setCapOnly s sem cap).events = s.events := by
  unfold setCapOnly
  rcases cap with _ | c
  · by_cases hdel : (alookup s.semCaps sem).getD 0 ≠ 0
    · rw [if_pos hdel]
      exact ⟨rfl, rfl, rfl, rfl, rfl, rfl, rfl, rfl⟩
    · rw [if_neg hdel]
      exact ⟨rfl, rfl, rfl, rfl, rfl, rfl, rfl, rfl⟩
  · exact ⟨rfl, rfl, rfl, rfl, rfl, rfl, rfl, rfl⟩

theorem setCapOnly_getMax_ne {s : St} {sem sem' : Sem} {cap : Option Int}
    (hne : sem ≠ sem') :
    getMaxLocks (setCapOnly s sem cap) sem' = getMaxLocks s sem' := by
  unfold setCapOnly getMaxLocks
  rcases cap with _ | c
  · by_cases hdel : (alookup s.semCaps sem).getD 0 ≠ 0
    · rw [if_pos hdel]
      simp only []
      rw [alookup_adel_ne _ _ _ hne]
    · rw [if_neg hdel]
  · simp only []
    rw [alookup_aset_ne _ _ _ _ hne]

theorem setCapOnly_capInv {s : St} {sem : Sem} {cap : Option Int}
    (hinv : CapInv s)
    (hsafe : ((holdersL s sem).length : Int) ≤ getMaxLocks (setCapOnly s sem cap) sem) :
    CapInv (setCapOnly s sem cap) := by
  obtain ⟨hsems, hdef, -, -, -, -, -, -⟩ := setCapOnly_fields s sem cap
  constructor
  · refine ⟨hdef ▸ hinv.1.1, fun sem' c' hl => ?_⟩
    revert hl
    unfold setCapOnly
    rcases cap with _ | c
    · by_cases hdel : (alookup s.semCaps sem).getD 0 ≠ 0
      · rw [if_pos hdel]
        intro hl
        by_cases hsem : sem = sem'
        · subst hsem
          rw [alookup_adel_self] at hl
          exact Option.noConfusion hl
        · rw [alookup_adel_ne _ _ _ hsem] at hl
          exact hinv.1.2 sem' c' hl
      · rw [if_neg hdel]
        intro hl
        exact hinv.1.2 sem' c' hl
    · intro hl
      by_cases hsem : sem = sem'
      · subst hsem
        rw [alookup_aset_self] at hl
        cases Option.some.inj hl
        exact le_max_right c 0
      · rw [alookup_aset_ne _ _ _ _ hsem] at hl
        exact hinv.1.2 sem' c' hl
  · intro sem'
    by_cases hsem : sem = sem'
    · subst hsem
      have hh : holdersL (setCapOnly s sem cap) sem = holdersL s sem := by
        unfold holdersL
        rw [hsems]
      rw [hh]
      exact hsafe
    · have hh : holdersL (setCapOnly s sem cap) sem' = holdersL s sem' := by
        unfold holdersL
        rw [hsems]
      rw [hh, setCapOnly_getMax_ne hsem]
      exact hinv.2 sem'

theorem setMaxLocks_capInv {s : St} {sem : Sem} {cap : Option Int} {s' : St}
    (hinv : CapInv s)
    (hsafe : ((holdersL s sem).length : Int) ≤ getMaxLocks (setCapOnly s sem cap) sem)
    (h : setMaxLocks s sem cap = some s') : CapInv s' := by
  unfold setMaxLocks at h
  exact grantEmptySlots_capInv (setCapOnly_capInv hinv hsafe) h

theorem setDefaultCapOnly_capInv {s : St} {cap : Option Int}
    (hinv : CapInv s)
    (hsafe : ∀ sem, ((holdersL s sem).length : Int) ≤
      getMaxLocks (setDefaultCapOnly s cap) sem) :
    CapInv (setDefaultCapOnly s cap) := by
  constructor
  · constructor
    · unfold setDefaultCapOnly
      rcases cap with _ | c
      · simp
      · simp only []
        exact le_max_right c 0
    · intro sem c' hl
      have : (setDefaultCapOnly s cap).semCaps = s.semCaps := by
        unfold setDefaultCapOnly
        rcases cap with _ | c <;> rfl
      rw [this] at hl
      exact hinv.1.2 sem c' hl
  · intro sem
    have : holdersL (setDefaultCapOnly s cap) sem = holdersL s sem := by
      unfold holdersL
      have : (setDefaultCapOnly s cap).sems = s.sems := by
        unfold setDefaultCapOnly
        rcases cap with _ | c <;> rfl
      rw [this]
    rw [this]
    exact hsafe sem

theorem defaultLoop_capInv :
    ∀ {l : List Sem} {s s' : St}, CapInv s → defaultLoop l s = some s' → CapInv s' := by
  intro l
  induction l with
  | nil =>
    intro s s' hinv h
    unfold defaultLoop at h
    exact (Option.some.inj h) ▸ hinv
  | cons sem rest ih =>
    intro s s' hinv h
    unfold defaultLoop at h
    by_cases hcond : (alookup s.semQueues sem).isSome ∧ (alookup s.semCaps sem).isNone
    · rw [if_pos hcond] at h
      rcases hg : grantEmptySlots s sem with _ | s1
      · simp only [hg] at h
        exact Option.noConfusion h
      · simp only [hg] at h
        exact ih (grantEmptySlots_capInv hinv hg) h
    · rw [if_neg hcond] at h
      simp only [] at h
      exact ih hinv h

theorem setDefaultMaxLocks_capInv {s : St} {cap : Option Int} {s' : St}
    (hinv : CapInv s)
    (hsafe : ∀ sem, ((holdersL s sem).length : Int) ≤
      getMaxLocks (setDefaultCapOnly s cap) sem)
    (h : setDefaultMaxLocks s cap = some s') : CapInv s' := by
  unfold setDefaultMaxLocks at h
  simp only [] at h
  have hinv1 := setDefaultCapOnly_capInv hinv hsafe
  by_cases hraise : (setDefaultCapOnly s cap).defaultCap > s.defaultCap
  · rw [if_pos hraise] at h
    exact defaultLoop_capInv hinv1 h
  · rw [if_neg hraise] at h
    exact (Option.some.inj h) ▸ hinv1

theorem runJob_capInv {s : St} {j : Job} {s' : St}
    (hinv : CapInv s) (h : runJob s j = some s') : CapInv s' := by
  rcases j with h1 | h1 <;> unfold runJob at h
  · exact callCB_capInv hinv h
  · exact cancel_capInv hinv h

/-- The side condition under which a capacity-changing operation preserves
the holders-within-cap invariant: the new effective cap must not drop below
the current holder count (the spec itself notes that lowering a cap never
evicts holders, §4.2). -/
def CapSafe (op : Op) (s : St) : Prop :=
  match op with
  | .setMaxLocks sem cap =>
      ((holdersL s sem).length : Int) ≤ getMaxLocks (setCapOnly s sem cap) sem
  | .setDefaultMaxLocks cap =>
      ∀ sem, ((holdersL s sem).length : Int) ≤
        getMaxLocks (setDefaultCapOnly s cap) sem
  | _ => True

theorem step_capInv {s : St} {op : Op} {s' : St}
    (hinv : CapInv s) (hsafe : CapSafe op s) (h : step op s = some s') : CapInv s' := by
  rcases op with ⟨sems, opts, b⟩ | ⟨h1, e?⟩ | ⟨h1, arg⟩ | ⟨sem⟩ | ⟨sem, cap⟩ | ⟨cap⟩ | _ |
    ⟨h1⟩ | ⟨h1⟩
  · simp only [step] at h
    rcases ha : acquire s sems opts b with _ | p
    · simp only [ha] at h
      exact Option.noConfusion h
    · simp only [ha, Option.map_some] at h
      obtain ⟨s2, handle⟩ := p
      exact (Option.some.inj h) ▸ acquire_capInv hinv ha
  · exact cancel_capInv hinv h
  · exact release_capInv hinv h
  · exact forceRelease_capInv hinv h
  · exact setMaxLocks_capInv hinv hsafe h
  · exact setDefaultMaxLocks_capInv hinv hsafe h
  · simp only [step] at h
    rcases hp : s.pending with _ | ⟨j, rest⟩
    · simp only [hp] at h
      exact Option.noConfusion h
    · simp only [hp] at h
      refine runJob_capInv ?_ h
      exact capInv_of_eq rfl rfl rfl hinv
  · simp only [step] at h
    rcases hr : alookup s.reqs h1 with _ | r
    · simp only [hr] at h
      exact Option.noConfusion h
    · simp only [hr] at h
      by_cases harm : r.timeoutArmed = true
      · rw [if_pos harm] at h
        exact cancel_capInv hinv h
      · rw [if_neg harm] at h
        exact Option.noConfusion h
  · simp only [step] at h
    rcases hr : alookup s.reqs h1 with _ | r
    · simp only [hr] at h
      exact Option.noConfusion h
    · simp only [hr] at h
      by_cases harm : r.ttlArmed = true
      · rw [if_pos harm] at h
        rcases hrel : release { s with reqs := aset s.reqs h1 { r with ttlArmed := false } }
            h1 RelArg.allSems with _ | s1
        · simp only [hrel] at h
          exact Option.noConfusion h
        · simp only [hrel] at h
          have hs1 : CapInv s1 := by
            refine release_capInv ?_ hrel
            exact capInv_of_eq rfl rfl rfl hinv
          refine (Option.some.inj h) ▸ ?_
          exact capInv_of_eq rfl rfl rfl hs1
      · rw [if_neg harm] at h
        exact Option.noConfusion h


/-- C1 counterexample: the claim's invariant `len(holders) ≤ capacity`
after *every* operation fails on the code as soon as a capacity is lowered
below the holder count.  Acquire `foo` (one holder, default cap 1), then
`setMaxLocks('foo', 0)`: the holder count stays 1 while the effective
capacity becomes 0, so `len(holders) ≤ capacity` evaluates to false. -/
theorem c1_counterexample :
    ((acquire initSt ["foo"] {} true).bind (fun p => setMaxLocks p.1 "foo" (some 0))).map
      (fun s => (((holdersL s "foo").length : Int), getMaxLocks s "foo",
        decide (((holdersL s "foo").length : Int) ≤ getMaxLocks s "foo")))
    = some (1, 0, false) := by decide

/-- C1 (amended): (1) the capacity invariant holds initially; (2) every
operation preserves `len(holders) ≤ effective capacity` for every
semaphore, provided a capacity-changing operation never sets the effective
cap below the current holder count (`CapSafe`; without that proviso the
claim fails, see the counterexample); and (3) a grant succeeds only while
the holder count is strictly below the effective capacity. -/
theorem c1_cap_invariant :
    CapInv initSt ∧
    (∀ s op s', CapInv s → CapSafe op s → step op s = some s' → CapInv s') ∧
    (∀ s h? sem s', CapNonneg s → grantLock s h? sem = some (s', true) →
      ((holdersL s sem).length : Int) < getMaxLocks s sem) := by
  refine ⟨⟨⟨?_, ?_⟩, ?_⟩, ?_, ?_⟩
  · simp [initSt]
  · intro sem c hl
    simp [initSt, alookup] at hl
  · intro sem
    simp [holdersL, getMaxLocks, initSt, alookup]
  · intro s op s' h1 h2 h3
    exact step_capInv h1 h2 h3
  · intro s h? sem s' hc hgl
    rcases grantLock_spec hgl with ⟨hb, -, -⟩ | ⟨-, h, r, -, -, hgb, -⟩
    · exact Bool.noConfusion hb
    · exact grantable_lt hc hgb

/-- C1 witness: the amended invariant theorem applied to the concrete
acquisition of `foo` from the initial state. -/
theorem c1_witness :
    CapInv ((step (Op.acquire ["foo"] {} true) initSt).getD initSt) := by
  have hs : step (Op.acquire ["foo"] {} true) initSt =
      some ((step (Op.acquire ["foo"] {} true) initSt).getD initSt) := by decide
  exact c1_cap_invariant.2.1 initSt (Op.acquire ["foo"] {} true) _
    c1_cap_invariant.1 trivial hs


/-! ## Concrete evaluations: counterexamples and code bugs -/

/-- C3 counterexample: a request for the *empty* list of semaphores is
never notified at all.  After `acquire([], cb)` the request sits with
`remain = 0`, but no completion was scheduled (`pending = []`), no timer is
armed, and the callback log is empty — the Notifier is invoked zero times,
not exactly once. -/
theorem c3_counterexample :
    ((acquire initSt [] {} true).map (fun p => p.2) = some 0) ∧
    ((acquire initSt [] {} true).map (fun p => p.1.log) = some []) ∧
    ((acquire initSt [] {} true).map (fun p => p.1.pending) = some []) ∧
    ((acquire initSt [] {} true).map
        (fun p => (alookup p.1.reqs p.2).map (fun r => (r.remain, r.timeoutArmed, r.ttlArmed)))
      = some (some (0, false, false))) := by
  exact ⟨by decide, by decide, by decide, by decide⟩

/-- C4: the immediate re-grant after a capacity change is *not* well-defined
for every queue state.  Cancel the sole waiter of `foo` — the `filter` in
`cancel` stores the *empty* queue array back — then raise the cap with
`setMaxLocks('foo', 2)`: `_grantEmptySlots` enters its loop (an empty array
is truthy), reads `this._semQueues['foo'][0]` (`undefined`), and
`_grantLock` throws at `--this._reqs[undefined].remain` (modelled `none`). -/
theorem c4_crash_eval :
    (((acquire initSt ["foo"] {} true).bind (fun p =>
        (acquire p.1 ["foo"] {} true).bind (fun q =>
          cancel q.1 1 none))).map (fun s => alookup s.semQueues "foo")
      = some (some [])) ∧
    ((acquire initSt ["foo"] {} true).bind (fun p =>
        (acquire p.1 ["foo"] {} true).bind (fun q =>
          (cancel q.1 1 none).bind (fun s => step (Op.setMaxLocks "foo" (some 2)) s))))
      = none := by decide

/-- C5 counterexample: duplicate names in one request are *not* collapsed.
`acquire(['foo','foo'])` on a fresh instance grants the first occurrence
and enqueues the second, so handle 0 ends up in `foo`'s holder list *and*
in `foo`'s wait queue at the same time, with `remain = 1`. -/
theorem c5_counterexample :
    (acquire initSt ["foo", "foo"] {} true).map
      (fun p => (holdersL p.1 "foo", queueL p.1 "foo",
        (alookup p.1.reqs 0).map Req.remain))
    = some ([0], [0], some 1) := by decide

/-- C7: canceling an unknown handle is a no-op, and a cancellation with an
error delivers the error exactly once — but canceling *between* a request
becoming fully granted and its deferred `_callCB` turn leaves the
`setImmediate` callback pending while the request record is destroyed, so
the deferred delivery step throws at `req.ttl` (modelled `none`). -/
theorem c7_cancel_eval :
    (cancel initSt 99 (some (Err.user 0)) = some initSt) ∧
    (((acquire initSt ["foo"] {} true).bind (fun p =>
        cancel p.1 0 (some (Err.user 0)))).map
      (fun s => (s.pending, s.log, s.reqs))
      = some ([Job.callCBJob 0], [(0, Notify.failed (Err.user 0))], [])) ∧
    ((acquire initSt ["foo"] {} true).bind (fun p =>
        (cancel p.1 0 (some (Err.user 0))).bind (fun s => step Op.runJob s)))
      = none := by decide

/-- C8: `setMaxLocks(sem, null)` fails to revert an explicit cap of 0 — the
deletion is guarded by the *truthiness* of the stored cap
(`else if (this._semCaps[sem])`), and `0` is falsy, so the cap stays 0
instead of reverting to the default 1.  Reverting a nonzero cap works, and
a negative cap is clamped to 0. -/
theorem c8_cap_revert_eval :
    (((setMaxLocks initSt "foo" (some 0)).bind (fun s => setMaxLocks s "foo" none)).map
        (fun s => (getMaxLocks s "foo", s.defaultCap)) = some (0, 1)) ∧
    (((setMaxLocks initSt "foo" (some 5)).bind (fun s => setMaxLocks s "foo" none)).map
        (fun s => getMaxLocks s "foo") = some 1) ∧
    ((setMaxLocks initSt "foo" (some (-3))).map (fun s => getMaxLocks s "foo") = some 0)
    := by decide

/-- C9: a request whose names are all granted synchronously during the same
`acquire` call that supplied the `wait` option ends up with `remain = 0`
*and* its wait timer armed, because `acquire` arms the timer after the
grant loop already ran (the `clearTimeout` inside `_grantLock` fired before
the timer existed).  When that timer later fires, the fully granted
request is canceled: its lock on `foo` is force-released with no further
notification. -/
theorem c9_wait_timer_eval :
    ((acquire initSt ["foo"] { wait := some 5 } true).map
        (fun p => (alookup p.1.reqs 0).map (fun r => (r.remain, r.timeoutArmed)))
      = some (some (0, true))) ∧
    (((acquire initSt ["foo"] { wait := some 5 } true).bind (fun p =>
        (step Op.runJob p.1).bind (fun s => step (Op.fireWait 0) s))).map
        (fun s => (alookup s.sems "foo", s.log))
      = some (none, [(0, Notify.ok)])) := by decide


/-! ## C10: grant-before-release event ordering -/

theorem mem_holdersL_aset_self {s : St} {sem : Sem} {l : List Nat} {x : Nat} :
    x ∈ (fun s' : St => holdersL s' sem)
      { s with sems := aset s.sems sem l } → x ∈ l := by
  intro hx
  unfold holdersL at hx
  simp only [alookup_aset_self, Option.getD_some] at hx
  exact hx

/-- C10: when `_release(h, sem)` removes a holder and the wait queue is
nonempty, either the head `w` of the queue is granted — in which case the
events appended are exactly the `acquire` event for `w` followed by the
`release` event for `h`, and `w` is a holder afterwards — or the grant
fails (cap exhausted) and only the `release` event is appended.  In both
cases every `acquire` event of the step precedes the `release` event. -/
theorem c10_release_event_order (s : St) (h : Nat) (sem : Sem) (s' : St)
    (hrel : releaseSem s h sem = some (s', true)) (w : Nat) (ws : List Nat)
    (hq : alookup s.semQueues sem = some (w :: ws)) :
    (s'.events = s.events ++ [Ev.acq sem w, Ev.rel sem h] ∧ w ∈ holdersL s' sem) ∨
    (s'.events = s.events ++ [Ev.rel sem h]) := by
  rcases releaseSem_spec hrel with ⟨hb, -⟩ | ⟨-, held, idx, s1, s2, req, hheld, hidx,
    -, hsq1, -, -, -, -, hlog1, hev1, hsems1, hgrant, -, hev', -, -, -, -, -,
    hsems', hsq', -⟩
  · exact Bool.noConfusion hb
  · rcases hgrant with ⟨w', ws', gb, hq', hgl⟩ | ⟨hq', -⟩
    · rw [hq] at hq'
      injection Option.some.inj hq' with h1 hx2
      rcases grantLock_spec hgl with ⟨-, rfl, -⟩ | ⟨-, h2, r2, hh2, -, -, hlog2, -, -, -,
        hev2, hsems2, -, -⟩
      · right
        rw [hev', hev1]
      · left
        have hw : h2 = w := ((Option.some.inj hh2).symm.trans h1.symm)
        rw [hw] at hev2 hsems2
        constructor
        · rw [hev', hev2, hev1]
          simp
        · have hx : w ∈ holdersL s2 sem := by
            unfold holdersL
            rw [hsems2, alookup_aset_self]
            simp
          unfold holdersL at hx ⊢
          rw [hsems']
          exact hx
    · rcases hq' with hnone | hnil
      · rw [hq] at hnone
        exact Option.noConfusion hnone
      · rw [hq] at hnil
        exact List.noConfusion (Option.some.inj hnil)

def c10S : St :=
  (((acquire initSt ["foo"] {} true).bind (fun p =>
    acquire p.1 ["foo"] {} true)).map Prod.fst).getD initSt

def c10S2 : St := ((releaseSem c10S 0 "foo").getD (initSt, false)).1

/-- C10 witness: the ordering theorem applied to the concrete state where
handle 0 holds `foo` and handle 1 waits for it. -/
theorem c10_witness :
    (c10S2.events = c10S.events ++ [Ev.acq "foo" 1, Ev.rel "foo" 0] ∧
      1 ∈ holdersL c10S2 "foo") ∨
    (c10S2.events = c10S.events ++ [Ev.rel "foo" 0]) :=
  c10_release_event_order c10S 0 "foo" c10S2 (by decide) 1 [] (by decide)


/-! ## C6: instant mode -/

theorem grantLock_queue_not_mem {s : St} {h? : Option Nat} {sem : Sem} {s' : St} {b : Bool}
    (hgl : grantLock s h? sem = some (s', b)) (sem' : Sem) (x : Nat)
    (hx : x ∉ queueL s sem') : x ∉ queueL s' sem' := by
  rcases grantLock_spec hgl with ⟨-, rfl, -⟩ | ⟨-, h, r, -, -, -, -, -, -, -, -, -,
    hsq, -⟩
  · exact hx
  · rcases hsq with hsame | ⟨q, hq, -, hdel | htail⟩
    · unfold queueL
      rw [hsame]
      exact hx
    · by_cases hsem : sem = sem'
      · subst hsem
        unfold queueL
        rw [hdel, alookup_adel_self]
        simp
      · unfold queueL
        rw [hdel, alookup_adel_ne _ _ _ hsem]
        exact hx
    · by_cases hsem : sem = sem'
      · subst hsem
        unfold queueL
        rw [htail, alookup_aset_self]
        intro hmem
        refine hx ?_
        unfold queueL
        rw [hq]
        simp only [Option.getD_some]
        exact List.mem_of_mem_tail hmem
      · unfold queueL
        rw [htail, alookup_aset_ne _ _ _ _ hsem]
        exact hx

/-- If the `acquire` grant loop reports that every semaphore was granted
synchronously (`noninstant = false`), the handle is in no wait queue
afterwards (given it was in none before). -/
theorem acquireLoop_false_no_queue {handle : Nat} :
    ∀ {l : List Sem} {s s' : St},
      acquireLoop handle l s false = some (s', false) →
      (∀ sem, handle ∉ queueL s sem) → ∀ sem, handle ∉ queueL s' sem := by
  intro l
  induction l with
  | nil =>
    intro s s' hal hq sem
    unfold acquireLoop at hal
    injection (Option.some.inj hal) with h1 h2
    exact h1 ▸ hq sem
  | cons sem0 rest ih =>
    intro s s' hal hq sem
    unfold acquireLoop at hal
    rcases hrq : requestLock s handle sem0 with _ | ⟨s1, granted⟩
    · simp only [hrq] at hal
      exact Option.noConfusion hal
    · simp only [hrq] at hal
      rcases granted with _ | _
      · -- granted = false: the accumulator becomes true and can never
        -- return to false
        exfalso
        have : ∀ (l' : List Sem) (t t' : St) (ni' : Bool),
            acquireLoop handle l' t true = some (t', ni') → ni' = true := by
          intro l'
          induction l' with
          | nil =>
            intro t t' ni' h
            unfold acquireLoop at h
            injection (Option.some.inj h) with h1 h2
            exact h2.symm
          | cons x xs ih2 =>
            intro t t' ni' h
            unfold acquireLoop at h
            rcases hrq2 : requestLock t handle x with _ | ⟨t1, g2⟩
            · simp only [hrq2] at h
              exact Option.noConfusion h
            · simp only [hrq2] at h
              exact ih2 t1 t' ni' h
        simp only [Bool.not_false, Bool.false_or] at hal
        exact Bool.noConfusion (this rest s1 s' false hal)
      · simp only [Bool.not_true, Bool.false_or] at hal
        refine ih hal (fun sem1 => ?_) sem
        rcases requestLock_spec hrq with ⟨-, hgl⟩ | ⟨hg, -⟩
        · exact grantLock_queue_not_mem hgl sem1 handle (hq sem1)
        · exact Bool.noConfusion hg

/-- C6: (1) in general, if the `instant` option is set, `acquire` returns
normally, and the new handle is still queued for some semaphore (i.e. not
every requested name was granted synchronously), then the request's
`remain` was forced to 0 and a next-turn cancellation job carrying the
instant-failure error is pending; (2) the scenario: with `foo` held by A,
submitting B with `{instant: true}` leaves B's remain at 0 with the
cancellation scheduled after A's completion job; (3) running both pending
jobs delivers `InstantUnavailable` to B and leaves `foo`'s holder list at
exactly `[A]` (count 1), with B's request destroyed. -/
theorem c6_instant_mode :
    (∀ (s : St) (semsArg : List Sem) (opts : Opts) (b : Bool) (s' : St) (h : Nat),
      opts.instant = true →
      acquire s semsArg opts b = some (s', h) →
      (∀ sem, h ∉ queueL s sem) →
      (∃ sem, h ∈ queueL s' sem) →
      (alookup s'.reqs h).map Req.remain = some 0 ∧ Job.cancelJob h ∈ s'.pending) ∧
    (((acquire initSt ["foo"] {} true).bind (fun p =>
        acquire p.1 ["foo"] { instant := true } true)).map
      (fun q => ((alookup q.1.reqs 1).map Req.remain, q.1.pending))
      = some (some 0, [Job.callCBJob 0, Job.cancelJob 1])) ∧
    (((acquire initSt ["foo"] {} true).bind (fun p =>
        (acquire p.1 ["foo"] { instant := true } true).bind (fun q =>
          (step Op.runJob q.1).bind (fun s => step Op.runJob s)))).map
      (fun s => (s.log, holdersL s "foo", s.reqs.map Prod.fst))
      = some ([(0, Notify.ok), (1, Notify.failed Err.instantFail)], [0], [0])) := by
  refine ⟨?_, by decide, by decide⟩
  intro s semsArg opts b s' h hins ha hfresh hqueued
  unfold acquire at ha
  simp only [] at ha
  rcases hal : acquireLoop (getNextHandle s).1 semsArg
      { (getNextHandle s).2 with
        reqs := aset (getNextHandle s).2.reqs (getNextHandle s).1
          { remain := (semsArg.length : Int), released := 0, sems := semsArg,
            ttl := opts.ttl, priority := opts.priority.getD 2, hasCb := b,
            timeoutArmed := false, ttlArmed := false, called := false } } false
      with _ | ⟨s2, noninstant⟩
  · simp only [hal] at ha
    exact Option.noConfusion ha
  · simp only [hal] at ha
    rcases noninstant with _ | _
    · -- all granted synchronously: contradiction with hqueued
      exfalso
      obtain ⟨semw, hw⟩ := hqueued
      simp only [Bool.false_and, if_false, Bool.false_eq_true, reduceIte] at ha
      by_cases hwopt : opts.wait.isSome = true
      · rw [if_pos hwopt] at ha
        rcases hreq : alookup s2.reqs (getNextHandle s).1 with _ | r
        · simp only [hreq] at ha
          exact Option.noConfusion ha
        · simp only [hreq, Option.some_inj, Prod.mk.injEq] at ha
          obtain ⟨hs', hh⟩ := ha
          subst hh
          have hnq : ∀ sem, (getNextHandle s).1 ∉ queueL s2 sem := by
            refine acquireLoop_false_no_queue hal (fun sem => ?_)
            exact hfresh sem
          refine hnq semw ?_
          rw [← hs'] at hw
          exact hw
      · rw [if_neg hwopt] at ha
        simp only [Option.some_inj, Prod.mk.injEq] at ha
        obtain ⟨hs', hh⟩ := ha
        subst hh
        have hnq : ∀ sem, (getNextHandle s).1 ∉ queueL s2 sem := by
          refine acquireLoop_false_no_queue hal (fun sem => ?_)
          exact hfresh sem
        refine hnq semw ?_
        rw [← hs'] at hw
        exact hw
    · rw [hins] at ha
      simp only [Bool.and_self, if_true, reduceIte] at ha
      rcases hreq : alookup s2.reqs (getNextHandle s).1 with _ | r
      · simp only [hreq] at ha
        exact Option.noConfusion ha
      · simp only [hreq, Option.some_inj, Prod.mk.injEq] at ha
        obtain ⟨hs', hh⟩ := ha
        subst hs'
        subst hh
        constructor
        · simp [alookup_aset_self]
        · simp


def c6S : St := ((acquire initSt ["foo"] {} true).getD (initSt, 0)).1

def c6S2 : St := ((acquire c6S ["foo"] { instant := true } true).getD (initSt, 0)).1

/-- C6 witness: the instant-mode theorem applied to the scenario state
(`foo` held by handle 0, handle 1 submitted with `instant`). -/
theorem c6_witness :
    (alookup c6S2.reqs 1).map Req.remain = some 0 ∧ Job.cancelJob 1 ∈ c6S2.pending := by
  have hq : ∀ sem, (1 : Nat) ∉ queueL c6S sem := by
    intro sem
    have h0 : c6S.semQueues = [] := by decide
    simp [queueL, h0, alookup]
  exact c6_instant_mode.1 c6S ["foo"] { instant := true } true c6S2 1 rfl (by decide) hq
    ⟨"foo", by decide⟩


/-! ## C2: priority-ordered wait queues -/

/-- The priority of a queued handle, read from its request record. -/
def priOf (reqs : List (Nat × Req)) (x : Nat) : Int :=
  ((alookup reqs x).map Req.priority).getD 0

/-- A queue is priority-sorted (ascending; ties keep their relative
order since insertion never reorders existing entries). -/
def QSorted (reqs : List (Nat × Req)) (q : List Nat) : Prop :=
  q.Pairwise (fun a b => priOf reqs a ≤ priOf reqs b)

theorem insertByPri_eq (reqs : List (Nat × Req)) (h : Nat) (tp : Int) :
    ∀ (q : List Nat), (∀ x ∈ q, (alookup reqs x).isSome) →
      insertByPri reqs h tp q =
        some (q.takeWhile (fun x => decide (priOf reqs x ≤ tp)) ++
          h :: q.dropWhile (fun x => decide (priOf reqs x ≤ tp))) := by
  intro q
  induction q with
  | nil => intro _; simp [insertByPri]
  | cons x rest ih =>
    intro hall
    obtain ⟨r, hr⟩ := Option.isSome_iff_exists.1 (hall x (by simp))
    have hpri : priOf reqs x = r.priority := by
      unfold priOf
      rw [hr]
      rfl
    unfold insertByPri
    simp only [hr]
    by_cases hgt : r.priority > tp
    · rw [if_pos hgt]
      have hpred : (decide (priOf reqs x ≤ tp)) = false := by
        simp only [hpri, decide_eq_false_iff_not]
        omega
      rw [List.takeWhile_cons, List.dropWhile_cons, hpred]
      simp
    · rw [if_neg hgt]
      have hpred : (decide (priOf reqs x ≤ tp)) = true := by
        simp only [hpri, decide_eq_true_eq]
        omega
      rw [List.takeWhile_cons, List.dropWhile_cons, hpred]
      rw [ih (fun y hy => hall y (by simp [hy]))]
      simp

theorem insertByPri_mem {reqs : List (Nat × Req)} {h : Nat} {tp : Int} :
    ∀ {q q' : List Nat}, insertByPri reqs h tp q = some q' →
      ∀ x ∈ q', x = h ∨ x ∈ q := by
  intro q
  induction q with
  | nil =>
    intro q' hins x hx
    unfold insertByPri at hins
    cases Option.some.inj hins
    simp at hx
    exact Or.inl hx
  | cons y rest ih =>
    intro q' hins x hx
    unfold insertByPri at hins
    rcases hr : alookup reqs y with _ | r
    · simp only [hr] at hins
      exact Option.noConfusion hins
    · simp only [hr] at hins
      by_cases hgt : r.priority > tp
      · rw [if_pos hgt] at hins
        cases Option.some.inj hins
        rcases List.mem_cons.1 hx with rfl | hx
        · exact Or.inl rfl
        · exact Or.inr hx
      · rw [if_neg hgt] at hins
        rcases hq2 : insertByPri reqs h tp rest with _ | q2
        · rw [hq2] at hins
          exact Option.noConfusion hins
        · rw [hq2] at hins
          cases Option.some.inj hins
          rcases List.mem_cons.1 hx with rfl | hx
          · exact Or.inr (by simp)
          · rcases ih hq2 x hx with rfl | hmem
            · exact Or.inl rfl
            · exact Or.inr (by simp [hmem])

theorem insertByPri_sorted {reqs : List (Nat × Req)} {h : Nat} {tp : Int}
    (htp : priOf reqs h = tp) :
    ∀ {q q' : List Nat}, QSorted reqs q → insertByPri reqs h tp q = some q' →
      QSorted reqs q' := by
  intro q
  induction q with
  | nil =>
    intro q' _ hins
    cases Option.some.inj hins
    exact List.pairwise_singleton _ _
  | cons y rest ih =>
    intro q' hq hins
    unfold insertByPri at hins
    rcases hr : alookup reqs y with _ | r
    · simp only [hr] at hins
      exact Option.noConfusion hins
    · simp only [hr] at hins
      have hpy : priOf reqs y = r.priority := by
        unfold priOf
        rw [hr]
        rfl
      by_cases hgt : r.priority > tp
      · rw [if_pos hgt] at hins
        cases Option.some.inj hins
        refine List.Pairwise.cons ?_ hq
        intro z hz
        rcases List.mem_cons.1 hz with rfl | hz
        · rw [htp, hpy]
          omega
        · have hyz := List.rel_of_pairwise_cons hq hz
          rw [htp]
          rw [hpy] at hyz
          omega
      · rw [if_neg hgt] at hins
        rcases hq2 : insertByPri reqs h tp rest with _ | q2
        · rw [hq2] at hins
          exact Option.noConfusion hins
        · rw [hq2] at hins
          cases Option.some.inj hins
          refine List.Pairwise.cons ?_ (ih (List.Pairwise.of_cons hq) hq2)
          intro z hz
          rcases insertByPri_mem hq2 z hz with rfl | hmem
          · rw [htp, hpy]
            omega
          · exact List.rel_of_pairwise_cons hq hmem

/-- The wait queue of `sem` stays priority-sorted across `_enqueue`. -/
theorem enqueue_sorted {s : St} {sem : Sem} {h : Nat} {s' : St} {req : Req}
    (he : enqueue s sem h = some s') (hreq : alookup s.reqs h = some req)
    (hsorted : QSorted s.reqs (queueL s sem)) :
    s'.reqs = s.reqs ∧ QSorted s'.reqs (queueL s' sem) := by
  obtain ⟨req2, q2, hreq2, hins, rfl⟩ := enqueue_spec he
  have hrr : req2 = req := Option.some.inj (hreq2.symm.trans hreq)
  subst hrr
  refine ⟨rfl, ?_⟩
  have hq : queueL { s with semQueues := aset s.semQueues sem q2 } sem = q2 := by
    unfold queueL
    rw [alookup_aset_self]
    rfl
  rw [hq]
  have htp : priOf s.reqs h = req2.priority := by
    unfold priOf
    rw [hreq2]
    rfl
  exact insertByPri_sorted htp hsorted hins

theorem mem_eraseIdx {x : Nat} :
    ∀ {l : List Nat} {i : Nat}, x ∈ l.eraseIdx i → x ∈ l := by
  intro l
  induction l with
  | nil => intro i hx; simp [List.eraseIdx] at hx
  | cons y rest ih =>
    intro i hx
    rcases i with _ | j
    · exact List.mem_cons_of_mem y hx
    · rcases List.mem_cons.1 hx with rfl | hx
      · simp
      · exact List.mem_cons_of_mem y (ih hx)

/-- Grants triggered by `_release` go only to the head of the wait queue:
anyone holding a semaphore afterwards either held it before or is the head
of that semaphore's queue. -/
theorem releaseSem_grants_head {s : St} {h : Nat} {sem : Sem} {s' : St} {b : Bool}
    (hrel : releaseSem s h sem = some (s', b)) (sem' : Sem) (x : Nat)
    (hx : x ∈ holdersL s' sem') :
    x ∈ holdersL s sem' ∨ (sem' = sem ∧ (queueL s sem).head? = some x) := by
  rcases releaseSem_spec hrel with ⟨-, rfl⟩ | ⟨-, held, idx, s1, s2, req, hheld, hidx,
    -, hsq1, -, -, -, -, -, -, hsems1, hgrant, -, -, -, -, -, -, -, hsems', -, -⟩
  · exact Or.inl hx
  · have hx2 : x ∈ holdersL s2 sem' := by
      unfold holdersL at hx ⊢
      rw [hsems'] at hx
      exact hx
    have hs1mem : x ∈ holdersL s1 sem' → x ∈ holdersL s sem' := by
      intro hx1
      unfold holdersL at hx1 ⊢
      rcases hsems1 with ⟨-, hs1⟩ | ⟨-, hs1⟩
      · rw [hs1] at hx1
        by_cases hsem : sem = sem'
        · subst hsem
          rw [alookup_adel_self] at hx1
          simp at hx1
        · rw [alookup_adel_ne _ _ _ hsem] at hx1
          exact hx1
      · rw [hs1] at hx1
        by_cases hsem : sem = sem'
        · subst hsem
          rw [alookup_aset_self] at hx1
          rw [hheld]
          simp only [Option.getD_some] at hx1 ⊢
          exact mem_eraseIdx hx1
        · rw [alookup_aset_ne _ _ _ _ hsem] at hx1
          exact hx1
    rcases hgrant with ⟨w, ws, gb, hq, hgl⟩ | ⟨-, rfl⟩
    · rcases grantLock_spec hgl with ⟨-, rfl, -⟩ | ⟨-, h2, r2, hh2, -, -, -, -, -, -, -,
        hsems2, -, -⟩
      · exact Or.inl (hs1mem hx2)
      · have hw2 : h2 = w := (Option.some.inj hh2).symm
        subst hw2
        by_cases hsem : sem = sem'
        · subst hsem
          unfold holdersL at hx2
          rw [hsems2, alookup_aset_self] at hx2
          simp only [Option.getD_some] at hx2
          rcases List.mem_append.1 hx2 with hx3 | hx3
          · refine Or.inl (hs1mem ?_)
            unfold holdersL
            exact hx3
          · simp only [List.mem_singleton] at hx3
            subst hx3
            refine Or.inr ⟨rfl, ?_⟩
            unfold queueL
            rw [hq]
            rfl
        · unfold holdersL at hx2
          rw [hsems2, alookup_aset_ne _ _ _ _ hsem] at hx2
          exact Or.inl (hs1mem hx2)
    · exact Or.inl (hs1mem hx2)

/-- C2: the priority-queue discipline of the wait queues.  (1) `_enqueue`'s
scan inserts the handle exactly before the first queued entry with strictly
greater priority — the result is the longest prefix of entries with
priority ≤ the new priority, then the handle, then the rest — which makes
equal-priority entries keep submission order; (2) the queue therefore stays
priority-sorted across `_enqueue`; (3) a grant performed by `_release`
always goes to the queue head (any new holder is the head of that
semaphore's queue), so queued requests are granted in ascending priority
order, ties in submission order. -/
theorem c2_priority_queue :
    (∀ (reqs : List (Nat × Req)) (h : Nat) (tp : Int) (q : List Nat),
      (∀ x ∈ q, (alookup reqs x).isSome) →
      insertByPri reqs h tp q =
        some (q.takeWhile (fun x => decide (priOf reqs x ≤ tp)) ++
          h :: q.dropWhile (fun x => decide (priOf reqs x ≤ tp)))) ∧
    (∀ (s : St) (sem : Sem) (h : Nat) (s' : St) (req : Req),
      enqueue s sem h = some s' → alookup s.reqs h = some req →
      QSorted s.reqs (queueL s sem) →
      s'.reqs = s.reqs ∧ QSorted s'.reqs (queueL s' sem)) ∧
    (∀ (s : St) (h : Nat) (sem : Sem) (s' : St) (b : Bool),
      releaseSem s h sem = some (s', b) → ∀ (sem' : Sem) (x : Nat),
      x ∈ holdersL s' sem' →
      x ∈ holdersL s sem' ∨ (sem' = sem ∧ (queueL s sem).head? = some x)) := by
  refine ⟨insertByPri_eq, ?_, ?_⟩
  · intro s sem h s' req he hreq hsorted
    exact enqueue_sorted he hreq hsorted
  · intro s h sem s' b hrel sem' x hx
    exact releaseSem_grants_head hrel sem' x hx


def c2Req (p : Int) : Req :=
  { remain := 1, released := 0, sems := ["foo"], ttl := none, priority := p,
    hasCb := true, timeoutArmed := false, ttlArmed := false, called := false }

/-- C2 witness: the insertion characterization applied to a concrete queue
holding priorities [1, 3]; inserting priority 2 lands between them. -/
theorem c2_witness :
    insertByPri [(0, c2Req 1), (1, c2Req 3)] 2 2 [0, 1] = some [0, 2, 1] := by
  have h := c2_priority_queue.1 [(0, c2Req 1), (1, c2Req 3)] 2 2 [0, 1] (by decide)
  rw [h]
  decide


/-! ## C5: queue/holder exclusivity for duplicate-free requests -/

/-- A handle is `marked` if any registry references it. -/
def marked (s : St) (h : Nat) : Prop :=
  (alookup s.reqs h).isSome = true ∨ (∃ sem, h ∈ queueL s sem) ∨
  (∃ sem, h ∈ holdersL s sem)

/-- Handle freshness: every referenced handle is below the id counter
(no wrap-around has occurred). -/
def Fresh (s : St) : Prop := ∀ h, marked s h → h < s.curId

/-- For a request whose name list has no duplicates, each semaphore
references the handle at most once in the wait queue and holder list
combined — in particular never in both. -/
def Excl (s : St) : Prop :=
  ∀ (sem : Sem) (h : Nat) (r : Req), alookup s.reqs h = some r → r.sems.Nodup →
    (queueL s sem).count h + (holdersL s sem).count h ≤ 1

/-- The C5 invariant. -/
def DisjInv (s : St) : Prop := Fresh s ∧ Excl s

theorem count_eraseIdx_le (x : Nat) :
    ∀ (l : List Nat) (i : Nat), (l.eraseIdx i).count x ≤ l.count x := by
  intro l
  induction l with
  | nil => intro i; simp [List.eraseIdx]
  | cons y rest ih =>
    intro i
    rcases i with _ | j
    · simp only [List.eraseIdx]
      by_cases hy : y = x
      · rw [List.count_cons]
        omega
      · rw [List.count_cons]
        omega
    · simp only [List.eraseIdx]
      rw [List.count_cons, List.count_cons]
      have := ih j
      omega

theorem count_filter_ne (x h : Nat) (l : List Nat) :
    (l.filter (fun i => i != h)).count x ≤ l.count x := by
  induction l with
  | nil => simp
  | cons y rest ih =>
    simp only [List.filter_cons]
    by_cases hy : (y != h) = true
    · simp only [hy, if_true, List.count_cons, reduceIte]
      omega
    · have hy' : (y != h) = false := by
        revert hy
        cases (y != h) <;> simp
      simp only [hy', Bool.false_eq_true, if_false, List.count_cons, reduceIte]
      omega

theorem insertByPri_count {reqs : List (Nat × Req)} {h : Nat} {tp : Int} :
    ∀ {q q' : List Nat}, insertByPri reqs h tp q = some q' →
      q'.count h = q.count h + 1 ∧ ∀ x, x ≠ h → q'.count x = q.count x := by
  intro q
  induction q with
  | nil =>
    intro q' hins
    cases Option.some.inj hins
    constructor
    · simp
    · intro x hx
      simp [List.count_cons]
      omega
  | cons y rest ih =>
    intro q' hins
    unfold insertByPri at hins
    rcases hr : alookup reqs y with _ | r
    · simp only [hr] at hins
      exact Option.noConfusion hins
    · simp only [hr] at hins
      by_cases hgt : r.priority > tp
      · rw [if_pos hgt] at hins
        cases Option.some.inj hins
        constructor
        · simp [List.count_cons]
        · intro x hx
          simp [List.count_cons, hx]
      · rw [if_neg hgt] at hins
        rcases hq2 : insertByPri reqs h tp rest with _ | q2
        · rw [hq2] at hins
          exact Option.noConfusion hins
        · rw [hq2] at hins
          cases Option.some.inj hins
          obtain ⟨ih1, ih2⟩ := ih hq2
          constructor
          · simp [List.count_cons, ih1]
            omega
          · intro x hx
            simp [List.count_cons, ih2 x hx]

/-- The queue-shift behavior of a successful `_grantLock` is
deterministic: the head is shifted out exactly when the granted handle is
the head. -/
theorem grantLock_queues {s : St} {h? : Option Nat} {sem : Sem} {s' : St}
    (hgl : grantLock s h? sem = some (s', true)) :
    ∃ h, h? = some h ∧
      (∀ q, alookup s.semQueues sem = some q → q.head? ≠ some h →
        s'.semQueues = s.semQueues) ∧
      (alookup s.semQueues sem = none → s'.semQueues = s.semQueues) ∧
      (∀ q, alookup s.semQueues sem = some q → q.head? = some h →
        (q.length = 1 ∧ s'.semQueues = adel s.semQueues sem) ∨
        (q.length ≠ 1 ∧ s'.semQueues = aset s.semQueues sem q.tail)) := by
  have hgb : grantableB s sem = true := by
    rcases grantLock_spec hgl with ⟨hb, -⟩ | ⟨-, h, r, -, -, hgb2, -⟩
    · exact Bool.noConfusion hb
    · exact hgb2
  rcases h? with _ | h
  · simp only [grantLock, hgb, if_true] at hgl
    exact Option.noConfusion hgl
  · rcases hr : alookup s.reqs h with _ | req
    · simp only [grantLock, hgb, if_true, hr] at hgl
      exact Option.noConfusion hgl
    · refine ⟨h, rfl, ?_, ?_, ?_⟩
      · intro q hq hhead
        simp only [grantLock, hgb, if_true, hr, hq] at hgl
        rw [if_neg hhead] at hgl
        by_cases hrem : req.remain - 1 = 0
        · rw [if_pos hrem] at hgl
          injection Option.some.inj hgl with h1 h2
          subst h1
          rfl
        · rw [if_neg hrem] at hgl
          injection Option.some.inj hgl with h1 h2
          subst h1
          rfl
      · intro hq
        simp only [grantLock, hgb, if_true, hr, hq] at hgl
        by_cases hrem : req.remain - 1 = 0
        · rw [if_pos hrem] at hgl
          injection Option.some.inj hgl with h1 h2
          subst h1
          rfl
        · rw [if_neg hrem] at hgl
          injection Option.some.inj hgl with h1 h2
          subst h1
          rfl
      · intro q hq hhead
        simp only [grantLock, hgb, if_true, hr, hq] at hgl
        rw [if_pos hhead] at hgl
        by_cases hlen : q.length = 1
        · rw [if_pos hlen] at hgl
          refine Or.inl ⟨hlen, ?_⟩
          by_cases hrem : req.remain - 1 = 0
          · rw [if_pos hrem] at hgl
            injection Option.some.inj hgl with h1 h2
            subst h1
            rfl
          · rw [if_neg hrem] at hgl
            injection Option.some.inj hgl with h1 h2
            subst h1
            rfl
        · rw [if_neg hlen] at hgl
          refine Or.inr ⟨hlen, ?_⟩
          by_cases hrem : req.remain - 1 = 0
          · rw [if_pos hrem] at hgl
            injection Option.some.inj hgl with h1 h2
            subst h1
            rfl
          · rw [if_neg hrem] at hgl
            injection Option.some.inj hgl with h1 h2
            subst h1
            rfl


theorem fresh_mono {s s' : St} (hc : s.curId ≤ s'.curId)
    (hm : ∀ h, marked s' h → marked s h) (hf : Fresh s) : Fresh s' :=
  fun h hmk => Nat.lt_of_lt_of_le (hf h (hm h hmk)) hc

theorem count_pos_of_mem {x : Nat} : ∀ {l : List Nat}, x ∈ l → 0 < l.count x := by
  intro l
  induction l with
  | nil => intro hx; simp at hx
  | cons y rest ih =>
    intro hx
    rcases List.mem_cons.1 hx with rfl | hx
    · simp [List.count_cons]
    · have := ih hx
      rw [List.count_cons]
      omega

theorem grantLock_marked {s : St} {h? : Option Nat} {sem : Sem} {s' : St} {b : Bool}
    (hgl : grantLock s h? sem = some (s', b)) :
    ∀ x, marked s' x → marked s x := by
  intro x hmk
  rcases grantLock_spec hgl with ⟨-, rfl, -⟩ | ⟨hb, h, r, hh, hr, -, -, -, -, -, -,
    hsems, -, -⟩
  · exact hmk
  · subst hb
    rcases hmk with hq | ⟨sem', hq⟩ | ⟨sem', hq⟩
    · -- a request record reference
      by_cases hx : h = x
      · subst hx
        exact Or.inl (by rw [hr]; rfl)
      · left
        rcases grantLock_spec hgl with ⟨hb2, -⟩ | ⟨-, h2, r2, hh2, hr2, -, -, -, -, -, -,
          -, -, hreqs⟩
        · exact Bool.noConfusion hb2
        · have hhh : h2 = h := Option.some.inj (hh2.symm.trans hh)
          subst hhh
          rcases hreqs with ⟨-, -, hre⟩ | ⟨-, -, hre⟩ <;>
            rw [hre, alookup_aset_ne _ _ _ _ hx] at hq <;> exact hq
    · -- a wait-queue reference
      right
      left
      refine ⟨sem', ?_⟩
      by_contra hnm
      exact (grantLock_queue_not_mem hgl sem' x hnm) hq
    · -- a holder reference
      by_cases hsem : sem = sem'
      · subst hsem
        unfold holdersL at hq
        rw [hsems, alookup_aset_self] at hq
        simp only [Option.getD_some] at hq
        rcases List.mem_append.1 hq with hq2 | hq2
        · exact Or.inr (Or.inr ⟨sem, hq2⟩)
        · simp only [List.mem_singleton] at hq2
          subst hq2
          exact Or.inl (by rw [hr]; rfl)
      · unfold holdersL at hq
        rw [hsems, alookup_aset_ne _ _ _ _ hsem] at hq
        exact Or.inr (Or.inr ⟨sem', hq⟩)

theorem grantLock_excl {s : St} {h? : Option Nat} {sem : Sem} {s' : St} {b : Bool}
    (hgl : grantLock s h? sem = some (s', b)) (hex : Excl s)
    (hmode : ∀ h r, h? = some h → alookup s.reqs h = some r → r.sems.Nodup →
      (queueL s sem).head? = some h ∨
      ((queueL s sem).count h = 0 ∧ (holdersL s sem).count h = 0)) :
    Excl s' := by
  rcases grantLock_spec hgl with ⟨-, rfl, -⟩ | ⟨hb, h, r, hh, hr, -, -, -, -, -, -,
    hsems, -, hreqs0⟩
  · exact hex
  · subst hb
    obtain ⟨h2, hh2, hq_nohead, hq_none, hq_head⟩ := grantLock_queues hgl
    have hhh : h2 = h := Option.some.inj (hh2.symm.trans hh)
    rw [hhh] at hq_nohead hq_head
    have hreqs : ∀ x, x ≠ h → alookup s'.reqs x = alookup s.reqs x := by
      intro x hx
      rcases hreqs0 with ⟨-, -, hre⟩ | ⟨-, -, hre⟩ <;>
        rw [hre, alookup_aset_ne _ _ _ _ (fun hc => hx hc.symm)]
    have hreqh : ∀ rx, alookup s'.reqs h = some rx → rx.sems = r.sems := by
      intro rx hrx
      rcases hreqs0 with ⟨-, -, hre⟩ | ⟨-, -, hre⟩ <;>
        rw [hre, alookup_aset_self] at hrx <;>
        cases Option.some.inj hrx <;> rfl
    intro sem' x rx hrx hnd
    by_cases hsem : sem = sem'
    case neg =>
      -- untouched semaphore: both lists unchanged
      have hqeq : queueL s' sem' = queueL s sem' := by
        unfold queueL
        rcases hqs : alookup s.semQueues sem with _ | q
        · rw [hq_none hqs]
        · by_cases hhead : q.head? = some h
          · rcases hq_head q hqs hhead with ⟨-, hsq⟩ | ⟨-, hsq⟩
            · rw [hsq, alookup_adel_ne _ _ _ hsem]
            · rw [hsq, alookup_aset_ne _ _ _ _ hsem]
          · rw [hq_nohead q hqs hhead]
      have hheq : holdersL s' sem' = holdersL s sem' := by
        unfold holdersL
        rw [hsems, alookup_aset_ne _ _ _ _ hsem]
      rw [hqeq, hheq]
      by_cases hx : x = h
      · subst hx
        exact hex sem' x r hr ((hreqh rx hrx) ▸ hnd)
      · rw [hreqs x hx] at hrx
        exact hex sem' x rx hrx hnd
    case pos =>
      subst hsem
      have hheq : holdersL s' sem = holdersL s sem ++ [h] := by
        unfold holdersL
        rw [hsems, alookup_aset_self]
        rfl
      by_cases hx : x = h
      case neg =>
        -- another handle: its queue count cannot increase, holder count equal
        rw [hreqs x hx] at hrx
        have hhc : (holdersL s' sem).count x = (holdersL s sem).count x := by
          rw [hheq, List.count_append]
          have : ([h].count x) = 0 := by
            simp [List.count_cons, Ne.symm hx]
          omega
        have hqc : (queueL s' sem).count x ≤ (queueL s sem).count x := by
          unfold queueL
          rcases hqs : alookup s.semQueues sem with _ | q
          · rw [hq_none hqs, hqs]
          · by_cases hhead : q.head? = some h
            · rcases hq_head q hqs hhead with ⟨-, hsq⟩ | ⟨-, hsq⟩
              · rw [hsq, alookup_adel_self]
                simp
              · rw [hsq, alookup_aset_self]
                simp only [Option.getD_some]
                rcases q with _ | ⟨w, t⟩
                · simp at hhead
                · have hw : w = h := by
                    simpa using hhead
                  subst hw
                  simp only [List.tail_cons, List.count_cons]
                  omega
            · rw [hq_nohead q hqs hhead, hqs]
        have := hex sem x rx hrx hnd
        omega
      case pos =>
        rw [hx] at hrx ⊢
        have hnd2 : r.sems.Nodup := (hreqh rx hrx) ▸ hnd
        have hhc : (holdersL s' sem).count h = (holdersL s sem).count h + 1 := by
          rw [hheq, List.count_append]
          simp [List.count_cons]
        rcases hmode h r hh hr hnd2 with hhead | ⟨hq0, hh0⟩
        · -- head mode: the head is shifted out
          rcases hqs : alookup s.semQueues sem with _ | q
          · exfalso
            unfold queueL at hhead
            rw [hqs] at hhead
            simp at hhead
          · have hqq : queueL s sem = q := by
              unfold queueL
              rw [hqs]
              rfl
            rcases q with _ | ⟨w, t⟩
            · exfalso
              rw [hqq] at hhead
              simp at hhead
            · have hw : h = w := by
                rw [hqq] at hhead
                have := Option.some.inj hhead
                simp at this
                exact this.symm
              subst hw
              have hcnt : (queueL s sem).count h = t.count h + 1 := by
                rw [hqq, List.count_cons]
                simp
              have hbound := hex sem h r hr hnd2
              have ht0 : t.count h = 0 := by omega
              have hh0 : (holdersL s sem).count h = 0 := by omega
              have hqc : (queueL s' sem).count h = 0 := by
                unfold queueL
                rcases hq_head _ hqs (by simp) with ⟨-, hsq⟩ | ⟨-, hsq⟩
                · rw [hsq, alookup_adel_self]
                  simp
                · rw [hsq, alookup_aset_self]
                  simpa using ht0
              omega
        · -- fresh mode: not queued, not holding
          have hqc : (queueL s' sem).count h = 0 := by
            unfold queueL
            rcases hqs : alookup s.semQueues sem with _ | q
            · rw [hq_none hqs, hqs]
              simp
            · have hqq : queueL s sem = q := by
                unfold queueL
                rw [hqs]
                rfl
              by_cases hhead : q.head? = some h
              · exfalso
                rcases q with _ | ⟨w, t⟩
                · simp at hhead
                · have hw : h = w := by
                    have := Option.some.inj hhead
                    simpa using this.symm
                  subst hw
                  rw [hqq, List.count_cons] at hq0
                  simp at hq0
              · rw [hq_nohead q hqs hhead, hqs]
                rw [hqq] at hq0
                exact hq0
          omega


/-- Transport of `Excl` along count-monotone changes. -/
theorem excl_shrink {s s' : St}
    (hq : ∀ sem x, (queueL s' sem).count x ≤ (queueL s sem).count x)
    (hh : ∀ sem x, (holdersL s' sem).count x ≤ (holdersL s sem).count x)
    (hr : ∀ x rx, alookup s'.reqs x = some rx →
      ∃ r0, alookup s.reqs x = some r0 ∧ r0.sems = rx.sems)
    (hex : Excl s) : Excl s' := by
  intro sem x rx hrx hnd
  obtain ⟨r0, hr0, hs0⟩ := hr x rx hrx
  have := hex sem x r0 hr0 (hs0.symm ▸ hnd)
  have h1 := hq sem x
  have h2 := hh sem x
  omega

theorem releaseSem_marked {s : St} {h : Nat} {sem : Sem} {s' : St} {b : Bool}
    (hrel : releaseSem s h sem = some (s', b)) :
    ∀ x, marked s' x → marked s x := by
  intro x hmk
  rcases releaseSem_spec hrel with ⟨-, rfl⟩ | ⟨-, held, idx, s1, s2, req, hheld, hidx,
    hreqs1, hsq1, -, -, -, -, -, -, hsems1, hgrant, hreq2, -, -, -, -, -, -, hsems',
    hsq', hreqs'⟩
  · exact hmk
  · have hm1 : ∀ y, marked s1 y → marked s y := by
      intro y hy
      rcases hy with hy | ⟨sem2, hy⟩ | ⟨sem2, hy⟩
      · rw [hreqs1] at hy
        exact Or.inl hy
      · unfold queueL at hy
        rw [hsq1] at hy
        exact Or.inr (Or.inl ⟨sem2, hy⟩)
      · unfold holdersL at hy
        rcases hsems1 with ⟨-, hs1⟩ | ⟨-, hs1⟩
        · rw [hs1] at hy
          by_cases hsem : sem = sem2
          · subst hsem
            rw [alookup_adel_self] at hy
            simp at hy
          · rw [alookup_adel_ne _ _ _ hsem] at hy
            exact Or.inr (Or.inr ⟨sem2, hy⟩)
        · rw [hs1] at hy
          by_cases hsem : sem = sem2
          · subst hsem
            rw [alookup_aset_self] at hy
            simp only [Option.getD_some] at hy
            refine Or.inr (Or.inr ⟨sem, ?_⟩)
            unfold holdersL
            rw [hheld]
            exact mem_eraseIdx hy
          · rw [alookup_aset_ne _ _ _ _ hsem] at hy
            exact Or.inr (Or.inr ⟨sem2, hy⟩)
    have hm2 : ∀ y, marked s2 y → marked s1 y := by
      rcases hgrant with ⟨w, ws, gb, hq, hgl⟩ | ⟨-, rfl⟩
      · exact grantLock_marked hgl
      · exact fun y hy => hy
    refine hm1 x (hm2 x ?_)
    rcases hmk with hy | ⟨sem2, hy⟩ | ⟨sem2, hy⟩
    · rcases hreqs' with ⟨-, hre⟩ | ⟨-, hre⟩
      · rw [hre] at hy
        by_cases hxh : h = x
        · subst hxh
          rw [alookup_adel_self] at hy
          exact Bool.noConfusion hy
        · rw [alookup_adel_ne _ _ _ hxh] at hy
          exact Or.inl hy
      · rw [hre] at hy
        by_cases hxh : h = x
        · subst hxh
          exact Or.inl (by rw [hreq2]; rfl)
        · rw [alookup_aset_ne _ _ _ _ hxh] at hy
          exact Or.inl hy
    · unfold queueL at hy
      rw [hsq'] at hy
      exact Or.inr (Or.inl ⟨sem2, hy⟩)
    · unfold holdersL at hy
      rw [hsems'] at hy
      exact Or.inr (Or.inr ⟨sem2, hy⟩)

theorem releaseSem_excl {s : St} {h : Nat} {sem : Sem} {s' : St} {b : Bool}
    (hrel : releaseSem s h sem = some (s', b)) (hex : Excl s) : Excl s' := by
  rcases releaseSem_spec hrel with ⟨-, rfl⟩ | ⟨-, held, idx, s1, s2, req, hheld, hidx,
    hreqs1, hsq1, -, -, -, -, -, -, hsems1, hgrant, hreq2, -, -, -, -, -, -, hsems',
    hsq', hreqs'⟩
  · exact hex
  · have hex1 : Excl s1 := by
      refine excl_shrink (fun sem2 x => ?_) (fun sem2 x => ?_)
        (fun x rx hrx => ⟨rx, by rw [← hreqs1]; exact hrx, rfl⟩) hex
      · unfold queueL
        rw [hsq1]
      · unfold holdersL
        rcases hsems1 with ⟨-, hs1⟩ | ⟨-, hs1⟩
        · rw [hs1]
          by_cases hsem : sem = sem2
          · subst hsem
            rw [alookup_adel_self]
            simp
          · rw [alookup_adel_ne _ _ _ hsem]
        · rw [hs1]
          by_cases hsem : sem = sem2
          · subst hsem
            rw [alookup_aset_self, hheld]
            simp only [Option.getD_some]
            exact count_eraseIdx_le x held idx
          · rw [alookup_aset_ne _ _ _ _ hsem]
    have hex2 : Excl s2 := by
      rcases hgrant with ⟨w, ws, gb, hq, hgl⟩ | ⟨-, rfl⟩
      · refine grantLock_excl hgl hex1 (fun h0 r0 hh0 _ _ => Or.inl ?_)
        have hw : h0 = w := Option.some.inj hh0.symm
        subst hw
        unfold queueL
        rw [hsq1, hq]
        rfl
      · exact hex1
    refine excl_shrink (fun sem2 x => ?_) (fun sem2 x => ?_) (fun x rx hrx => ?_) hex2
    · unfold queueL
      rw [hsq']
    · unfold holdersL
      rw [hsems']
    · rcases hreqs' with ⟨-, hre⟩ | ⟨-, hre⟩
      · rw [hre] at hrx
        by_cases hxh : h = x
        · subst hxh
          rw [alookup_adel_self] at hrx
          exact Option.noConfusion hrx
        · rw [alookup_adel_ne _ _ _ hxh] at hrx
          exact ⟨rx, hrx, rfl⟩
      · rw [hre] at hrx
        by_cases hxh : h = x
        · subst hxh
          rw [alookup_aset_self] at hrx
          cases Option.some.inj hrx
          exact ⟨req, hreq2, rfl⟩
        · rw [alookup_aset_ne _ _ _ _ hxh] at hrx
          exact ⟨rx, hrx, rfl⟩

theorem enqueue_marked {s : St} {sem : Sem} {h : Nat} {s' : St}
    (he : enqueue s sem h = some s') : ∀ x, marked s' x → marked s x := by
  intro x hmk
  obtain ⟨req, q2, hreq, hins, rfl⟩ := enqueue_spec he
  rcases hmk with hy | ⟨sem2, hy⟩ | ⟨sem2, hy⟩
  · exact Or.inl hy
  · unfold queueL at hy
    by_cases hsem : sem = sem2
    · subst hsem
      rw [alookup_aset_self] at hy
      simp only [Option.getD_some] at hy
      rcases insertByPri_mem hins x hy with rfl | hy2
      · exact Or.inl (by rw [hreq]; rfl)
      · exact Or.inr (Or.inl ⟨sem, hy2⟩)
    · rw [alookup_aset_ne _ _ _ _ hsem] at hy
      exact Or.inr (Or.inl ⟨sem2, hy⟩)
  · exact Or.inr (Or.inr ⟨sem2, hy⟩)

theorem enqueue_excl {s : St} {sem : Sem} {h : Nat} {s' : St}
    (he : enqueue s sem h = some s') (hex : Excl s)
    (hcnt : (queueL s sem).count h = 0 ∧ (holdersL s sem).count h = 0) : Excl s' := by
  obtain ⟨req, q2, hreq, hins, rfl⟩ := enqueue_spec he
  obtain ⟨hc1, hc2⟩ := insertByPri_count hins
  intro sem2 x rx hrx hnd
  by_cases hsem : sem = sem2
  · subst hsem
    have hql : queueL { s with semQueues := aset s.semQueues sem q2 } sem = q2 := by
      unfold queueL
      rw [alookup_aset_self]
      rfl
    rw [hql]
    by_cases hxh : x = h
    · subst hxh
      rw [hc1]
      have heq : (holdersL { s with semQueues := aset s.semQueues sem q2 } sem)
          = holdersL s sem := rfl
      rw [heq]
      obtain ⟨hx1, hx2⟩ := hcnt
      unfold queueL at hx1
      omega
    · rw [hc2 x hxh]
      exact hex sem x rx hrx hnd
  · have hql : queueL { s with semQueues := aset s.semQueues sem q2 } sem2
        = queueL s sem2 := by
      unfold queueL
      rw [alookup_aset_ne _ _ _ _ hsem]
    rw [hql]
    exact hex sem2 x rx hrx hnd

theorem requestLock_other_sem {s : St} {h : Nat} {sem : Sem} {s1 : St} {g : Bool}
    (hrq : requestLock s h sem = some (s1, g)) (sem2 : Sem) (hne : sem ≠ sem2) :
    queueL s1 sem2 = queueL s sem2 ∧ holdersL s1 sem2 = holdersL s sem2 := by
  rcases requestLock_spec hrq with ⟨-, hgl⟩ | ⟨-, hgl, he⟩
  · obtain ⟨h2, -, hq_nohead, hq_none, hq_head⟩ := grantLock_queues hgl
    rcases grantLock_spec hgl with ⟨hb, -⟩ | ⟨-, h3, r3, -, -, -, -, -, -, -, -,
      hsems, -, -⟩
    · exact Bool.noConfusion hb
    · constructor
      · unfold queueL
        rcases hqs : alookup s.semQueues sem with _ | q
        · rw [hq_none hqs]
        · by_cases hhead : q.head? = some h2
          · rcases hq_head q hqs hhead with ⟨-, hsq⟩ | ⟨-, hsq⟩
            · rw [hsq, alookup_adel_ne _ _ _ hne]
            · rw [hsq, alookup_aset_ne _ _ _ _ hne]
          · rw [hq_nohead q hqs hhead]
      · unfold holdersL
        rw [hsems, alookup_aset_ne _ _ _ _ hne]
  · rcases grantLock_spec hgl with ⟨-, hss, -⟩ | ⟨hb, -⟩
    · obtain ⟨req, q2, hreq, hins, rfl⟩ := enqueue_spec he
      constructor
      · unfold queueL
        rw [alookup_aset_ne _ _ _ _ hne]
      · rfl
    · exact Bool.noConfusion hb

theorem requestLock_marked {s : St} {h : Nat} {sem : Sem} {s1 : St} {g : Bool}
    (hrq : requestLock s h sem = some (s1, g)) :
    ∀ x, marked s1 x → marked s x := by
  rcases requestLock_spec hrq with ⟨-, hgl⟩ | ⟨-, hgl, he⟩
  · exact grantLock_marked hgl
  · exact enqueue_marked he

theorem requestLock_excl {s : St} {h : Nat} {sem : Sem} {s1 : St} {g : Bool}
    (hrq : requestLock s h sem = some (s1, g)) (hex : Excl s)
    (hcnt : (queueL s sem).count h = 0 ∧ (holdersL s sem).count h = 0) : Excl s1 := by
  rcases requestLock_spec hrq with ⟨-, hgl⟩ | ⟨-, hgl, he⟩
  · refine grantLock_excl hgl hex (fun h0 r0 hh0 _ _ => Or.inr ?_)
    have hw : h0 = h := Option.some.inj hh0.symm
    subst hw
    exact hcnt
  · exact enqueue_excl he hex hcnt


theorem grantLock_req_sems {s : St} {h? : Option Nat} {sem : Sem} {s' : St} {b : Bool}
    (hgl : grantLock s h? sem = some (s', b)) :
    ∀ x rx, alookup s'.reqs x = some rx →
      ∃ r0, alookup s.reqs x = some r0 ∧ r0.sems = rx.sems := by
  intro x rx hrx
  rcases grantLock_spec hgl with ⟨-, rfl, -⟩ | ⟨-, h, r, -, hr, -, -, -, -, -, -, -, -,
    hreqs0⟩
  · exact ⟨rx, hrx, rfl⟩
  · rcases hreqs0 with ⟨-, -, hre⟩ | ⟨-, -, hre⟩ <;> rw [hre] at hrx <;>
      by_cases hxh : h = x
    · subst hxh
      rw [alookup_aset_self] at hrx
      cases Option.some.inj hrx
      exact ⟨r, hr, rfl⟩
    · rw [alookup_aset_ne _ _ _ _ hxh] at hrx
      exact ⟨rx, hrx, rfl⟩
    · subst hxh
      rw [alookup_aset_self] at hrx
      cases Option.some.inj hrx
      exact ⟨r, hr, rfl⟩
    · rw [alookup_aset_ne _ _ _ _ hxh] at hrx
      exact ⟨rx, hrx, rfl⟩

theorem requestLock_req_sems {s : St} {h : Nat} {sem : Sem} {s1 : St} {g : Bool}
    (hrq : requestLock s h sem = some (s1, g)) :
    ∀ x rx, alookup s1.reqs x = some rx →
      ∃ r0, alookup s.reqs x = some r0 ∧ r0.sems = rx.sems := by
  rcases requestLock_spec hrq with ⟨-, hgl⟩ | ⟨-, hgl, he⟩
  · exact grantLock_req_sems hgl
  · obtain ⟨req, q2, hreq, hins, rfl⟩ := enqueue_spec he
    exact fun x rx hrx => ⟨rx, hrx, rfl⟩

/-- Conditional form of `enqueue_excl`: the zero-count requirement is only
needed when the handle's own request is duplicate-free. -/
theorem enqueue_excl_cond {s : St} {sem : Sem} {h : Nat} {s' : St}
    (he : enqueue s sem h = some s') (hex : Excl s)
    (hcnt : ∀ r, alookup s.reqs h = some r → r.sems.Nodup →
      (queueL s sem).count h = 0 ∧ (holdersL s sem).count h = 0) : Excl s' := by
  obtain ⟨req, q2, hreq, hins, rfl⟩ := enqueue_spec he
  obtain ⟨hc1, hc2⟩ := insertByPri_count hins
  intro sem2 x rx hrx hnd
  by_cases hsem : sem = sem2
  · subst hsem
    have hql : queueL { s with semQueues := aset s.semQueues sem q2 } sem = q2 := by
      unfold queueL
      rw [alookup_aset_self]
      rfl
    rw [hql]
    by_cases hxh : x = h
    · rw [hxh, hc1]
      have heq : (holdersL { s with semQueues := aset s.semQueues sem q2 } sem)
          = holdersL s sem := rfl
      rw [heq]
      rw [hxh] at hrx
      obtain ⟨hx1, hx2⟩ := hcnt rx hrx hnd
      unfold queueL at hx1
      omega
    · rw [hc2 x hxh]
      exact hex sem x rx hrx hnd
  · have hql : queueL { s with semQueues := aset s.semQueues sem q2 } sem2
        = queueL s sem2 := by
      unfold queueL
      rw [alookup_aset_ne _ _ _ _ hsem]
    rw [hql]
    exact hex sem2 x rx hrx hnd

/-- Conditional form of `requestLock_excl`. -/
theorem requestLock_excl_cond {s : St} {h : Nat} {sem : Sem} {s1 : St} {g : Bool}
    (hrq : requestLock s h sem = some (s1, g)) (hex : Excl s)
    (hcnt : ∀ r, alookup s.reqs h = some r → r.sems.Nodup →
      (queueL s sem).count h = 0 ∧ (holdersL s sem).count h = 0) : Excl s1 := by
  rcases requestLock_spec hrq with ⟨-, hgl⟩ | ⟨-, hgl, he⟩
  · refine grantLock_excl hgl hex (fun h0 r0 hh0 hr0 hnd0 => Or.inr ?_)
    have hw : h0 = h := Option.some.inj hh0.symm
    subst hw
    exact hcnt r0 hr0 hnd0
  · exact enqueue_excl_cond he hex hcnt

theorem acquireLoop_marked {handle : Nat} :
    ∀ {l : List Sem} {s : St} {ni : Bool} {s' : St} {ni' : Bool},
      acquireLoop handle l s ni = some (s', ni') → ∀ x, marked s' x → marked s x := by
  intro l
  induction l with
  | nil =>
    intro s ni s' ni' hal x hx
    unfold acquireLoop at hal
    injection (Option.some.inj hal) with h1 h2
    exact h1 ▸ hx
  | cons sem0 rest ih =>
    intro s ni s' ni' hal x hx
    unfold acquireLoop at hal
    rcases hrq : requestLock s handle sem0 with _ | ⟨s1, g⟩
    · simp only [hrq] at hal
      exact Option.noConfusion hal
    · simp only [hrq] at hal
      exact requestLock_marked hrq x (ih hal x hx)

theorem acquireLoop_excl {handle : Nat} :
    ∀ {l : List Sem} {s : St} {ni : Bool} {s' : St} {ni' : Bool},
      acquireLoop handle l s ni = some (s', ni') → Excl s →
      (∀ r, alookup s.reqs handle = some r → r.sems.Nodup →
        l.Nodup ∧ ∀ sem ∈ l, (queueL s sem).count handle = 0 ∧
          (holdersL s sem).count handle = 0) →
      Excl s' := by
  intro l
  induction l with
  | nil =>
    intro s ni s' ni' hal hex _
    unfold acquireLoop at hal
    injection (Option.some.inj hal) with h1 h2
    exact h1 ▸ hex
  | cons sem0 rest ih =>
    intro s ni s' ni' hal hex hcond
    unfold acquireLoop at hal
    rcases hrq : requestLock s handle sem0 with _ | ⟨s1, g⟩
    · simp only [hrq] at hal
      exact Option.noConfusion hal
    · simp only [hrq] at hal
      refine ih hal (requestLock_excl_cond hrq hex
        (fun r hr hnd => ((hcond r hr hnd).2 sem0 (by simp)))) ?_
      intro r hr1 hnd
      obtain ⟨r0, hr0, hs0⟩ := requestLock_req_sems hrq handle r hr1
      obtain ⟨hnodup, hcnt⟩ := hcond r0 hr0 (hs0 ▸ hnd)
      refine ⟨(List.nodup_cons.1 hnodup).2, fun sem2 hsem2 => ?_⟩
      have hne : sem0 ≠ sem2 := by
        intro hc
        exact (List.nodup_cons.1 hnodup).1 (hc ▸ hsem2)
      obtain ⟨hq2, hh2⟩ := requestLock_other_sem hrq sem2 hne
      rw [hq2, hh2]
      exact hcnt sem2 (by simp [hsem2])

theorem grantSlotsLoop_marked {sem : Sem} {fuel : Nat} :
    ∀ {s s' : St}, grantSlotsLoop sem fuel s = some s' →
      ∀ x, marked s' x → marked s x := by
  induction fuel with
  | zero => intro s s' h; exact Option.noConfusion h
  | succ n ih =>
    intro s s' h x hx
    unfold grantSlotsLoop at h
    rcases hq : alookup s.semQueues sem with _ | q
    · simp only [hq] at h
      exact Option.noConfusion h
    · simp only [hq] at h
      rcases hgl : grantLock s q.head? sem with _ | ⟨s1, success⟩
      · simp only [hgl] at h
        exact Option.noConfusion h
      · simp only [hgl] at h
        by_cases hcond : (success && (alookup s1.semQueues sem).isSome) = true
        · rw [if_pos hcond] at h
          exact grantLock_marked hgl x (ih h x hx)
        · rw [if_neg hcond] at h
          exact grantLock_marked hgl x ((Option.some.inj h) ▸ hx)

theorem grantSlotsLoop_excl {sem : Sem} {fuel : Nat} :
    ∀ {s s' : St}, grantSlotsLoop sem fuel s = some s' → Excl s → Excl s' := by
  induction fuel with
  | zero => intro s s' h; exact Option.noConfusion h
  | succ n ih =>
    intro s s' h hex
    unfold grantSlotsLoop at h
    rcases hq : alookup s.semQueues sem with _ | q
    · simp only [hq] at h
      exact Option.noConfusion h
    · simp only [hq] at h
      rcases hgl : grantLock s q.head? sem with _ | ⟨s1, success⟩
      · simp only [hgl] at h
        exact Option.noConfusion h
      · simp only [hgl] at h
        have hex1 : Excl s1 := by
          refine grantLock_excl hgl hex (fun h0 r0 hh0 _ _ => Or.inl ?_)
          unfold queueL
          rw [hq]
          exact hh0
        by_cases hcond : (success && (alookup s1.semQueues sem).isSome) = true
        · rw [if_pos hcond] at h
          exact ih h hex1
        · rw [if_neg hcond] at h
          exact (Option.some.inj h) ▸ hex1

theorem grantEmptySlots_marked {s : St} {sem : Sem} {s' : St}
    (h : grantEmptySlots s sem = some s') : ∀ x, marked s' x → marked s x := by
  unfold grantEmptySlots at h
  rcases hq : alookup s.semQueues sem with _ | q
  · simp only [hq] at h
    exact fun x hx => (Option.some.inj h) ▸ hx
  · simp only [hq] at h
    exact grantSlotsLoop_marked h

theorem grantEmptySlots_excl {s : St} {sem : Sem} {s' : St}
    (h : grantEmptySlots s sem = some s') (hex : Excl s) : Excl s' := by
  unfold grantEmptySlots at h
  rcases hq : alookup s.semQueues sem with _ | q
  · simp only [hq] at h
    exact (Option.some.inj h) ▸ hex
  · simp only [hq] at h
    exact grantSlotsLoop_excl h hex


theorem grantLock_curId {s : St} {h? : Option Nat} {sem : Sem} {s' : St} {b : Bool}
    (hgl : grantLock s h? sem = some (s', b)) : s'.curId = s.curId := by
  rcases grantLock_spec hgl with ⟨-, rfl, -⟩ | ⟨-, h, r, -, -, -, -, hcur, -⟩
  · rfl
  · exact hcur

theorem releaseSem_curId {s : St} {h : Nat} {sem : Sem} {s' : St} {b : Bool}
    (hrel : releaseSem s h sem = some (s', b)) : s'.curId = s.curId := by
  rcases releaseSem_spec hrel with ⟨-, rfl⟩ | ⟨-, held, idx, s1, s2, req, -, -, -, -, -,
    hcur1, -, -, -, -, -, hgrant, -, -, -, -, hcur', -⟩
  · rfl
  · rw [hcur']
    rcases hgrant with ⟨w, ws, gb, hq, hgl⟩ | ⟨-, rfl⟩
    · rw [grantLock_curId hgl, hcur1]
    · exact hcur1

theorem requestLock_curId {s : St} {h : Nat} {sem : Sem} {s1 : St} {g : Bool}
    (hrq : requestLock s h sem = some (s1, g)) : s1.curId = s.curId := by
  rcases requestLock_spec hrq with ⟨-, hgl⟩ | ⟨-, hgl, he⟩
  · exact grantLock_curId hgl
  · obtain ⟨req, q2, hreq, hins, rfl⟩ := enqueue_spec he
    rfl

theorem acquireLoop_curId {handle : Nat} :
    ∀ {l : List Sem} {s : St} {ni : Bool} {s' : St} {ni' : Bool},
      acquireLoop handle l s ni = some (s', ni') → s'.curId = s.curId := by
  intro l
  induction l with
  | nil =>
    intro s ni s' ni' hal
    unfold acquireLoop at hal
    injection (Option.some.inj hal) with h1 h2
    exact h1 ▸ rfl
  | cons sem0 rest ih =>
    intro s ni s' ni' hal
    unfold acquireLoop at hal
    rcases hrq : requestLock s handle sem0 with _ | ⟨s1, g⟩
    · simp only [hrq] at hal
      exact Option.noConfusion hal
    · simp only [hrq] at hal
      rw [ih hal, requestLock_curId hrq]

theorem grantSlotsLoop_curId {sem : Sem} {fuel : Nat} :
    ∀ {s s' : St}, grantSlotsLoop sem fuel s = some s' → s'.curId = s.curId := by
  induction fuel with
  | zero => intro s s' h; exact Option.noConfusion h
  | succ n ih =>
    intro s s' h
    unfold grantSlotsLoop at h
    rcases hq : alookup s.semQueues sem with _ | q
    · simp only [hq] at h
      exact Option.noConfusion h
    · simp only [hq] at h
      rcases hgl : grantLock s q.head? sem with _ | ⟨s1, success⟩
      · simp only [hgl] at h
        exact Option.noConfusion h
      · simp only [hgl] at h
        by_cases hcond : (success && (alookup s1.semQueues sem).isSome) = true
        · rw [if_pos hcond] at h
          rw [ih h, grantLock_curId hgl]
        · rw [if_neg hcond] at h
          rw [← Option.some.inj h, grantLock_curId hgl]

theorem grantEmptySlots_curId {s : St} {sem : Sem} {s' : St}
    (h : grantEmptySlots s sem = some s') : s'.curId = s.curId := by
  unfold grantEmptySlots at h
  rcases hq : alookup s.semQueues sem with _ | q
  · simp only [hq] at h
    rw [← Option.some.inj h]
  · simp only [hq] at h
    exact grantSlotsLoop_curId h

theorem cancelLoop_marked {h : Nat} :
    ∀ {l : List Sem} {s s' : St}, cancelLoop h l s = some s' →
      ∀ x, marked s' x → marked s x := by
  intro l
  induction l with
  | nil =>
    intro s s' hc x hx
    exact (Option.some.inj hc) ▸ hx
  | cons sem0 rest ih =>
    intro s s' hc x hx
    unfold cancelLoop at hc
    rcases hrel : releaseSem s h sem0 with _ | ⟨s1, b⟩
    · simp only [hrel] at hc
      exact Option.noConfusion hc
    · simp only [hrel] at hc
      refine releaseSem_marked hrel x ?_
      rcases hq : alookup s1.semQueues sem0 with _ | q
      · simp only [hq] at hc
        exact ih hc x hx
      · simp only [hq] at hc
        have hx2 := ih hc x hx
        rcases hx2 with hy | ⟨sem2, hy⟩ | ⟨sem2, hy⟩
        · exact Or.inl hy
        · unfold queueL at hy
          by_cases hsem : sem0 = sem2
          · subst hsem
            rw [alookup_aset_self] at hy
            simp only [Option.getD_some] at hy
            refine Or.inr (Or.inl ⟨sem0, ?_⟩)
            unfold queueL
            rw [hq]
            exact (List.mem_filter.1 hy).1
          · rw [alookup_aset_ne _ _ _ _ hsem] at hy
            exact Or.inr (Or.inl ⟨sem2, hy⟩)
        · exact Or.inr (Or.inr ⟨sem2, hy⟩)

theorem cancelLoop_excl {h : Nat} :
    ∀ {l : List Sem} {s s' : St}, cancelLoop h l s = some s' → Excl s → Excl s' := by
  intro l
  induction l with
  | nil =>
    intro s s' hc hex
    exact (Option.some.inj hc) ▸ hex
  | cons sem0 rest ih =>
    intro s s' hc hex
    unfold cancelLoop at hc
    rcases hrel : releaseSem s h sem0 with _ | ⟨s1, b⟩
    · simp only [hrel] at hc
      exact Option.noConfusion hc
    · simp only [hrel] at hc
      have hex1 : Excl s1 := releaseSem_excl hrel hex
      rcases hq : alookup s1.semQueues sem0 with _ | q
      · simp only [hq] at hc
        exact ih hc hex1
      · simp only [hq] at hc
        refine ih hc ?_
        refine excl_shrink ?_ ?_ ?_ hex1
        · intro sem2 x
          unfold queueL
          by_cases hsem : sem0 = sem2
          · subst hsem
            rw [alookup_aset_self, hq]
            simp only [Option.getD_some]
            exact count_filter_ne x h q
          · rw [alookup_aset_ne _ _ _ _ hsem]
        · intro sem2 x
          exact Nat.le_refl _
        · intro x rx hrx
          exact ⟨rx, hrx, rfl⟩

theorem cancelLoop_curId {h : Nat} :
    ∀ {l : List Sem} {s s' : St}, cancelLoop h l s = some s' →
      s'.curId = s.curId := by
  intro l
  induction l with
  | nil =>
    intro s s' hc
    exact (Option.some.inj hc) ▸ rfl
  | cons sem0 rest ih =>
    intro s s' hc
    unfold cancelLoop at hc
    rcases hrel : releaseSem s h sem0 with _ | ⟨s1, b⟩
    · simp only [hrel] at hc
      exact Option.noConfusion hc
    · simp only [hrel] at hc
      rcases hq : alookup s1.semQueues sem0 with _ | q
      · simp only [hq] at hc
        exact (ih hc).trans (releaseSem_curId hrel)
      · simp only [hq] at hc
        have h2 := ih hc
        refine h2.trans ?_
        show s1.curId = s.curId
        exact releaseSem_curId hrel

theorem cancel_destroyed {s : St} {h : Nat} {e? : Option Err} {s' : St} {req : Req}
    (hreq : alookup s.reqs h = some req) {s1 : St}
    (hcl : cancelLoop h req.sems s = some s1)
    (hc : cancel s h e? = some s') :
    ∃ s2 : St, s2.semQueues = s1.semQueues ∧ s2.sems = s1.sems ∧
      s2.reqs = s1.reqs ∧ s2.curId = s1.curId ∧
      s' = { s2 with reqs := adel s2.reqs h } := by
  rcases e? with _ | e <;> unfold cancel at hc <;> simp only [hreq, hcl] at hc
  · exact ⟨s1, rfl, rfl, rfl, rfl, (Option.some.inj hc).symm⟩
  · by_cases hcalled : req.called = true
    · rw [if_pos hcalled] at hc
      exact ⟨s1, rfl, rfl, rfl, rfl, (Option.some.inj hc).symm⟩
    · rw [if_neg hcalled] at hc
      by_cases hcb : req.hasCb = true
      · rw [if_pos hcb] at hc
        exact ⟨{ s1 with log := s1.log ++ [(h, Notify.failed e)] }, rfl, rfl, rfl, rfl,
          (Option.some.inj hc).symm⟩
      · rw [if_neg hcb] at hc
        exact ⟨s1, rfl, rfl, rfl, rfl, (Option.some.inj hc).symm⟩

theorem cancel_marked {s : St} {h : Nat} {e? : Option Err} {s' : St}
    (hc : cancel s h e? = some s') : ∀ x, marked s' x → marked s x := by
  rcases hreq : alookup s.reqs h with _ | req
  · unfold cancel at hc
    simp only [hreq] at hc
    exact fun x hx => (Option.some.inj hc) ▸ hx
  · rcases hcl : cancelLoop h req.sems s with _ | s1
    · unfold cancel at hc
      simp only [hreq, hcl] at hc
      exact Option.noConfusion hc
    · obtain ⟨s2, hq2, hs2, hr2, -, rfl⟩ := cancel_destroyed hreq hcl hc
      intro x hx
      refine cancelLoop_marked hcl x ?_
      rcases hx with hy | ⟨sem2, hy⟩ | ⟨sem2, hy⟩
      · simp only [hr2] at hy
        by_cases hxh : h = x
        · subst hxh
          rw [alookup_adel_self] at hy
          exact Bool.noConfusion hy
        · rw [alookup_adel_ne _ _ _ hxh] at hy
          exact Or.inl hy
      · unfold queueL at hy
        simp only [hq2] at hy
        exact Or.inr (Or.inl ⟨sem2, hy⟩)
      · unfold holdersL at hy
        simp only [hs2] at hy
        exact Or.inr (Or.inr ⟨sem2, hy⟩)

theorem cancel_excl {s : St} {h : Nat} {e? : Option Err} {s' : St}
    (hc : cancel s h e? = some s') (hex : Excl s) : Excl s' := by
  rcases hreq : alookup s.reqs h with _ | req
  · unfold cancel at hc
    simp only [hreq] at hc
    exact (Option.some.inj hc) ▸ hex
  · rcases hcl : cancelLoop h req.sems s with _ | s1
    · unfold cancel at hc
      simp only [hreq, hcl] at hc
      exact Option.noConfusion hc
    · obtain ⟨s2, hq2, hs2, hr2, -, rfl⟩ := cancel_destroyed hreq hcl hc
      have hex1 : Excl s1 := cancelLoop_excl hcl hex
      refine excl_shrink ?_ ?_ ?_ hex1
      · intro sem2 x
        unfold queueL
        simp only [hq2]
        exact Nat.le_refl _
      · intro sem2 x
        unfold holdersL
        simp only [hs2]
        exact Nat.le_refl _
      · intro x rx hrx
        simp only [hr2] at hrx
        by_cases hxh : h = x
        · subst hxh
          rw [alookup_adel_self] at hrx
          exact Option.noConfusion hrx
        · rw [alookup_adel_ne _ _ _ hxh] at hrx
          exact ⟨rx, hrx, rfl⟩

theorem cancel_curId {s : St} {h : Nat} {e? : Option Err} {s' : St}
    (hc : cancel s h e? = some s') : s'.curId = s.curId := by
  rcases hreq : alookup s.reqs h with _ | req
  · unfold cancel at hc
    simp only [hreq] at hc
    exact (Option.some.inj hc) ▸ rfl
  · rcases hcl : cancelLoop h req.sems s with _ | s1
    · unfold cancel at hc
      simp only [hreq, hcl] at hc
      exact Option.noConfusion hc
    · obtain ⟨s2, -, -, -, hc2, rfl⟩ := cancel_destroyed hreq hcl hc
      exact hc2.trans (cancelLoop_curId hcl)

theorem releaseLoop_marked {h : Nat} :
    ∀ {l : List Sem} {s s' : St}, releaseLoop h l s = some s' →
      ∀ x, marked s' x → marked s x := by
  intro l
  induction l with
  | nil =>
    intro s s' hrl x hx
    exact (Option.some.inj hrl) ▸ hx
  | cons sem0 rest ih =>
    intro s s' hrl x hx
    unfold releaseLoop at hrl
    rcases hrel : releaseSem s h sem0 with _ | ⟨s1, b⟩
    · simp only [hrel] at hrl
      exact Option.noConfusion hrl
    · simp only [hrel] at hrl
      exact releaseSem_marked hrel x (ih hrl x hx)

theorem releaseLoop_excl {h : Nat} :
    ∀ {l : List Sem} {s s' : St}, releaseLoop h l s = some s' → Excl s → Excl s' := by
  intro l
  induction l with
  | nil =>
    intro s s' hrl hex
    exact (Option.some.inj hrl) ▸ hex
  | cons sem0 rest ih =>
    intro s s' hrl hex
    unfold releaseLoop at hrl
    rcases hrel : releaseSem s h sem0 with _ | ⟨s1, b⟩
    · simp only [hrel] at hrl
      exact Option.noConfusion hrl
    · simp only [hrel] at hrl
      exact ih hrl (releaseSem_excl hrel hex)

theorem releaseLoop_curId {h : Nat} :
    ∀ {l : List Sem} {s s' : St}, releaseLoop h l s = some s' →
      s'.curId = s.curId := by
  intro l
  induction l with
  | nil =>
    intro s s' hrl
    exact (Option.some.inj hrl) ▸ rfl
  | cons sem0 rest ih =>
    intro s s' hrl
    unfold releaseLoop at hrl
    rcases hrel : releaseSem s h sem0 with _ | ⟨s1, b⟩
    · simp only [hrel] at hrl
      exact Option.noConfusion hrl
    · simp only [hrel] at hrl
      exact (ih hrl).trans (releaseSem_curId hrel)

theorem release_marked {s : St} {h : Nat} {arg : RelArg} {s' : St}
    (hr : release s h arg = some s') : ∀ x, marked s' x → marked s x := by
  unfold release at hr
  rcases hreq : alookup s.reqs h with _ | req
  · simp only [hreq] at hr
    exact fun x hx => (Option.some.inj hr) ▸ hx
  · simp only [hreq] at hr
    exact releaseLoop_marked hr

theorem release_excl {s : St} {h : Nat} {arg : RelArg} {s' : St}
    (hr : release s h arg = some s') (hex : Excl s) : Excl s' := by
  unfold release at hr
  rcases hreq : alookup s.reqs h with _ | req
  · simp only [hreq] at hr
    exact (Option.some.inj hr) ▸ hex
  · simp only [hreq] at hr
    exact releaseLoop_excl hr hex

theorem release_curId {s : St} {h : Nat} {arg : RelArg} {s' : St}
    (hr : release s h arg = some s') : s'.curId = s.curId := by
  unfold release at hr
  rcases hreq : alookup s.reqs h with _ | req
  · simp only [hreq] at hr
    exact (Option.some.inj hr) ▸ rfl
  · simp only [hreq] at hr
    exact releaseLoop_curId hr

theorem forceLoop_marked {sem : Sem} :
    ∀ {l : List Nat} {s s' : St}, forceLoop sem l s = some s' →
      ∀ x, marked s' x → marked s x := by
  intro l
  induction l with
  | nil =>
    intro s s' hf x hx
    exact (Option.some.inj hf) ▸ hx
  | cons h0 rest ih =>
    intro s s' hf x hx
    unfold forceLoop at hf
    rcases hr : release s h0 (RelArg.one sem) with _ | s1
    · simp only [hr] at hf
      exact Option.noConfusion hf
    · simp only [hr] at hf
      exact release_marked hr x (ih hf x hx)

theorem forceLoop_excl {sem : Sem} :
    ∀ {l : List Nat} {s s' : St}, forceLoop sem l s = some s' → Excl s → Excl s' := by
  intro l
  induction l with
  | nil =>
    intro s s' hf hex
    exact (Option.some.inj hf) ▸ hex
  | cons h0 rest ih =>
    intro s s' hf hex
    unfold forceLoop at hf
    rcases hr : release s h0 (RelArg.one sem) with _ | s1
    · simp only [hr] at hf
      exact Option.noConfusion hf
    · simp only [hr] at hf
      exact ih hf (release_excl hr hex)

theorem forceLoop_curId {sem : Sem} :
    ∀ {l : List Nat} {s s' : St}, forceLoop sem l s = some s' →
      s'.curId = s.curId := by
  intro l
  induction l with
  | nil =>
    intro s s' hf
    exact (Option.some.inj hf) ▸ rfl
  | cons h0 rest ih =>
    intro s s' hf
    unfold forceLoop at hf
    rcases hr : release s h0 (RelArg.one sem) with _ | s1
    · simp only [hr] at hf
      exact Option.noConfusion hf
    · simp only [hr] at hf
      exact (ih hf).trans (release_curId hr)

theorem forceRelease_marked {s : St} {sem : Sem} {s' : St}
    (hf : forceRelease s sem = some s') : ∀ x, marked s' x → marked s x := by
  unfold forceRelease at hf
  rcases hh : alookup s.sems sem with _ | held
  · simp only [hh] at hf
    exact fun x hx => (Option.some.inj hf) ▸ hx
  · simp only [hh] at hf
    exact forceLoop_marked hf

theorem forceRelease_excl {s : St} {sem : Sem} {s' : St}
    (hf : forceRelease s sem = some s') (hex : Excl s) : Excl s' := by
  unfold forceRelease at hf
  rcases hh : alookup s.sems sem with _ | held
  · simp only [hh] at hf
    exact (Option.some.inj hf) ▸ hex
  · simp only [hh] at hf
    exact forceLoop_excl hf hex

theorem forceRelease_curId {s : St} {sem : Sem} {s' : St}
    (hf : forceRelease s sem = some s') : s'.curId = s.curId := by
  unfold forceRelease at hf
  rcases hh : alookup s.sems sem with _ | held
  · simp only [hh] at hf
    exact (Option.some.inj hf) ▸ rfl
  · simp only [hh] at hf
    exact forceLoop_curId hf

/-- Transport of `marked` along field equalities. -/
theorem marked_congr {s s' : St} (hr : s'.reqs = s.reqs)
    (hq : s'.semQueues = s.semQueues) (hs : s'.sems = s.sems) :
    ∀ x, marked s' x → marked s x := by
  intro x hx
  rcases hx with hy | ⟨sem2, hy⟩ | ⟨sem2, hy⟩
  · rw [hr] at hy
    exact Or.inl hy
  · unfold queueL at hy
    rw [hq] at hy
    exact Or.inr (Or.inl ⟨sem2, hy⟩)
  · unfold holdersL at hy
    rw [hs] at hy
    exact Or.inr (Or.inr ⟨sem2, hy⟩)

/-- Transport of `Excl` along field equalities. -/
theorem excl_congr {s s' : St} (hr : s'.reqs = s.reqs)
    (hq : s'.semQueues = s.semQueues) (hs : s'.sems = s.sems)
    (hex : Excl s) : Excl s' := by
  refine excl_shrink ?_ ?_ ?_ hex
  · intro sem2 x
    unfold queueL
    rw [hq]
  · intro sem2 x
    unfold holdersL
    rw [hs]
  · intro x rx hrx
    rw [hr] at hrx
    exact ⟨rx, hrx, rfl⟩

theorem setMaxLocks_marked {s : St} {sem : Sem} {cap : Option Int} {s' : St}
    (hm : setMaxLocks s sem cap = some s') : ∀ x, marked s' x → marked s x := by
  unfold setMaxLocks at hm
  obtain ⟨hs, -, hq, hr, -, -, -, -⟩ := setCapOnly_fields s sem cap
  exact fun x hx => marked_congr hr hq hs x (grantEmptySlots_marked hm x hx)

theorem setMaxLocks_excl {s : St} {sem : Sem} {cap : Option Int} {s' : St}
    (hm : setMaxLocks s sem cap = some s') (hex : Excl s) : Excl s' := by
  unfold setMaxLocks at hm
  obtain ⟨hs, -, hq, hr, -, -, -, -⟩ := setCapOnly_fields s sem cap
  exact grantEmptySlots_excl hm (excl_congr hr hq hs hex)

theorem setMaxLocks_curId {s : St} {sem : Sem} {cap : Option Int} {s' : St}
    (hm : setMaxLocks s sem cap = some s') : s'.curId = s.curId := by
  unfold setMaxLocks at hm
  obtain ⟨-, -, -, -, -, -, hcur, -⟩ := setCapOnly_fields s sem cap
  exact (grantEmptySlots_curId hm).trans hcur

theorem defaultLoop_marked :
    ∀ {l : List Sem} {s s' : St}, defaultLoop l s = some s' →
      ∀ x, marked s' x → marked s x := by
  intro l
  induction l with
  | nil =>
    intro s s' hd x hx
    exact (Option.some.inj hd) ▸ hx
  | cons sem0 rest ih =>
    intro s s' hd x hx
    unfold defaultLoop at hd
    by_cases hcond : (alookup s.semQueues sem0).isSome ∧ (alookup s.semCaps sem0).isNone
    · rw [if_pos hcond] at hd
      rcases hg : grantEmptySlots s sem0 with _ | s1
      · simp only [hg] at hd
        exact Option.noConfusion hd
      · simp only [hg] at hd
        exact grantEmptySlots_marked hg x (ih hd x hx)
    · rw [if_neg hcond] at hd
      exact ih hd x hx

theorem defaultLoop_excl :
    ∀ {l : List Sem} {s s' : St}, defaultLoop l s = some s' → Excl s → Excl s' := by
  intro l
  induction l with
  | nil =>
    intro s s' hd hex
    exact (Option.some.inj hd) ▸ hex
  | cons sem0 rest ih =>
    intro s s' hd hex
    unfold defaultLoop at hd
    by_cases hcond : (alookup s.semQueues sem0).isSome ∧ (alookup s.semCaps sem0).isNone
    · rw [if_pos hcond] at hd
      rcases hg : grantEmptySlots s sem0 with _ | s1
      · simp only [hg] at hd
        exact Option.noConfusion hd
      · simp only [hg] at hd
        exact ih hd (grantEmptySlots_excl hg hex)
    · rw [if_neg hcond] at hd
      exact ih hd hex

theorem defaultLoop_curId :
    ∀ {l : List Sem} {s s' : St}, defaultLoop l s = some s' → s'.curId = s.curId := by
  intro l
  induction l with
  | nil =>
    intro s s' hd
    exact (Option.some.inj hd) ▸ rfl
  | cons sem0 rest ih =>
    intro s s' hd
    unfold defaultLoop at hd
    by_cases hcond : (alookup s.semQueues sem0).isSome ∧ (alookup s.semCaps sem0).isNone
    · rw [if_pos hcond] at hd
      rcases hg : grantEmptySlots s sem0 with _ | s1
      · simp only [hg] at hd
        exact Option.noConfusion hd
      · simp only [hg] at hd
        exact (ih hd).trans (grantEmptySlots_curId hg)
    · rw [if_neg hcond] at hd
      exact ih hd

theorem setDefaultCapOnly_fields (s : St) (cap : Option Int) :
    (setDefaultCapOnly s cap).sems = s.sems ∧
    (setDefaultCapOnly s cap).semQueues = s.semQueues ∧
    (setDefaultCapOnly s cap).reqs = s.reqs ∧
    (setDefaultCapOnly s cap).curId = s.curId := by
  unfold setDefaultCapOnly
  rcases cap with _ | c
  · exact ⟨rfl, rfl, rfl, rfl⟩
  · exact ⟨rfl, rfl, rfl, rfl⟩

theorem setDefaultMaxLocks_marked {s : St} {cap : Option Int} {s' : St}
    (hm : setDefaultMaxLocks s cap = some s') : ∀ x, marked s' x → marked s x := by
  unfold setDefaultMaxLocks at hm
  obtain ⟨hs, hq, hr, -⟩ := setDefaultCapOnly_fields s cap
  by_cases hcond : (setDefaultCapOnly s cap).defaultCap > s.defaultCap
  · rw [if_pos hcond] at hm
    exact fun x hx => marked_congr hr hq hs x (defaultLoop_marked hm x hx)
  · rw [if_neg hcond] at hm
    exact fun x hx => marked_congr hr hq hs x ((Option.some.inj hm) ▸ hx)

theorem setDefaultMaxLocks_excl {s : St} {cap : Option Int} {s' : St}
    (hm : setDefaultMaxLocks s cap = some s') (hex : Excl s) : Excl s' := by
  unfold setDefaultMaxLocks at hm
  obtain ⟨hs, hq, hr, -⟩ := setDefaultCapOnly_fields s cap
  by_cases hcond : (setDefaultCapOnly s cap).defaultCap > s.defaultCap
  · rw [if_pos hcond] at hm
    exact defaultLoop_excl hm (excl_congr hr hq hs hex)
  · rw [if_neg hcond] at hm
    exact (Option.some.inj hm) ▸ (excl_congr hr hq hs hex)

theorem setDefaultMaxLocks_curId {s : St} {cap : Option Int} {s' : St}
    (hm : setDefaultMaxLocks s cap = some s') : s'.curId = s.curId := by
  unfold setDefaultMaxLocks at hm
  obtain ⟨-, -, -, hcur⟩ := setDefaultCapOnly_fields s cap
  by_cases hcond : (setDefaultCapOnly s cap).defaultCap > s.defaultCap
  · rw [if_pos hcond] at hm
    exact (defaultLoop_curId hm).trans hcur
  · rw [if_neg hcond] at hm
    have h1 : s'.curId = (setDefaultCapOnly s cap).curId := by
      rw [← Option.some.inj hm]
    exact h1.trans hcur

theorem callCB_marked {s : St} {h : Nat} {s' : St}
    (hc : callCB s h = some s') : ∀ x, marked s' x → marked s x := by
  obtain ⟨req, hreq, hq, hs, -, -, -, -, -, hr, -⟩ := callCB_spec hc
  intro x hx
  rcases hx with hy | ⟨sem2, hy⟩ | ⟨sem2, hy⟩
  · rw [hr] at hy
    by_cases hxh : h = x
    · subst hxh
      exact Or.inl (by rw [hreq]; rfl)
    · rw [alookup_aset_ne _ _ _ _ hxh] at hy
      exact Or.inl hy
  · unfold queueL at hy
    rw [hq] at hy
    exact Or.inr (Or.inl ⟨sem2, hy⟩)
  · unfold holdersL at hy
    rw [hs] at hy
    exact Or.inr (Or.inr ⟨sem2, hy⟩)

theorem callCB_excl {s : St} {h : Nat} {s' : St}
    (hc : callCB s h = some s') (hex : Excl s) : Excl s' := by
  obtain ⟨req, hreq, hq, hs, -, -, -, -, -, hr, -⟩ := callCB_spec hc
  refine excl_shrink ?_ ?_ ?_ hex
  · intro sem2 x
    unfold queueL
    rw [hq]
  · intro sem2 x
    unfold holdersL
    rw [hs]
  · intro x rx hrx
    rw [hr] at hrx
    by_cases hxh : h = x
    · subst hxh
      rw [alookup_aset_self] at hrx
      refine ⟨req, hreq, ?_⟩
      rw [← Option.some.inj hrx]
      by_cases httl : req.ttl.getD 0 ≠ 0
      · rw [if_pos httl]
      · rw [if_neg httl]
    · rw [alookup_aset_ne _ _ _ _ hxh] at hrx
      exact ⟨rx, hrx, rfl⟩

theorem callCB_curId {s : St} {h : Nat} {s' : St}
    (hc : callCB s h = some s') : s'.curId = s.curId := by
  obtain ⟨req, -, -, -, -, hcur, -⟩ := callCB_spec hc
  exact hcur

theorem runJob_marked {s : St} {j : Job} {s' : St}
    (hr : runJob s j = some s') : ∀ x, marked s' x → marked s x := by
  cases j with
  | callCBJob h =>
    unfold runJob at hr
    exact callCB_marked hr
  | cancelJob h =>
    unfold runJob at hr
    exact cancel_marked hr

theorem runJob_excl {s : St} {j : Job} {s' : St}
    (hr : runJob s j = some s') (hex : Excl s) : Excl s' := by
  cases j with
  | callCBJob h =>
    unfold runJob at hr
    exact callCB_excl hr hex
  | cancelJob h =>
    unfold runJob at hr
    exact cancel_excl hr hex

theorem runJob_curId {s : St} {j : Job} {s' : St}
    (hr : runJob s j = some s') : s'.curId = s.curId := by
  cases j with
  | callCBJob h =>
    unfold runJob at hr
    exact callCB_curId hr
  | cancelJob h =>
    unfold runJob at hr
    exact cancel_curId hr

/-- Transport of `marked` backwards through a request-record overwrite of an
existing handle (queues and holders unchanged). -/
theorem marked_update {s : St} {h : Nat} {r : Req}
    (hr : alookup s.reqs h = some r) (r' : Req) :
    ∀ (s2 : St), s2.reqs = aset s.reqs h r' → s2.semQueues = s.semQueues →
      s2.sems = s.sems → ∀ x, marked s2 x → marked s x := by
  intro s2 hr2 hq2 hs2 x hx
  rcases hx with hy | ⟨sem2, hy⟩ | ⟨sem2, hy⟩
  · rw [hr2] at hy
    by_cases hxh : h = x
    · subst hxh
      exact Or.inl (by rw [hr]; rfl)
    · rw [alookup_aset_ne _ _ _ _ hxh] at hy
      exact Or.inl hy
  · unfold queueL at hy
    rw [hq2] at hy
    exact Or.inr (Or.inl ⟨sem2, hy⟩)
  · unfold holdersL at hy
    rw [hs2] at hy
    exact Or.inr (Or.inr ⟨sem2, hy⟩)

/-- Transport of `Excl` through a request-record overwrite that keeps the
`sems` array (queues and holders unchanged). -/
theorem excl_update {s : St} {h : Nat} {r : Req}
    (hr : alookup s.reqs h = some r) (r' : Req) (hsems : r'.sems = r.sems) :
    ∀ (s2 : St), s2.reqs = aset s.reqs h r' → s2.semQueues = s.semQueues →
      s2.sems = s.sems → Excl s → Excl s2 := by
  intro s2 hr2 hq2 hs2 hex
  refine excl_shrink ?_ ?_ ?_ hex
  · intro sem2 x
    unfold queueL
    rw [hq2]
  · intro sem2 x
    unfold holdersL
    rw [hs2]
  · intro x rx hrx
    rw [hr2] at hrx
    by_cases hxh : h = x
    · subst hxh
      rw [alookup_aset_self] at hrx
      cases Option.some.inj hrx
      exact ⟨r, hr, hsems.symm⟩
    · rw [alookup_aset_ne _ _ _ _ hxh] at hrx
      exact ⟨rx, hrx, rfl⟩

/-- In a `Fresh` state the not-yet-issued handle `s.curId` is referenced
nowhere. -/
theorem fresh_counts {s : St} (hf : Fresh s) (sem : Sem) :
    (queueL s sem).count s.curId = 0 ∧ (holdersL s sem).count s.curId = 0 := by
  constructor
  · rw [List.count_eq_zero]
    intro hmem
    exact absurd (hf s.curId (Or.inr (Or.inl ⟨sem, hmem⟩))) (Nat.lt_irrefl _)
  · rw [List.count_eq_zero]
    intro hmem
    exact absurd (hf s.curId (Or.inr (Or.inr ⟨sem, hmem⟩))) (Nat.lt_irrefl _)

/-- `acquire` preserves the C5 invariant as long as the handle counter has
not reached the wrap-around limit. -/
theorem acquire_disj {s : St} {semsArg : List Sem} {opts : Opts} {hasCb : Bool}
    {s' : St} {handle : Nat}
    (ha : acquire s semsArg opts hasCb = some (s', handle))
    (hd : DisjInv s) (hlim : s.curId < HANDLE_LIMIT) : DisjInv s' := by
  obtain ⟨hf, hex⟩ := hd
  have hgn : getNextHandle s = (s.curId, { s with curId := s.curId + 1 }) := by
    unfold getNextHandle
    rw [if_neg (by omega)]
  unfold acquire at ha
  rw [hgn] at ha
  simp only [] at ha
  rcases hal : (acquireLoop s.curId semsArg
      { s with
        curId := s.curId + 1,
        reqs := aset s.reqs s.curId
          { remain := (semsArg.length : Int), released := 0, sems := semsArg,
            ttl := opts.ttl, priority := opts.priority.getD 2, hasCb := hasCb,
            timeoutArmed := false, ttlArmed := false, called := false } } false)
    with _ | ⟨s2, ni⟩
  · simp only [hal] at ha
    exact Option.noConfusion ha
  · have hf1 : Fresh { s with
        curId := s.curId + 1,
        reqs := aset s.reqs s.curId
          { remain := (semsArg.length : Int), released := 0, sems := semsArg,
            ttl := opts.ttl, priority := opts.priority.getD 2, hasCb := hasCb,
            timeoutArmed := false, ttlArmed := false, called := false } } := by
      intro y hy
      show y < s.curId + 1
      rcases hy with hy | ⟨sem2, hy⟩ | ⟨sem2, hy⟩
      · by_cases hyh : s.curId = y
        · omega
        · rw [alookup_aset_ne _ _ _ _ hyh] at hy
          have := hf y (Or.inl hy)
          omega
      · have := hf y (Or.inr (Or.inl ⟨sem2, hy⟩))
        omega
      · have := hf y (Or.inr (Or.inr ⟨sem2, hy⟩))
        omega
    have hex1 : Excl { s with
        curId := s.curId + 1,
        reqs := aset s.reqs s.curId
          { remain := (semsArg.length : Int), released := 0, sems := semsArg,
            ttl := opts.ttl, priority := opts.priority.getD 2, hasCb := hasCb,
            timeoutArmed := false, ttlArmed := false, called := false } } := by
      intro sem2 x rx hrx hnd
      show (queueL s sem2).count x + (holdersL s sem2).count x ≤ 1
      by_cases hxh : s.curId = x
      · subst hxh
        obtain ⟨hq0, hh0⟩ := fresh_counts hf sem2
        omega
      · rw [alookup_aset_ne _ _ _ _ hxh] at hrx
        exact hex sem2 x rx hrx hnd
    have hcur2 : s2.curId = s.curId + 1 := acquireLoop_curId hal
    have hf2 : Fresh s2 := by
      intro y hy
      rw [hcur2]
      exact hf1 y (acquireLoop_marked hal y hy)
    have hex2 : Excl s2 := by
      refine acquireLoop_excl hal hex1 ?_
      intro r hr hnd
      rw [alookup_aset_self] at hr
      cases Option.some.inj hr
      refine ⟨hnd, fun sem2 hsem2 => ?_⟩
      show (queueL s sem2).count s.curId = 0 ∧ (holdersL s sem2).count s.curId = 0
      exact fresh_counts hf sem2
    simp only [hal] at ha
    by_cases hni : (ni && opts.instant) = true
    · rw [if_pos hni] at ha
      rcases hr2 : alookup s2.reqs s.curId with _ | r
      · simp only [hr2] at ha
        exact Option.noConfusion ha
      · simp only [hr2, Option.some_inj, Prod.mk.injEq] at ha
        obtain ⟨hs', -⟩ := ha
        rw [← hs']
        constructor
        · intro y hy
          show y < s2.curId
          refine hf2 y (marked_update hr2 { r with remain := 0 } _ ?_ ?_ ?_ y hy) <;> rfl
        · refine excl_update hr2 { r with remain := 0 } ?_ _ ?_ ?_ ?_ hex2 <;> rfl
    · rw [if_neg hni] at ha
      by_cases hw : opts.wait.isSome = true
      · rw [if_pos hw] at ha
        rcases hr2 : alookup s2.reqs s.curId with _ | r
        · simp only [hr2] at ha
          exact Option.noConfusion ha
        · simp only [hr2, Option.some_inj, Prod.mk.injEq] at ha
          obtain ⟨hs', -⟩ := ha
          rw [← hs']
          constructor
          · intro y hy
            show y < s2.curId
            refine hf2 y (marked_update hr2 { r with timeoutArmed := true } _ ?_ ?_ ?_ y hy)
              <;> rfl
          · refine excl_update hr2 { r with timeoutArmed := true } ?_ _ ?_ ?_ ?_ hex2
              <;> rfl
      · rw [if_neg hw] at ha
        simp only [Option.some_inj, Prod.mk.injEq] at ha
        obtain ⟨hs', -⟩ := ha
        rw [← hs']
        exact ⟨hf2, hex2⟩

/-- The side condition for C5: an `acquire` step must not wrap the handle
counter around `HANDLE_LIMIT` (after a wrap, a recycled handle id could
collide with a still-live request). -/
def WrapSafe (op : Op) (s : St) : Prop :=
  match op with
  | .acquire _ _ _ => s.curId < HANDLE_LIMIT
  | _ => True

theorem step_disj {s : St} {op : Op} {s' : St}
    (hd : DisjInv s) (hw : WrapSafe op s) (hs : step op s = some s') : DisjInv s' := by
  obtain ⟨hf, hex⟩ := hd
  cases op with
  | acquire sems opts b =>
    simp only [step] at hs
    rcases ha : acquire s sems opts b with _ | ⟨s2, handle⟩
    · rw [ha] at hs
      exact Option.noConfusion hs
    · rw [ha] at hs
      have hmap : some s2 = some s' := hs
      rw [← Option.some.inj hmap]
      exact acquire_disj ha ⟨hf, hex⟩ hw
  | cancel h e? =>
    simp only [step] at hs
    refine ⟨fun y hy => ?_, cancel_excl hs hex⟩
    rw [cancel_curId hs]
    exact hf y (cancel_marked hs y hy)
  | release h arg =>
    simp only [step] at hs
    refine ⟨fun y hy => ?_, release_excl hs hex⟩
    rw [release_curId hs]
    exact hf y (release_marked hs y hy)
  | forceRelease sem =>
    simp only [step] at hs
    refine ⟨fun y hy => ?_, forceRelease_excl hs hex⟩
    rw [forceRelease_curId hs]
    exact hf y (forceRelease_marked hs y hy)
  | setMaxLocks sem cap =>
    simp only [step] at hs
    refine ⟨fun y hy => ?_, setMaxLocks_excl hs hex⟩
    rw [setMaxLocks_curId hs]
    exact hf y (setMaxLocks_marked hs y hy)
  | setDefaultMaxLocks cap =>
    simp only [step] at hs
    refine ⟨fun y hy => ?_, setDefaultMaxLocks_excl hs hex⟩
    rw [setDefaultMaxLocks_curId hs]
    exact hf y (setDefaultMaxLocks_marked hs y hy)
  | runJob =>
    simp only [step] at hs
    rcases hp : s.pending with _ | ⟨j, rest⟩
    · simp only [hp] at hs
      exact Option.noConfusion hs
    · simp only [hp] at hs
      have hf0 : Fresh { s with pending := rest } := fun y hy =>
        hf y (marked_congr rfl rfl rfl y hy)
      have hex0 : Excl { s with pending := rest } := excl_congr rfl rfl rfl hex
      refine ⟨fun y hy => ?_, runJob_excl hs hex0⟩
      rw [runJob_curId hs]
      exact hf0 y (runJob_marked hs y hy)
  | fireWait h =>
    simp only [step] at hs
    rcases hr : alookup s.reqs h with _ | r
    · simp only [hr] at hs
      exact Option.noConfusion hs
    · simp only [hr] at hs
      by_cases harm : r.timeoutArmed = true
      · rw [if_pos harm] at hs
        refine ⟨fun y hy => ?_, cancel_excl hs hex⟩
        rw [cancel_curId hs]
        exact hf y (cancel_marked hs y hy)
      · rw [if_neg harm] at hs
        exact Option.noConfusion hs
  | fireTtl h =>
    simp only [step] at hs
    rcases hr : alookup s.reqs h with _ | r
    · simp only [hr] at hs
      exact Option.noConfusion hs
    · simp only [hr] at hs
      by_cases harm : r.ttlArmed = true
      · rw [if_pos harm] at hs
        rcases hrel : release { s with reqs := aset s.reqs h { r with ttlArmed := false } }
            h RelArg.allSems with _ | s1
        · rw [hrel] at hs
          exact Option.noConfusion hs
        · rw [hrel] at hs
          simp only [Option.some_inj] at hs
          rw [← hs]
          have hf0 : Fresh { s with reqs := aset s.reqs h { r with ttlArmed := false } } := by
            intro y hy
            refine hf y (marked_update hr { r with ttlArmed := false } _ ?_ ?_ ?_ y hy)
              <;> rfl
          have hex0 : Excl { s with reqs := aset s.reqs h { r with ttlArmed := false } } := by
            refine excl_update hr { r with ttlArmed := false } ?_ _ ?_ ?_ ?_ hex <;> rfl
          have hf1 : Fresh s1 := by
            intro y hy
            rw [release_curId hrel]
            exact hf0 y (release_marked hrel y hy)
          have hex1 : Excl s1 := release_excl hrel hex0
          refine ⟨fun y hy => ?_, excl_congr rfl rfl rfl hex1⟩
          show y < s1.curId
          exact hf1 y (marked_congr rfl rfl rfl y hy)
      · rw [if_neg harm] at hs
        exact Option.noConfusion hs

/-- C5 (amended): duplicate names in a request are *not* collapsed (see the
counterexample: after `acquire(['foo','foo'])` the handle is a holder *and*
queued for `foo`), but for requests whose name list is duplicate-free the
claimed invariant holds: (1) it holds initially; (2) every step preserves
it, provided an `acquire` never wraps the handle counter (`WrapSafe`); and
(3) in any state satisfying it, a handle whose request has a duplicate-free
name list is never simultaneously in a semaphore's wait queue and holder
list. -/
theorem c5_disjointness :
    DisjInv initSt ∧
    (∀ s op s', DisjInv s → WrapSafe op s → step op s = some s' → DisjInv s') ∧
    (∀ s sem h r, DisjInv s → alookup s.reqs h = some r → r.sems.Nodup →
      ¬(h ∈ queueL s sem ∧ h ∈ holdersL s sem)) := by
  refine ⟨⟨?_, ?_⟩, ?_, ?_⟩
  · intro h hm
    rcases hm with hy | ⟨sem2, hy⟩ | ⟨sem2, hy⟩
    · simp [initSt, alookup] at hy
    · simp [initSt, queueL, alookup] at hy
    · simp [initSt, holdersL, alookup] at hy
  · intro sem h r hr
    simp [initSt, alookup] at hr
  · intro s op s' hd hw hs
    exact step_disj hd hw hs
  · intro s sem h r hd hr hnd hboth
    have hcnt := hd.2 sem h r hr hnd
    have h1 := count_pos_of_mem hboth.1
    have h2 := count_pos_of_mem hboth.2
    omega

/-- C5 witness: the preservation part applied to a concrete duplicate-free
acquisition from the initial state. -/
theorem c5_witness :
    DisjInv ((step (Op.acquire ["foo", "bar"] {} true) initSt).getD initSt) := by
  have hs : step (Op.acquire ["foo", "bar"] {} true) initSt =
      some ((step (Op.acquire ["foo", "bar"] {} true) initSt).getD initSt) := by decide
  exact c5_disjointness.2.1 initSt (Op.acquire ["foo", "bar"] {} true) _
    c5_disjointness.1 (show initSt.curId < HANDLE_LIMIT by decide) hs

/-! ## C3: the Notifier fires at most once per request -/

/-- The handle a queued `setImmediate` job refers to. -/
def jobHandle : Job → Nat
  | .callCBJob h => h
  | .cancelJob h => h

/-- How many callback invocations the log records for a handle. -/
def countLog (s : St) (h : Nat) : Nat := (s.log.map Prod.fst).count h

/-- How many deferred `_callCB` jobs are pending for a handle. -/
def pendCB (s : St) (h : Nat) : Nat := s.pending.count (Job.callCBJob h)

/-- How many deferred jobs of either kind are pending for a handle. -/
def pendAll (s : St) (h : Nat) : Nat := (s.pending.map jobHandle).count h

/-- A handle is referenced by the request registry, the log, or the
`setImmediate` queue. -/
def marked3 (s : St) (h : Nat) : Prop :=
  (alookup s.reqs h).isSome = true ∨ 0 < countLog s h ∨ 0 < pendAll s h

/-- The at-most-once delivery invariant: referenced handles are below the
id counter; each handle has at most one log entry; a request whose
callback has not yet been invoked has no log entry; at most one `_callCB`
job is pending per handle, only while the request is uncalled with no
locks remaining; and a called request has no locks remaining. -/
def Inv3 (s : St) : Prop :=
  (∀ h, marked3 s h → h < s.curId) ∧
  (∀ h, countLog s h ≤ 1) ∧
  (∀ h r, alookup s.reqs h = some r → r.called = false → countLog s h = 0) ∧
  (∀ h, pendCB s h ≤ 1) ∧
  (∀ h r, 0 < pendCB s h → alookup s.reqs h = some r →
    r.called = false ∧ r.remain ≤ 0) ∧
  (∀ h r, alookup s.reqs h = some r → r.called = true → r.remain ≤ 0)

theorem count_append_one {α : Type} [DecidableEq α] (l : List α) (y x : α) :
    (l ++ [y]).count x = l.count x + (if y = x then 1 else 0) := by
  rw [List.count_append]
  by_cases hyx : y = x
  · rw [if_pos hyx, hyx]
    simp
  · rw [if_neg hyx]
    simp [List.count_cons, hyx]

theorem count_cons_self {α : Type} [DecidableEq α] (l : List α) (y x : α) :
    (y :: l).count x = l.count x + (if y = x then 1 else 0) := by
  by_cases hyx : y = x
  · rw [if_pos hyx, hyx]
    simp [List.count_cons]
  · rw [if_neg hyx]
    simp [List.count_cons, hyx]

theorem pendCB_le_pendAll (s : St) (h : Nat) : pendCB s h ≤ pendAll s h := by
  unfold pendCB pendAll
  induction s.pending with
  | nil => simp
  | cons j rest ih =>
    rw [count_cons_self, List.map_cons, count_cons_self]
    by_cases hj : j = Job.callCBJob h
    · rw [if_pos hj, hj]
      have hred : (if jobHandle (Job.callCBJob h) = h then 1 else 0) = 1 := by
        simp [jobHandle]
      rw [hred]
      omega
    · rw [if_neg hj]
      by_cases hjh : jobHandle j = h
      · rw [if_pos hjh]
        omega
      · rw [if_neg hjh]
        omega

/-- Transport of `Inv3` along steps that keep the log and job counts, keep
the id counter, and only shrink or rewrite requests without resurrecting a
called flag or a positive remainder. -/
theorem inv3_transport {s s' : St}
    (hclog : ∀ x, countLog s' x = countLog s x)
    (hpcb : ∀ x, pendCB s' x ≤ pendCB s x)
    (hpall : ∀ x, 0 < pendAll s' x → marked3 s x)
    (hcur : s'.curId = s.curId)
    (hreq : ∀ x rx, alookup s'.reqs x = some rx →
      ∃ r0, alookup s.reqs x = some r0 ∧ rx.called = r0.called ∧
        (r0.remain ≤ 0 → rx.remain ≤ 0))
    (hinv : Inv3 s) : Inv3 s' := by
  obtain ⟨hfr, hlg, hlg0, hcb1, hcbp, hcr⟩ := hinv
  refine ⟨?_, ?_, ?_, ?_, ?_, ?_⟩
  · intro h hm
    rw [hcur]
    rcases hm with hy | hy | hy
    · rcases hry : alookup s'.reqs h with _ | rh
      · rw [hry] at hy
        exact Bool.noConfusion hy
      · obtain ⟨r0, hr0, -⟩ := hreq h rh hry
        exact hfr h (Or.inl (by rw [hr0]; rfl))
    · rw [hclog] at hy
      exact hfr h (Or.inr (Or.inl hy))
    · exact hfr h (hpall h hy)
  · intro h
    rw [hclog]
    exact hlg h
  · intro h r hr hc
    obtain ⟨r0, hr0, hceq, -⟩ := hreq h r hr
    rw [hclog]
    exact hlg0 h r0 hr0 (by rw [← hceq]; exact hc)
  · intro h
    exact Nat.le_trans (hpcb h) (hcb1 h)
  · intro h r hp hr
    have hp2 : 0 < pendCB s h := Nat.lt_of_lt_of_le hp (hpcb h)
    obtain ⟨r0, hr0, hceq, hrem⟩ := hreq h r hr
    obtain ⟨hc0, hrem0⟩ := hcbp h r0 hp2 hr0
    exact ⟨by rw [hceq]; exact hc0, hrem hrem0⟩
  · intro h r hr hc
    obtain ⟨r0, hr0, hceq, hrem⟩ := hreq h r hr
    exact hrem (hcr h r0 hr0 (by rw [← hceq]; exact hc))

theorem countLog_eq_of {s s' : St} (hl : s'.log = s.log) :
    ∀ x, countLog s' x = countLog s x := by
  intro x
  unfold countLog
  rw [hl]

theorem pendCB_eq_of {s s' : St} (hp : s'.pending = s.pending) :
    ∀ x, pendCB s' x = pendCB s x := by
  intro x
  unfold pendCB
  rw [hp]

theorem pendAll_eq_of {s s' : St} (hp : s'.pending = s.pending) :
    ∀ x, pendAll s' x = pendAll s x := by
  intro x
  unfold pendAll
  rw [hp]

theorem pendCB_sched {s s' : St} {h : Nat}
    (hp : s'.pending = s.pending ++ [Job.callCBJob h]) :
    ∀ x, pendCB s' x = pendCB s x + (if h = x then 1 else 0) := by
  intro x
  unfold pendCB
  rw [hp, count_append_one]
  by_cases hx : h = x
  · rw [if_pos hx, if_pos (by rw [hx])]
  · rw [if_neg hx, if_neg (fun hc => hx (Job.callCBJob.inj hc))]

theorem pendAll_sched {s s' : St} {j : Job}
    (hp : s'.pending = s.pending ++ [j]) :
    ∀ x, pendAll s' x = pendAll s x + (if jobHandle j = x then 1 else 0) := by
  intro x
  unfold pendAll
  rw [hp, List.map_append]
  exact count_append_one _ _ _

theorem grantLock_inv3 {s : St} {h? : Option Nat} {sem : Sem} {s' : St} {b : Bool}
    (hgl : grantLock s h? sem = some (s', b)) (hinv : Inv3 s) : Inv3 s' := by
  rcases grantLock_spec hgl with ⟨-, rfl, -⟩ | ⟨-, h, r, -, hr, -, hlog, hcur, -, -, -,
    -, -, hrem⟩
  · exact hinv
  · obtain ⟨hfr, hlg, hlg0, hcb1, hcbp, hcr⟩ := hinv
    rcases hrem with ⟨hz, hpend, hreqs⟩ | ⟨hnz, hpend, hreqs⟩
    · have hrem1 : r.remain = 1 := by omega
      have hcalled : r.called = false := by
        by_cases hc : r.called = true
        · have := hcr h r hr hc
          omega
        · revert hc
          cases r.called <;> simp
      have hpcb0 : pendCB s h = 0 := by
        by_contra hne
        have hpos : 0 < pendCB s h := by omega
        have := (hcbp h r hpos hr).2
        omega
      have hpcb' := pendCB_sched hpend
      have hpall' := pendAll_sched hpend
      refine ⟨?_, ?_, ?_, ?_, ?_, ?_⟩
      · intro x hm
        rw [hcur]
        rcases hm with hy | hy | hy
        · rw [hreqs] at hy
          by_cases hxh : h = x
          · subst hxh
            exact hfr h (Or.inl (by rw [hr]; rfl))
          · rw [alookup_aset_ne _ _ _ _ hxh] at hy
            exact hfr x (Or.inl hy)
        · rw [countLog_eq_of hlog] at hy
          exact hfr x (Or.inr (Or.inl hy))
        · rw [hpall' x] at hy
          by_cases hxh : jobHandle (Job.callCBJob h) = x
          · have hxh2 : h = x := hxh
            subst hxh2
            exact hfr h (Or.inl (by rw [hr]; rfl))
          · rw [if_neg hxh] at hy
            have hy2 : 0 < pendAll s x := by omega
            exact hfr x (Or.inr (Or.inr hy2))
      · intro x
        rw [countLog_eq_of hlog]
        exact hlg x
      · intro x rx hrx hc
        rw [countLog_eq_of hlog]
        rw [hreqs] at hrx
        by_cases hxh : h = x
        · subst hxh
          rw [alookup_aset_self] at hrx
          exact hlg0 h r hr hcalled
        · rw [alookup_aset_ne _ _ _ _ hxh] at hrx
          exact hlg0 x rx hrx hc
      · intro x
        rw [hpcb' x]
        by_cases hxh : h = x
        · rw [if_pos hxh]
          rw [← hxh]
          omega
        · rw [if_neg hxh]
          have := hcb1 x
          omega
      · intro x rx hp hrx
        rw [hpcb' x] at hp
        rw [hreqs] at hrx
        by_cases hxh : h = x
        · subst hxh
          rw [alookup_aset_self] at hrx
          cases Option.some.inj hrx
          refine ⟨hcalled, ?_⟩
          show r.remain - 1 ≤ 0
          omega
        · rw [if_neg hxh] at hp
          rw [alookup_aset_ne _ _ _ _ hxh] at hrx
          exact hcbp x rx (by omega) hrx
      · intro x rx hrx hc
        rw [hreqs] at hrx
        by_cases hxh : h = x
        · subst hxh
          rw [alookup_aset_self] at hrx
          cases Option.some.inj hrx
          simp only [hcalled] at hc
          exact Bool.noConfusion hc
        · rw [alookup_aset_ne _ _ _ _ hxh] at hrx
          exact hcr x rx hrx hc
    · refine inv3_transport (countLog_eq_of hlog) (fun x => Nat.le_of_eq (pendCB_eq_of hpend x))
        (fun x hx => ?_) hcur (fun x rx hrx => ?_) ⟨hfr, hlg, hlg0, hcb1, hcbp, hcr⟩
      · rw [pendAll_eq_of hpend] at hx
        exact Or.inr (Or.inr hx)
      · rw [hreqs] at hrx
        by_cases hxh : h = x
        · subst hxh
          rw [alookup_aset_self] at hrx
          cases Option.some.inj hrx
          refine ⟨r, hr, rfl, fun h0 => ?_⟩
          show r.remain - 1 ≤ 0
          omega
        · rw [alookup_aset_ne _ _ _ _ hxh] at hrx
          exact ⟨rx, hrx, rfl, fun h0 => h0⟩

theorem releaseSem_inv3 {s : St} {h : Nat} {sem : Sem} {s' : St} {b : Bool}
    (hrel : releaseSem s h sem = some (s', b)) (hinv : Inv3 s) : Inv3 s' := by
  rcases releaseSem_spec hrel with ⟨-, rfl⟩ | ⟨-, held, idx, s1, s2, req, -, -,
    hreqs1, -, -, hcur1, -, hpend1, hlog1, -, -, hgrant, hreq2, -, hlog', hpend', hcur',
    -, -, -, -, hreqs'⟩
  · exact hinv
  · have hinv1 : Inv3 s1 := by
      refine inv3_transport (countLog_eq_of hlog1) (fun x => Nat.le_of_eq (pendCB_eq_of hpend1 x))
        (fun x hx => ?_) hcur1 (fun x rx hrx => ?_) hinv
      · rw [pendAll_eq_of hpend1] at hx
        exact Or.inr (Or.inr hx)
      · rw [hreqs1] at hrx
        exact ⟨rx, hrx, rfl, fun h0 => h0⟩
    have hinv2 : Inv3 s2 := by
      rcases hgrant with ⟨w, ws, gb, hq, hgl⟩ | ⟨-, rfl⟩
      · exact grantLock_inv3 hgl hinv1
      · exact hinv1
    refine inv3_transport (countLog_eq_of hlog') (fun x => Nat.le_of_eq (pendCB_eq_of hpend' x))
      (fun x hx => ?_) hcur' (fun x rx hrx => ?_) hinv2
    · rw [pendAll_eq_of hpend'] at hx
      exact Or.inr (Or.inr hx)
    · rcases hreqs' with ⟨-, hre⟩ | ⟨-, hre⟩ <;> rw [hre] at hrx
      · by_cases hxh : h = x
        · subst hxh
          rw [alookup_adel_self] at hrx
          exact Option.noConfusion hrx
        · rw [alookup_adel_ne _ _ _ hxh] at hrx
          exact ⟨rx, hrx, rfl, fun h0 => h0⟩
      · by_cases hxh : h = x
        · subst hxh
          rw [alookup_aset_self] at hrx
          cases Option.some.inj hrx
          exact ⟨req, hreq2, rfl, fun h0 => h0⟩
        · rw [alookup_aset_ne _ _ _ _ hxh] at hrx
          exact ⟨rx, hrx, rfl, fun h0 => h0⟩

theorem enqueue_inv3 {s : St} {sem : Sem} {h : Nat} {s' : St}
    (he : enqueue s sem h = some s') (hinv : Inv3 s) : Inv3 s' := by
  obtain ⟨req, q2, hreq, hins, rfl⟩ := enqueue_spec he
  refine inv3_transport (countLog_eq_of rfl) (fun x => Nat.le_refl _)
    (fun x hx => ?_) rfl (fun x rx hrx => ⟨rx, hrx, rfl, fun h0 => h0⟩) hinv
  rw [pendAll_eq_of rfl] at hx
  exact Or.inr (Or.inr hx)

theorem requestLock_inv3 {s : St} {h : Nat} {sem : Sem} {s1 : St} {g : Bool}
    (hrq : requestLock s h sem = some (s1, g)) (hinv : Inv3 s) : Inv3 s1 := by
  rcases requestLock_spec hrq with ⟨-, hgl⟩ | ⟨-, hgl, he⟩
  · exact grantLock_inv3 hgl hinv
  · exact enqueue_inv3 he hinv

theorem acquireLoop_inv3 {handle : Nat} :
    ∀ {l : List Sem} {s : St} {ni : Bool} {s' : St} {ni' : Bool},
      acquireLoop handle l s ni = some (s', ni') → Inv3 s → Inv3 s' := by
  intro l
  induction l with
  | nil =>
    intro s ni s' ni' hal hinv
    unfold acquireLoop at hal
    injection (Option.some.inj hal) with h1 h2
    exact h1 ▸ hinv
  | cons sem0 rest ih =>
    intro s ni s' ni' hal hinv
    unfold acquireLoop at hal
    rcases hrq : requestLock s handle sem0 with _ | ⟨s1, g⟩
    · simp only [hrq] at hal
      exact Option.noConfusion hal
    · simp only [hrq] at hal
      exact ih hal (requestLock_inv3 hrq hinv)

theorem grantSlotsLoop_inv3 {sem : Sem} {fuel : Nat} :
    ∀ {s s' : St}, grantSlotsLoop sem fuel s = some s' → Inv3 s → Inv3 s' := by
  induction fuel with
  | zero => intro s s' h; exact Option.noConfusion h
  | succ n ih =>
    intro s s' h hinv
    unfold grantSlotsLoop at h
    rcases hq : alookup s.semQueues sem with _ | q
    · simp only [hq] at h
      exact Option.noConfusion h
    · simp only [hq] at h
      rcases hgl : grantLock s q.head? sem with _ | ⟨s1, success⟩
      · simp only [hgl] at h
        exact Option.noConfusion h
      · simp only [hgl] at h
        by_cases hcond : (success && (alookup s1.semQueues sem).isSome) = true
        · rw [if_pos hcond] at h
          exact ih h (grantLock_inv3 hgl hinv)
        · rw [if_neg hcond] at h
          exact (Option.some.inj h) ▸ (grantLock_inv3 hgl hinv)

theorem grantEmptySlots_inv3 {s : St} {sem : Sem} {s' : St}
    (h : grantEmptySlots s sem = some s') (hinv : Inv3 s) : Inv3 s' := by
  unfold grantEmptySlots at h
  rcases hq : alookup s.semQueues sem with _ | q
  · simp only [hq] at h
    exact (Option.some.inj h) ▸ hinv
  · simp only [hq] at h
    exact grantSlotsLoop_inv3 h hinv

theorem grantLock_log {s : St} {h? : Option Nat} {sem : Sem} {s' : St} {b : Bool}
    (hgl : grantLock s h? sem = some (s', b)) : s'.log = s.log := by
  rcases grantLock_spec hgl with ⟨-, rfl, -⟩ | ⟨-, h, r, -, -, -, hlog, -⟩
  · rfl
  · exact hlog

theorem releaseSem_log {s : St} {h : Nat} {sem : Sem} {s' : St} {b : Bool}
    (hrel : releaseSem s h sem = some (s', b)) : s'.log = s.log := by
  rcases releaseSem_spec hrel with ⟨-, rfl⟩ | ⟨-, held, idx, s1, s2, req, -, -, -, -, -,
    -, -, -, hlog1, -, -, hgrant, -, -, hlog', -⟩
  · rfl
  · rw [hlog']
    rcases hgrant with ⟨w, ws, gb, hq, hgl⟩ | ⟨-, rfl⟩
    · rw [grantLock_log hgl, hlog1]
    · exact hlog1

theorem cancelLoop_log {h : Nat} :
    ∀ {l : List Sem} {s s' : St}, cancelLoop h l s = some s' → s'.log = s.log := by
  intro l
  induction l with
  | nil =>
    intro s s' hcl
    exact (Option.some.inj hcl) ▸ rfl
  | cons sem0 rest ih =>
    intro s s' hcl
    unfold cancelLoop at hcl
    rcases hrel : releaseSem s h sem0 with _ | ⟨s1, b⟩
    · simp only [hrel] at hcl
      exact Option.noConfusion hcl
    · simp only [hrel] at hcl
      rcases hq : alookup s1.semQueues sem0 with _ | q
      · simp only [hq] at hcl
        exact (ih hcl).trans (releaseSem_log hrel)
      · simp only [hq] at hcl
        have h2 := ih hcl
        refine h2.trans ?_
        show s1.log = s.log
        exact releaseSem_log hrel

theorem cancelLoop_inv3 {h : Nat} :
    ∀ {l : List Sem} {s s' : St}, cancelLoop h l s = some s' → Inv3 s → Inv3 s' := by
  intro l
  induction l with
  | nil =>
    intro s s' hcl hinv
    exact (Option.some.inj hcl) ▸ hinv
  | cons sem0 rest ih =>
    intro s s' hcl hinv
    unfold cancelLoop at hcl
    rcases hrel : releaseSem s h sem0 with _ | ⟨s1, b⟩
    · simp only [hrel] at hcl
      exact Option.noConfusion hcl
    · simp only [hrel] at hcl
      have hinv1 : Inv3 s1 := releaseSem_inv3 hrel hinv
      rcases hq : alookup s1.semQueues sem0 with _ | q
      · simp only [hq] at hcl
        exact ih hcl hinv1
      · simp only [hq] at hcl
        refine ih hcl ?_
        refine inv3_transport (countLog_eq_of rfl) (fun x => Nat.le_refl _)
          (fun x hx => ?_) rfl (fun x rx hrx => ⟨rx, hrx, rfl, fun h0 => h0⟩) hinv1
        rw [pendAll_eq_of rfl] at hx
        exact Or.inr (Or.inr hx)

/-- Destroying a request record preserves the delivery invariant. -/
theorem inv3_adel {s : St} {h : Nat} (hinv : Inv3 s) :
    Inv3 { s with reqs := adel s.reqs h } := by
  refine inv3_transport ?_ ?_ ?_ ?_ ?_ hinv
  · exact fun x => rfl
  · exact fun x => Nat.le_refl _
  · intro x hx
    have hx2 : 0 < pendAll s x := hx
    exact Or.inr (Or.inr hx2)
  · rfl
  · intro x rx hrx
    have hrx2 : alookup (adel s.reqs h) x = some rx := hrx
    by_cases hxh : h = x
    · subst hxh
      rw [alookup_adel_self] at hrx2
      exact Option.noConfusion hrx2
    · rw [alookup_adel_ne _ _ _ hxh] at hrx2
      exact ⟨rx, hrx2, rfl, fun h0 => h0⟩

theorem countLog_logapp {s s' : St} {h : Nat} {n : Notify}
    (hl : s'.log = s.log ++ [(h, n)]) :
    ∀ x, countLog s' x = countLog s x + (if h = x then 1 else 0) := by
  intro x
  unfold countLog
  rw [hl, List.map_append]
  exact count_append_one _ _ _

theorem cancel_inv3 {s : St} {h : Nat} {e? : Option Err} {s' : St}
    (hc : cancel s h e? = some s') (hinv : Inv3 s) : Inv3 s' := by
  rcases hreq : alookup s.reqs h with _ | req
  · unfold cancel at hc
    simp only [hreq] at hc
    exact (Option.some.inj hc) ▸ hinv
  · rcases hcl : cancelLoop h req.sems s with _ | t
    · unfold cancel at hc
      simp only [hreq, hcl] at hc
      exact Option.noConfusion hc
    · have hinvt : Inv3 t := cancelLoop_inv3 hcl hinv
      have hlogt : ∀ x, countLog t x = countLog s x := countLog_eq_of (cancelLoop_log hcl)
      have hcurt : t.curId = s.curId := cancelLoop_curId hcl
      rcases e? with _ | e <;> unfold cancel at hc <;> simp only [hreq, hcl] at hc
      · rw [← Option.some.inj hc]
        exact inv3_adel hinvt
      · by_cases hcalled : req.called = true
        · rw [if_pos hcalled] at hc
          rw [← Option.some.inj hc]
          exact inv3_adel hinvt
        · rw [if_neg hcalled] at hc
          by_cases hcb : req.hasCb = true
          · rw [if_pos hcb] at hc
            rw [← Option.some.inj hc]
            have hcalled' : req.called = false := by
              revert hcalled
              cases req.called <;> simp
            have hlg0s : countLog s h = 0 := hinv.2.2.1 h req hreq hcalled'
            obtain ⟨hfrt, hlgt, hlg0t, hcb1t, hcbpt, hcrt⟩ := hinvt
            have hcapp : ∀ x,
                countLog { t with log := t.log ++ [(h, Notify.failed e)],
                                  reqs := adel t.reqs h } x
                  = countLog t x + (if h = x then 1 else 0) :=
              countLog_logapp rfl
            refine ⟨?_, ?_, ?_, ?_, ?_, ?_⟩
            · intro x hm
              show x < t.curId
              rcases hm with hy | hy | hy
              · have hy2 : (alookup (adel t.reqs h) x).isSome = true := hy
                by_cases hxh : h = x
                · subst hxh
                  rw [alookup_adel_self] at hy2
                  exact Bool.noConfusion hy2
                · rw [alookup_adel_ne _ _ _ hxh] at hy2
                  exact hfrt x (Or.inl hy2)
              · rw [hcapp x] at hy
                by_cases hxh : h = x
                · subst hxh
                  rw [hcurt]
                  exact hinv.1 h (Or.inl (by rw [hreq]; rfl))
                · rw [if_neg hxh] at hy
                  have hy2 : 0 < countLog t x := by omega
                  exact hfrt x (Or.inr (Or.inl hy2))
              · exact hfrt x (Or.inr (Or.inr hy))
            · intro x
              rw [hcapp x]
              by_cases hxh : h = x
              · rw [if_pos hxh, ← hxh, hlogt h, hlg0s]
              · rw [if_neg hxh]
                have := hlgt x
                omega
            · intro x rx hrx hcx
              rw [hcapp x]
              have hrx2 : alookup (adel t.reqs h) x = some rx := hrx
              by_cases hxh : h = x
              · subst hxh
                rw [alookup_adel_self] at hrx2
                exact Option.noConfusion hrx2
              · rw [alookup_adel_ne _ _ _ hxh] at hrx2
                rw [if_neg hxh, hlg0t x rx hrx2 hcx]
            · intro x
              exact hcb1t x
            · intro x rx hp hrx
              have hrx2 : alookup (adel t.reqs h) x = some rx := hrx
              by_cases hxh : h = x
              · subst hxh
                rw [alookup_adel_self] at hrx2
                exact Option.noConfusion hrx2
              · rw [alookup_adel_ne _ _ _ hxh] at hrx2
                exact hcbpt x rx hp hrx2
            · intro x rx hrx hcx
              have hrx2 : alookup (adel t.reqs h) x = some rx := hrx
              by_cases hxh : h = x
              · subst hxh
                rw [alookup_adel_self] at hrx2
                exact Option.noConfusion hrx2
              · rw [alookup_adel_ne _ _ _ hxh] at hrx2
                exact hcrt x rx hrx2 hcx
          · rw [if_neg hcb] at hc
            rw [← Option.some.inj hc]
            exact inv3_adel hinvt

theorem releaseLoop_inv3 {h : Nat} :
    ∀ {l : List Sem} {s s' : St}, releaseLoop h l s = some s' → Inv3 s → Inv3 s' := by
  intro l
  induction l with
  | nil =>
    intro s s' hrl hinv
    exact (Option.some.inj hrl) ▸ hinv
  | cons sem0 rest ih =>
    intro s s' hrl hinv
    unfold releaseLoop at hrl
    rcases hrel : releaseSem s h sem0 with _ | ⟨s1, b⟩
    · simp only [hrel] at hrl
      exact Option.noConfusion hrl
    · simp only [hrel] at hrl
      exact ih hrl (releaseSem_inv3 hrel hinv)

theorem release_inv3 {s : St} {h : Nat} {arg : RelArg} {s' : St}
    (hr : release s h arg = some s') (hinv : Inv3 s) : Inv3 s' := by
  unfold release at hr
  rcases hreq : alookup s.reqs h with _ | req
  · simp only [hreq] at hr
    exact (Option.some.inj hr) ▸ hinv
  · simp only [hreq] at hr
    exact releaseLoop_inv3 hr hinv

theorem forceLoop_inv3 {sem : Sem} :
    ∀ {l : List Nat} {s s' : St}, forceLoop sem l s = some s' → Inv3 s → Inv3 s' := by
  intro l
  induction l with
  | nil =>
    intro s s' hf hinv
    exact (Option.some.inj hf) ▸ hinv
  | cons h0 rest ih =>
    intro s s' hf hinv
    unfold forceLoop at hf
    rcases hr : release s h0 (RelArg.one sem) with _ | s1
    · simp only [hr] at hf
      exact Option.noConfusion hf
    · simp only [hr] at hf
      exact ih hf (release_inv3 hr hinv)

theorem forceRelease_inv3 {s : St} {sem : Sem} {s' : St}
    (hf : forceRelease s sem = some s') (hinv : Inv3 s) : Inv3 s' := by
  unfold forceRelease at hf
  rcases hh : alookup s.sems sem with _ | held
  · simp only [hh] at hf
    exact (Option.some.inj hf) ▸ hinv
  · simp only [hh] at hf
    exact forceLoop_inv3 hf hinv

theorem setMaxLocks_inv3 {s : St} {sem : Sem} {cap : Option Int} {s' : St}
    (hm : setMaxLocks s sem cap = some s') (hinv : Inv3 s) : Inv3 s' := by
  unfold setMaxLocks at hm
  obtain ⟨-, -, -, hr, hp, hl, hcur, -⟩ := setCapOnly_fields s sem cap
  refine grantEmptySlots_inv3 hm (inv3_transport (countLog_eq_of hl)
    (fun x => Nat.le_of_eq (pendCB_eq_of hp x)) (fun x hx => ?_) hcur
    (fun x rx hrx => ?_) hinv)
  · rw [pendAll_eq_of hp] at hx
    exact Or.inr (Or.inr hx)
  · rw [hr] at hrx
    exact ⟨rx, hrx, rfl, fun h0 => h0⟩

theorem defaultLoop_inv3 :
    ∀ {l : List Sem} {s s' : St}, defaultLoop l s = some s' → Inv3 s → Inv3 s' := by
  intro l
  induction l with
  | nil =>
    intro s s' hd hinv
    exact (Option.some.inj hd) ▸ hinv
  | cons sem0 rest ih =>
    intro s s' hd hinv
    unfold defaultLoop at hd
    by_cases hcond : (alookup s.semQueues sem0).isSome ∧ (alookup s.semCaps sem0).isNone
    · rw [if_pos hcond] at hd
      rcases hg : grantEmptySlots s sem0 with _ | s1
      · simp only [hg] at hd
        exact Option.noConfusion hd
      · simp only [hg] at hd
        exact ih hd (grantEmptySlots_inv3 hg hinv)
    · rw [if_neg hcond] at hd
      exact ih hd hinv

theorem setDefaultMaxLocks_inv3 {s : St} {cap : Option Int} {s' : St}
    (hm : setDefaultMaxLocks s cap = some s') (hinv : Inv3 s) : Inv3 s' := by
  unfold setDefaultMaxLocks at hm
  obtain ⟨-, -, hr, hcur⟩ := setDefaultCapOnly_fields s cap
  have hinv0 : Inv3 (setDefaultCapOnly s cap) := by
    refine inv3_transport ?_ ?_ (fun x hx => ?_) hcur (fun x rx hrx => ?_) hinv
    · intro x
      unfold countLog
      unfold setDefaultCapOnly
      rcases cap with _ | c <;> rfl
    · intro x
      unfold pendCB
      unfold setDefaultCapOnly
      rcases cap with _ | c <;> exact Nat.le_refl _
    · refine Or.inr (Or.inr ?_)
      unfold pendAll at hx ⊢
      unfold setDefaultCapOnly at hx
      rcases cap with _ | c <;> exact hx
    · rw [hr] at hrx
      exact ⟨rx, hrx, rfl, fun h0 => h0⟩
  by_cases hcond : (setDefaultCapOnly s cap).defaultCap > s.defaultCap
  · rw [if_pos hcond] at hm
    exact defaultLoop_inv3 hm hinv0
  · rw [if_neg hcond] at hm
    exact (Option.some.inj hm) ▸ hinv0

theorem callCB_inv3 {s : St} {h : Nat} {s' : St}
    (hc : callCB s h = some s') (hinv : Inv3 s)
    (hcr0 : ∀ r, alookup s.reqs h = some r → r.called = false ∧ r.remain ≤ 0)
    (hnp : pendCB s h = 0) : Inv3 s' := by
  obtain ⟨req, hreq, hq, hsm, -, hcur, -, hpend, -, hreqs, hlog⟩ := callCB_spec hc
  obtain ⟨hc0, hrem0⟩ := hcr0 req hreq
  obtain ⟨hfr, hlg, hlg0, hcb1, hcbp, hcr⟩ := hinv
  have hr1c : (if req.ttl.getD 0 ≠ 0 then { req with ttlArmed := true, called := true }
      else { req with called := true }).called = true := by
    by_cases httl : req.ttl.getD 0 ≠ 0
    · rw [if_pos httl]
    · rw [if_neg httl]
  have hr1r : (if req.ttl.getD 0 ≠ 0 then { req with ttlArmed := true, called := true }
      else { req with called := true }).remain = req.remain := by
    by_cases httl : req.ttl.getD 0 ≠ 0
    · rw [if_pos httl]
    · rw [if_neg httl]
  have hccl : ∀ x, countLog s' x
      = countLog s x + (if h = x ∧ req.hasCb = true then 1 else 0) := by
    intro x
    by_cases hcb : req.hasCb = true
    · rw [if_pos hcb] at hlog
      rw [countLog_logapp hlog x]
      by_cases hxh : h = x
      · rw [if_pos hxh, if_pos ⟨hxh, hcb⟩]
      · rw [if_neg hxh, if_neg (fun hcon => hxh hcon.1)]
    · rw [if_neg hcb] at hlog
      rw [countLog_eq_of hlog x, if_neg (fun hcon => hcb hcon.2)]
      omega
  refine ⟨?_, ?_, ?_, ?_, ?_, ?_⟩
  · intro x hm
    rw [hcur]
    rcases hm with hy | hy | hy
    · rw [hreqs] at hy
      by_cases hxh : h = x
      · subst hxh
        exact hfr h (Or.inl (by rw [hreq]; rfl))
      · rw [alookup_aset_ne _ _ _ _ hxh] at hy
        exact hfr x (Or.inl hy)
    · rw [hccl x] at hy
      by_cases hxh : h = x
      · subst hxh
        exact hfr h (Or.inl (by rw [hreq]; rfl))
      · rw [if_neg (fun hcon => hxh hcon.1)] at hy
        have hy2 : 0 < countLog s x := by omega
        exact hfr x (Or.inr (Or.inl hy2))
    · rw [pendAll_eq_of hpend] at hy
      exact hfr x (Or.inr (Or.inr hy))
  · intro x
    rw [hccl x]
    by_cases hxh : h = x
    · by_cases hcb : req.hasCb = true
      · rw [if_pos ⟨hxh, hcb⟩, ← hxh, hlg0 h req hreq hc0]
      · rw [if_neg (fun hcon => hcb hcon.2)]
        have := hlg x
        omega
    · rw [if_neg (fun hcon => hxh hcon.1)]
      have := hlg x
      omega
  · intro x rx hrx hcx
    rw [hreqs] at hrx
    by_cases hxh : h = x
    · subst hxh
      rw [alookup_aset_self] at hrx
      cases Option.some.inj hrx
      rw [hr1c] at hcx
      exact Bool.noConfusion hcx
    · rw [alookup_aset_ne _ _ _ _ hxh] at hrx
      rw [hccl x, if_neg (fun hcon => hxh hcon.1), hlg0 x rx hrx hcx]
  · intro x
    rw [pendCB_eq_of hpend]
    exact hcb1 x
  · intro x rx hp hrx
    rw [pendCB_eq_of hpend] at hp
    rw [hreqs] at hrx
    by_cases hxh : h = x
    · subst hxh
      rw [hnp] at hp
      exact absurd hp (Nat.lt_irrefl 0)
    · rw [alookup_aset_ne _ _ _ _ hxh] at hrx
      exact hcbp x rx hp hrx
  · intro x rx hrx hcx
    rw [hreqs] at hrx
    by_cases hxh : h = x
    · subst hxh
      rw [alookup_aset_self] at hrx
      cases Option.some.inj hrx
      rw [hr1r]
      exact hrem0
    · rw [alookup_aset_ne _ _ _ _ hxh] at hrx
      exact hcr x rx hrx hcx

/-- Popping the head of the `setImmediate` queue preserves the invariant. -/
theorem pop_inv3 {s : St} {j : Job} {rest : List Job}
    (hp : s.pending = j :: rest) (hinv : Inv3 s) :
    Inv3 { s with pending := rest } := by
  have hcb : ∀ x, pendCB { s with pending := rest } x ≤ pendCB s x := by
    intro x
    show List.count (Job.callCBJob x) rest ≤ pendCB s x
    unfold pendCB
    rw [hp, count_cons_self]
    omega
  have hall : ∀ x, pendAll { s with pending := rest } x ≤ pendAll s x := by
    intro x
    show List.count x (List.map jobHandle rest) ≤ pendAll s x
    unfold pendAll
    rw [hp, List.map_cons, count_cons_self]
    omega
  refine inv3_transport ?_ hcb (fun x hx => ?_) rfl
    (fun x rx hrx => ⟨rx, hrx, rfl, fun h0 => h0⟩) hinv
  · exact fun x => rfl
  · exact Or.inr (Or.inr (Nat.lt_of_lt_of_le hx (hall x)))

/-- `acquire` preserves the delivery invariant below the wrap-around
limit. -/
theorem acquire_inv3 {s : St} {semsArg : List Sem} {opts : Opts} {hasCb : Bool}
    {s' : St} {handle : Nat}
    (ha : acquire s semsArg opts hasCb = some (s', handle))
    (hinv : Inv3 s) (hlim : s.curId < HANDLE_LIMIT) : Inv3 s' := by
  obtain ⟨hfr, hlg, hlg0, hcb1, hcbp, hcr⟩ := hinv
  have hgn : getNextHandle s = (s.curId, { s with curId := s.curId + 1 }) := by
    unfold getNextHandle
    rw [if_neg (by omega)]
  unfold acquire at ha
  rw [hgn] at ha
  simp only [] at ha
  rcases hal : (acquireLoop s.curId semsArg
      { s with
        curId := s.curId + 1,
        reqs := aset s.reqs s.curId
          { remain := (semsArg.length : Int), released := 0, sems := semsArg,
            ttl := opts.ttl, priority := opts.priority.getD 2, hasCb := hasCb,
            timeoutArmed := false, ttlArmed := false, called := false } } false)
    with _ | ⟨s2, ni⟩
  · simp only [hal] at ha
    exact Option.noConfusion ha
  · have hlg0cur : countLog s s.curId = 0 := by
      by_contra hne
      have hpos : 0 < countLog s s.curId := by omega
      exact absurd (hfr s.curId (Or.inr (Or.inl hpos))) (Nat.lt_irrefl _)
    have hpcb0cur : pendCB s s.curId = 0 := by
      by_contra hne
      have hpos : 0 < pendAll s s.curId :=
        Nat.lt_of_lt_of_le (by omega) (pendCB_le_pendAll s s.curId)
      exact absurd (hfr s.curId (Or.inr (Or.inr hpos))) (Nat.lt_irrefl _)
    have hinv1 : Inv3 { s with
        curId := s.curId + 1,
        reqs := aset s.reqs s.curId
          { remain := (semsArg.length : Int), released := 0, sems := semsArg,
            ttl := opts.ttl, priority := opts.priority.getD 2, hasCb := hasCb,
            timeoutArmed := false, ttlArmed := false, called := false } } := by
      refine ⟨?_, ?_, ?_, ?_, ?_, ?_⟩
      · intro x hm
        show x < s.curId + 1
        rcases hm with hy | hy | hy
        · by_cases hxh : s.curId = x
          · omega
          · have hy2 : (alookup (aset s.reqs s.curId
                { remain := (semsArg.length : Int), released := 0, sems := semsArg,
                  ttl := opts.ttl, priority := opts.priority.getD 2, hasCb := hasCb,
                  timeoutArmed := false, ttlArmed := false, called := false }) x).isSome
                = true := hy
            rw [alookup_aset_ne _ _ _ _ hxh] at hy2
            have := hfr x (Or.inl hy2)
            omega
        · have hy2 : 0 < countLog s x := hy
          have := hfr x (Or.inr (Or.inl hy2))
          omega
        · have hy2 : 0 < pendAll s x := hy
          have := hfr x (Or.inr (Or.inr hy2))
          omega
      · intro x
        exact hlg x
      · intro x rx hrx hcx
        show countLog s x = 0
        have hrx2 : alookup (aset s.reqs s.curId
            { remain := (semsArg.length : Int), released := 0, sems := semsArg,
              ttl := opts.ttl, priority := opts.priority.getD 2, hasCb := hasCb,
              timeoutArmed := false, ttlArmed := false, called := false }) x
            = some rx := hrx
        by_cases hxh : s.curId = x
        · rw [← hxh]
          exact hlg0cur
        · rw [alookup_aset_ne _ _ _ _ hxh] at hrx2
          exact hlg0 x rx hrx2 hcx
      · intro x
        exact hcb1 x
      · intro x rx hp hrx
        have hp2 : 0 < pendCB s x := hp
        have hrx2 : alookup (aset s.reqs s.curId
            { remain := (semsArg.length : Int), released := 0, sems := semsArg,
              ttl := opts.ttl, priority := opts.priority.getD 2, hasCb := hasCb,
              timeoutArmed := false, ttlArmed := false, called := false }) x
            = some rx := hrx
        by_cases hxh : s.curId = x
        · rw [← hxh] at hp2
          rw [hpcb0cur] at hp2
          exact absurd hp2 (Nat.lt_irrefl 0)
        · rw [alookup_aset_ne _ _ _ _ hxh] at hrx2
          exact hcbp x rx hp2 hrx2
      · intro x rx hrx hcx
        have hrx2 : alookup (aset s.reqs s.curId
            { remain := (semsArg.length : Int), released := 0, sems := semsArg,
              ttl := opts.ttl, priority := opts.priority.getD 2, hasCb := hasCb,
              timeoutArmed := false, ttlArmed := false, called := false }) x
            = some rx := hrx
        by_cases hxh : s.curId = x
        · subst hxh
          rw [alookup_aset_self] at hrx2
          cases Option.some.inj hrx2
          exact Bool.noConfusion hcx
        · rw [alookup_aset_ne _ _ _ _ hxh] at hrx2
          exact hcr x rx hrx2 hcx
    have hinv2 : Inv3 s2 := acquireLoop_inv3 hal hinv1
    simp only [hal] at ha
    obtain ⟨hfr2, hlg2, hlg02, hcb12, hcbp2, hcr2⟩ := hinv2
    by_cases hni : (ni && opts.instant) = true
    · rw [if_pos hni] at ha
      rcases hr2 : alookup s2.reqs s.curId with _ | r
      · simp only [hr2] at ha
        exact Option.noConfusion ha
      · simp only [hr2, Option.some_inj, Prod.mk.injEq] at ha
        obtain ⟨hs', -⟩ := ha
        rw [← hs']
        have hpcbf : ∀ x, pendCB { s2 with
            reqs := aset s2.reqs s.curId { r with remain := 0 },
            pending := s2.pending ++ [Job.cancelJob s.curId] } x = pendCB s2 x := by
          intro x
          show (s2.pending ++ [Job.cancelJob s.curId]).count (Job.callCBJob x)
            = pendCB s2 x
          rw [count_append_one, if_neg (fun hcon => Job.noConfusion hcon)]
          show pendCB s2 x + 0 = pendCB s2 x
          omega
        have hpallf : ∀ x, pendAll { s2 with
            reqs := aset s2.reqs s.curId { r with remain := 0 },
            pending := s2.pending ++ [Job.cancelJob s.curId] } x
            = pendAll s2 x + (if s.curId = x then 1 else 0) := by
          intro x
          show ((s2.pending ++ [Job.cancelJob s.curId]).map jobHandle).count x
            = pendAll s2 x + (if s.curId = x then 1 else 0)
          rw [List.map_append]
          exact count_append_one _ _ _
        refine ⟨?_, ?_, ?_, ?_, ?_, ?_⟩
        · intro x hm
          show x < s2.curId
          rcases hm with hy | hy | hy
          · have hy2 : (alookup (aset s2.reqs s.curId { r with remain := 0 }) x).isSome
                = true := hy
            by_cases hxh : s.curId = x
            · subst hxh
              exact hfr2 s.curId (Or.inl (by rw [hr2]; rfl))
            · rw [alookup_aset_ne _ _ _ _ hxh] at hy2
              exact hfr2 x (Or.inl hy2)
          · have hy2 : 0 < countLog s2 x := hy
            exact hfr2 x (Or.inr (Or.inl hy2))
          · rw [hpallf x] at hy
            by_cases hxh : s.curId = x
            · subst hxh
              exact hfr2 s.curId (Or.inl (by rw [hr2]; rfl))
            · rw [if_neg hxh] at hy
              have hy2 : 0 < pendAll s2 x := by omega
              exact hfr2 x (Or.inr (Or.inr hy2))
        · intro x
          exact hlg2 x
        · intro x rx hrx hcx
          show countLog s2 x = 0
          have hrx2 : alookup (aset s2.reqs s.curId { r with remain := 0 }) x
              = some rx := hrx
          by_cases hxh : s.curId = x
          · subst hxh
            rw [alookup_aset_self] at hrx2
            cases Option.some.inj hrx2
            exact hlg02 s.curId r hr2 hcx
          · rw [alookup_aset_ne _ _ _ _ hxh] at hrx2
            exact hlg02 x rx hrx2 hcx
        · intro x
          rw [hpcbf x]
          exact hcb12 x
        · intro x rx hp hrx
          rw [hpcbf x] at hp
          have hrx2 : alookup (aset s2.reqs s.curId { r with remain := 0 }) x
              = some rx := hrx
          by_cases hxh : s.curId = x
          · subst hxh
            rw [alookup_aset_self] at hrx2
            cases Option.some.inj hrx2
            obtain ⟨hcf, -⟩ := hcbp2 s.curId r hp hr2
            refine ⟨hcf, ?_⟩
            show (0 : Int) ≤ 0
            omega
          · rw [alookup_aset_ne _ _ _ _ hxh] at hrx2
            exact hcbp2 x rx hp hrx2
        · intro x rx hrx hcx
          have hrx2 : alookup (aset s2.reqs s.curId { r with remain := 0 }) x
              = some rx := hrx
          by_cases hxh : s.curId = x
          · subst hxh
            rw [alookup_aset_self] at hrx2
            cases Option.some.inj hrx2
            show (0 : Int) ≤ 0
            omega
          · rw [alookup_aset_ne _ _ _ _ hxh] at hrx2
            exact hcr2 x rx hrx2 hcx
    · rw [if_neg hni] at ha
      by_cases hw : opts.wait.isSome = true
      · rw [if_pos hw] at ha
        rcases hr2 : alookup s2.reqs s.curId with _ | r
        · simp only [hr2] at ha
          exact Option.noConfusion ha
        · simp only [hr2, Option.some_inj, Prod.mk.injEq] at ha
          obtain ⟨hs', -⟩ := ha
          rw [← hs']
          refine inv3_transport ?_ ?_ ?_ ?_ ?_ ⟨hfr2, hlg2, hlg02, hcb12, hcbp2, hcr2⟩
          · exact fun x => rfl
          · exact fun x => Nat.le_refl _
          · intro x hx
            have hx2 : 0 < pendAll s2 x := hx
            exact Or.inr (Or.inr hx2)
          · rfl
          · intro x rx hrx
            have hrx2 : alookup (aset s2.reqs s.curId { r with timeoutArmed := true }) x
                = some rx := hrx
            by_cases hxh : s.curId = x
            · subst hxh
              rw [alookup_aset_self] at hrx2
              cases Option.some.inj hrx2
              exact ⟨r, hr2, rfl, fun h0 => h0⟩
            · rw [alookup_aset_ne _ _ _ _ hxh] at hrx2
              exact ⟨rx, hrx2, rfl, fun h0 => h0⟩
      · rw [if_neg hw] at ha
        simp only [Option.some_inj, Prod.mk.injEq] at ha
        obtain ⟨hs', -⟩ := ha
        rw [← hs']
        exact ⟨hfr2, hlg2, hlg02, hcb12, hcbp2, hcr2⟩

theorem step_inv3 {s : St} {op : Op} {s' : St}
    (hinv : Inv3 s) (hw : WrapSafe op s) (hs : step op s = some s') : Inv3 s' := by
  cases op with
  | acquire sems opts b =>
    simp only [step] at hs
    rcases ha : acquire s sems opts b with _ | ⟨s2, handle⟩
    · rw [ha] at hs
      exact Option.noConfusion hs
    · rw [ha] at hs
      have hmap : some s2 = some s' := hs
      rw [← Option.some.inj hmap]
      exact acquire_inv3 ha hinv hw
  | cancel h e? =>
    simp only [step] at hs
    exact cancel_inv3 hs hinv
  | release h arg =>
    simp only [step] at hs
    exact release_inv3 hs hinv
  | forceRelease sem =>
    simp only [step] at hs
    exact forceRelease_inv3 hs hinv
  | setMaxLocks sem cap =>
    simp only [step] at hs
    exact setMaxLocks_inv3 hs hinv
  | setDefaultMaxLocks cap =>
    simp only [step] at hs
    exact setDefaultMaxLocks_inv3 hs hinv
  | runJob =>
    simp only [step] at hs
    rcases hp : s.pending with _ | ⟨j, rest⟩
    · simp only [hp] at hs
      exact Option.noConfusion hs
    · simp only [hp] at hs
      have hpop : Inv3 { s with pending := rest } := pop_inv3 hp hinv
      cases j with
      | callCBJob h =>
        unfold runJob at hs
        have hpos : 0 < pendCB s h := by
          unfold pendCB
          rw [hp, count_cons_self, if_pos rfl]
          omega
        have hone : pendCB s h ≤ 1 := hinv.2.2.2.1 h
        have hnp : pendCB { s with pending := rest } h = 0 := by
          show List.count (Job.callCBJob h) rest = 0
          have hcnt : pendCB s h = List.count (Job.callCBJob h) rest + 1 := by
            unfold pendCB
            rw [hp, count_cons_self, if_pos rfl]
          omega
        refine callCB_inv3 hs hpop (fun r hr => ?_) hnp
        exact hinv.2.2.2.2.1 h r hpos hr
      | cancelJob h =>
        unfold runJob at hs
        exact cancel_inv3 hs hpop
  | fireWait h =>
    simp only [step] at hs
    rcases hr : alookup s.reqs h with _ | r
    · simp only [hr] at hs
      exact Option.noConfusion hs
    · simp only [hr] at hs
      by_cases harm : r.timeoutArmed = true
      · rw [if_pos harm] at hs
        exact cancel_inv3 hs hinv
      · rw [if_neg harm] at hs
        exact Option.noConfusion hs
  | fireTtl h =>
    simp only [step] at hs
    rcases hr : alookup s.reqs h with _ | r
    · simp only [hr] at hs
      exact Option.noConfusion hs
    · simp only [hr] at hs
      by_cases harm : r.ttlArmed = true
      · rw [if_pos harm] at hs
        rcases hrel : release { s with reqs := aset s.reqs h { r with ttlArmed := false } }
            h RelArg.allSems with _ | s1
        · rw [hrel] at hs
          exact Option.noConfusion hs
        · rw [hrel] at hs
          simp only [Option.some_inj] at hs
          rw [← hs]
          have hinv0 : Inv3 { s with reqs := aset s.reqs h { r with ttlArmed := false } } := by
            refine inv3_transport ?_ ?_ ?_ ?_ ?_ hinv
            · exact fun x => rfl
            · exact fun x => Nat.le_refl _
            · intro x hx
              have hx2 : 0 < pendAll s x := hx
              exact Or.inr (Or.inr hx2)
            · rfl
            · intro x rx hrx
              have hrx2 : alookup (aset s.reqs h { r with ttlArmed := false }) x
                  = some rx := hrx
              by_cases hxh : h = x
              · subst hxh
                rw [alookup_aset_self] at hrx2
                cases Option.some.inj hrx2
                exact ⟨r, hr, rfl, fun h0 => h0⟩
              · rw [alookup_aset_ne _ _ _ _ hxh] at hrx2
                exact ⟨rx, hrx2, rfl, fun h0 => h0⟩
          have hinv1 : Inv3 s1 := release_inv3 hrel hinv0
          refine inv3_transport ?_ ?_ ?_ ?_ ?_ hinv1
          · exact fun x => rfl
          · exact fun x => Nat.le_refl _
          · intro x hx
            have hx2 : 0 < pendAll s1 x := hx
            exact Or.inr (Or.inr hx2)
          · rfl
          · intro x rx hrx
            have hrx2 : alookup s1.reqs x = some rx := hrx
            exact ⟨rx, hrx2, rfl, fun h0 => h0⟩
      · rw [if_neg harm] at hs
        exact Option.noConfusion hs

/-- C3 (amended): the Notifier fires *at most* once per request, not
exactly once (counterexample: a request for the empty name list is never
notified at all, and a cancel without an error argument notifies zero
times).  Proved: (1) the at-most-once invariant `Inv3` holds initially;
(2) every step preserves it, provided `acquire` never wraps the handle
counter; (3) under the invariant each handle has at most one log entry;
and (4) the deferred delivery step itself logs exactly one completion for
a request that has a callback. -/
theorem c3_notify_at_most_once :
    Inv3 initSt ∧
    (∀ s op s', Inv3 s → WrapSafe op s → step op s = some s' → Inv3 s') ∧
    (∀ s h, Inv3 s → countLog s h ≤ 1) ∧
    (∀ s h s' r, callCB s h = some s' → alookup s.reqs h = some r →
      r.hasCb = true → countLog s' h = countLog s h + 1) := by
  refine ⟨⟨?_, ?_, ?_, ?_, ?_, ?_⟩, ?_, ?_, ?_⟩
  · intro h hm
    rcases hm with hy | hy | hy
    · simp [initSt, alookup] at hy
    · simp [initSt, countLog] at hy
    · simp [initSt, pendAll] at hy
  · intro h
    simp [initSt, countLog]
  · intro h r hr
    simp [initSt, alookup] at hr
  · intro h
    simp [initSt, pendCB]
  · intro h r hp
    simp [initSt, pendCB] at hp
  · intro h r hr
    simp [initSt, alookup] at hr
  · intro s op s' hinv hw hs
    exact step_inv3 hinv hw hs
  · intro s h hinv
    exact hinv.2.1 h
  · intro s h s' r hc hr hcb
    obtain ⟨req, hreq, -, -, -, -, -, -, -, -, hlog⟩ := callCB_spec hc
    rw [hreq] at hr
    cases Option.some.inj hr
    rw [if_pos hcb] at hlog
    rw [countLog_logapp hlog h, if_pos rfl]

/-- C3 witness: the preservation part applied to a concrete acquisition
from the initial state. -/
theorem c3_witness :
    Inv3 ((step (Op.acquire ["baz"] {} true) initSt).getD initSt) := by
  have hs : step (Op.acquire ["baz"] {} true) initSt =
      some ((step (Op.acquire ["baz"] {} true) initSt).getD initSt) := by decide
  exact c3_notify_at_most_once.2.1 initSt (Op.acquire ["baz"] {} true) _
    c3_notify_at_most_once.1 (show initSt.curId < HANDLE_LIMIT by decide) hs

end Semlocks
